import Mathlib

/-!
Verification of the zorolib intrusive linked-list subsystem and hashing
helpers.

The doubly-linked circular list (`struct list_head`) is modelled as a heap
`State : Nat → Node` mapping node addresses to their `{next, prev}` fields.
Every list operation from the source is transcribed as a state transformer
performing the same sequence of single-field writes (each C statement reads
the state produced by the previous statement).

The hash list (`struct hlist_node` / `struct hlist_head`) is modelled with a
separate address space for heads and nodes; a `pprev` field holds a *slot*
(the address of a pointer): either a head's `first` slot or a node's `next`
slot, mirroring `struct hlist_node **pprev`.
-/

/-- Fields of a `struct list_head`: addresses of the next and previous node. -/
structure Node where
  next : Nat
  prev : Nat
deriving DecidableEq

/-- The heap of `struct list_head` objects, indexed by address. -/
def State := Nat → Node

/-- Write the `next` field of the node at address `a`. -/
def setNext (s : State) (a v : Nat) : State :=
  fun x => if x = a then { s x with next := v } else s x

/-- Write the `prev` field of the node at address `a`. -/
def setPrev (s : State) (a v : Nat) : State :=
  fun x => if x = a then { s x with prev := v } else s x

/-- `LIST_POISON1` from the source (`0x100`). -/
def LIST_POISON1 : Nat := 0x100

/-- `LIST_POISON2` from the source (`0x122`). -/
def LIST_POISON2 : Nat := 0x122

/-- `INIT_LIST_HEAD`: point the node at itself. -/
def INIT_LIST_HEAD (list : Nat) (s : State) : State :=
  setPrev (setNext s list list) list list

/-- `__list_add(new, prev, next)`: insert `new` between two consecutive
entries, with the source's write order
`next->prev = new; new->next = next; new->prev = prev; prev->next = new`. -/
def __list_add (_new prev next : Nat) (s : State) : State :=
  let s1 := setPrev s next _new
  let s2 := setNext s1 _new next
  let s3 := setPrev s2 _new prev
  setNext s3 prev _new

/-- `list_add(new, head)`: insert after the head. -/
def list_add (_new head : Nat) (s : State) : State :=
  __list_add _new head (s head).next s

/-- `list_add_tail(new, head)`: insert before the head. -/
def list_add_tail (_new head : Nat) (s : State) : State :=
  __list_add _new (s head).prev head s

/-- `__list_del(prev, next)`: `next->prev = prev; prev->next = next`. -/
def __list_del (prev next : Nat) (s : State) : State :=
  setNext (setPrev s next prev) prev next

/-- `__list_del_entry(entry)`. -/
def __list_del_entry (entry : Nat) (s : State) : State :=
  __list_del (s entry).prev (s entry).next s

/-- `list_del(entry)`: unlink and poison both fields. -/
def list_del (entry : Nat) (s : State) : State :=
  let s1 := __list_del_entry entry s
  setPrev (setNext s1 entry LIST_POISON1) entry LIST_POISON2

/-- `list_replace(old, new)` with the source's write order
`new->next = old->next; new->next->prev = new; new->prev = old->prev;
new->prev->next = new`. -/
def list_replace (old _new : Nat) (s : State) : State :=
  let s1 := setNext s _new (s old).next
  let s2 := setPrev s1 (s1 _new).next _new
  let s3 := setPrev s2 _new (s2 old).prev
  setNext s3 (s3 _new).prev _new

/-- `list_replace_init(old, new)`. -/
def list_replace_init (old _new : Nat) (s : State) : State :=
  INIT_LIST_HEAD old (list_replace old _new s)

/-- `list_del_init(entry)`: unlink and reinitialize to a singleton. -/
def list_del_init (entry : Nat) (s : State) : State :=
  INIT_LIST_HEAD entry (__list_del_entry entry s)

/-- `list_swap(entry1, entry2)`: replace `entry1` with `entry2` and re-add
`entry1` at `entry2`'s old position, with the adjacency fix-up. -/
def list_swap (entry1 entry2 : Nat) (s : State) : State :=
  let pos := (s entry2).prev
  let s1 := list_del entry2 s
  let s2 := list_replace entry1 entry2 s1
  let pos2 := if pos = entry1 then entry2 else pos
  list_add entry1 pos2 s2

/-- `list_move(list, head)`. -/
def list_move (list head : Nat) (s : State) : State :=
  list_add list head (__list_del_entry list s)

/-- `list_move_tail(list, head)`. -/
def list_move_tail (list head : Nat) (s : State) : State :=
  list_add_tail list head (__list_del_entry list s)

/-- `list_bulk_move_tail(head, first, last)`, one C statement per step,
each statement reading the state left by the previous one. -/
def list_bulk_move_tail (head first last : Nat) (s : State) : State :=
  let s1 := setNext s (s first).prev (s last).next
  let s2 := setPrev s1 (s1 last).next (s1 first).prev
  let s3 := setNext s2 (s2 head).prev first
  let s4 := setPrev s3 first (s3 head).prev
  let s5 := setNext s4 last head
  setPrev s5 head last

/-- `list_is_first(list, head)`. -/
def list_is_first (list head : Nat) (s : State) : Bool :=
  (s list).prev == head

/-- `list_is_last(list, head)`. -/
def list_is_last (list head : Nat) (s : State) : Bool :=
  (s list).next == head

/-- `list_empty(head)`. -/
def list_empty (head : Nat) (s : State) : Bool :=
  (s head).next == head

/-- `list_is_singular(head)`. -/
def list_is_singular (head : Nat) (s : State) : Bool :=
  !list_empty head s && ((s head).next == (s head).prev)

/-- `list_rotate_left(head)`: move the first element to the tail. -/
def list_rotate_left (head : Nat) (s : State) : State :=
  if list_empty head s then s
  else list_move_tail (s head).next head s

/-- `__list_cut_position(list, head, entry)`. -/
def __list_cut_position (list head entry : Nat) (s : State) : State :=
  let new_first := (s entry).next
  let s1 := setNext s list (s head).next
  let s2 := setPrev s1 (s1 list).next list
  let s3 := setPrev s2 list entry
  let s4 := setNext s3 entry list
  let s5 := setNext s4 head new_first
  setPrev s5 new_first head

/-- `list_cut_position(list, head, entry)` with its three guards. -/
def list_cut_position (list head entry : Nat) (s : State) : State :=
  if list_empty head s then s
  else if list_is_singular head s && ((s head).next ≠ entry && head ≠ entry) then s
  else if entry = head then INIT_LIST_HEAD list s
  else __list_cut_position list head entry s

/-- `list_cut_before(list, head, entry)`. -/
def list_cut_before (list head entry : Nat) (s : State) : State :=
  if (s head).next = entry then INIT_LIST_HEAD list s
  else
    let s1 := setNext s list (s head).next
    let s2 := setPrev s1 (s1 list).next list
    let s3 := setPrev s2 list (s2 entry).prev
    let s4 := setNext s3 (s3 list).prev list
    let s5 := setNext s4 head entry
    setPrev s5 entry head

/-- `__list_splice(list, prev, next)`. -/
def __list_splice (list prev next : Nat) (s : State) : State :=
  let first := (s list).next
  let last := (s list).prev
  let s1 := setPrev s first prev
  let s2 := setNext s1 prev first
  let s3 := setNext s2 last next
  setPrev s3 next last

/-- `list_splice(list, head)`. -/
def list_splice (list head : Nat) (s : State) : State :=
  if list_empty list s then s
  else __list_splice list head (s head).next s

/-- `list_splice_tail(list, head)`. -/
def list_splice_tail (list head : Nat) (s : State) : State :=
  if list_empty list s then s
  else __list_splice list (s head).prev head s

/-- `list_splice_init(list, head)`. -/
def list_splice_init (list head : Nat) (s : State) : State :=
  if list_empty list s then s
  else INIT_LIST_HEAD list (__list_splice list head (s head).next s)

/-- `list_splice_tail_init(list, head)`. -/
def list_splice_tail_init (list head : Nat) (s : State) : State :=
  if list_empty list s then s
  else INIT_LIST_HEAD list (__list_splice list (s head).prev head s)

/-- `list_for_each_safe(pos, n, head)` where the loop body deletes the
current entry with `list_del(pos)`: one loop step takes `pos`, the
precomputed `n`, deletes `pos`, then advances `pos = n; n = pos->next`.
Fuel bounds the number of iterations. -/
def eachSafeDelAux : Nat → State → Nat → Nat → Nat → List Nat × State
  | 0, s, _, _, _ => ([], s)
  | fuel + 1, s, head, pos, n =>
    if pos = head then ([], s)
    else
      let s' := list_del pos s
      let r := eachSafeDelAux fuel s' head n ((s' n).next)
      (pos :: r.1, r.2)

/-- Run the safe iteration with deletion body from the start of the list. -/
def list_for_each_safe_del (head : Nat) (s : State) (fuel : Nat) :
    List Nat × State :=
  eachSafeDelAux fuel s head ((s head).next) ((s ((s head).next)).next)

/-!  ## Representation predicate for circular doubly-linked lists -/

/-- `chainNP s a xs b`: starting at `a`, the nodes of `xs` follow in order
and the walk ends at `b`, with every adjacent pair `(u, v)` doubly linked:
`u.next = v` and `v.prev = u`. -/
def chainNP (s : State) : Nat → List Nat → Nat → Prop
  | a, [], b => (s a).next = b ∧ (s b).prev = a
  | a, x :: xs, b => (s a).next = x ∧ (s x).prev = a ∧ chainNP s x xs b

instance chainNP.instDecidable (s : State) :
    ∀ (a : Nat) (xs : List Nat) (b : Nat), Decidable (chainNP s a xs b)
  | _, [], _ => inferInstanceAs (Decidable (_ ∧ _))
  | _, x :: xs, b =>
    have := chainNP.instDecidable s x xs b
    inferInstanceAs (Decidable (_ ∧ _ ∧ _))

/-- `lrepr s h xs`: the head `h` followed by the distinct nodes `xs` forms a
well-formed circular doubly-linked list in heap `s`. -/
def lrepr (s : State) (h : Nat) (xs : List Nat) : Prop :=
  chainNP s h xs h ∧ (h :: xs).Nodup

instance (s : State) (h : Nat) (xs : List Nat) : Decidable (lrepr s h xs) :=
  inferInstanceAs (Decidable (_ ∧ _))

/-- One step of pointer reachability: following a `next` pointer. -/
def nextStep (s : State) (a b : Nat) : Prop := (s a).next = b

/-- Reachability from the head by following `next` pointers. -/
def reach (s : State) (h n : Nat) : Prop :=
  Relation.ReflTransGen (nextStep s) h n

/-! ### Toolkit lemmas about `chainNP` -/

theorem chainNP_append_iff {s : State} {a y b : Nat} (A B : List Nat) :
    chainNP s a (A ++ y :: B) b ↔ chainNP s a A y ∧ chainNP s y B b := by
  induction A generalizing a with
  | nil => simp [chainNP, and_assoc]
  | cons x A ih => simp [chainNP, ih, and_assoc]

theorem chainNP_next_head {s : State} {a b : Nat} {xs : List Nat}
    (hc : chainNP s a xs b) : (s a).next = xs.headD b := by
  cases xs <;> simp_all [chainNP]

theorem chainNP_head_prev {s : State} {a b : Nat} {xs : List Nat}
    (hc : chainNP s a xs b) : (s (xs.headD b)).prev = a := by
  cases xs <;> simp_all [chainNP]

theorem chainNP_next_last {s : State} {a b : Nat} {xs : List Nat}
    (hc : chainNP s a xs b) : (s (xs.getLastD a)).next = b := by
  induction xs generalizing a with
  | nil => exact hc.1
  | cons x xs ih => rw [List.getLastD_cons]; exact ih hc.2.2

theorem chainNP_prev_last {s : State} {a b : Nat} {xs : List Nat}
    (hc : chainNP s a xs b) : (s b).prev = xs.getLastD a := by
  induction xs generalizing a with
  | nil => exact hc.2
  | cons x xs ih => rw [List.getLastD_cons]; exact ih hc.2.2

theorem chainNP_frame {s s' : State} {a b : Nat} {xs : List Nat}
    (hc : chainNP s a xs b)
    (hn : ∀ x ∈ a :: xs, (s' x).next = (s x).next)
    (hp : ∀ x ∈ xs ++ [b], (s' x).prev = (s x).prev) :
    chainNP s' a xs b := by
  induction xs generalizing a with
  | nil => exact ⟨(hn a (by simp)).trans hc.1, (hp b (by simp)).trans hc.2⟩
  | cons x xs ih =>
    refine ⟨(hn a (by simp)).trans hc.1, (hp x (by simp)).trans hc.2.1,
      ih hc.2.2 ?_ ?_⟩
    · intro y hy
      exact hn y (by simpa using Or.inr (by simpa using hy))
    · intro y hy
      exact hp y (by simp only [List.cons_append, List.mem_cons]; right; exact hy)

theorem chainNP_split2 {s : State} {a b : Nat} {A B : List Nat}
    (hc : chainNP s a (A ++ B) b) :
    chainNP s a A (B.headD b) ∧ chainNP s (A.getLastD a) B b := by
  cases B with
  | nil =>
    rw [List.append_nil] at hc
    exact ⟨hc, chainNP_next_last hc, chainNP_prev_last hc⟩
  | cons q B' =>
    obtain ⟨h1, h2⟩ := (chainNP_append_iff A B').mp hc
    exact ⟨h1, chainNP_next_last h1, chainNP_prev_last h1, h2⟩

theorem chainNP_join2 {s : State} {a b : Nat} {A B : List Nat}
    (h1 : chainNP s a A (B.headD b)) (h2 : chainNP s (A.getLastD a) B b) :
    chainNP s a (A ++ B) b := by
  cases B with
  | nil => simpa using h1
  | cons q B' => exact (chainNP_append_iff A B').mpr ⟨h1, h2.2.2⟩

theorem chainNP_rebridge {s s' : State} {X b Z W : Nat} {B : List Nat}
    (hc : chainNP s X B b) (nd : B.Nodup)
    (h1 : (s' Z).next = B.headD W)
    (h2 : ∀ q, B.head? = some q → (s' q).prev = Z)
    (h3 : ∀ p, B.getLast? = some p → (s' p).next = W)
    (h4 : (s' W).prev = B.getLastD Z)
    (hn : ∀ x ∈ B, x ≠ B.getLastD Z → (s' x).next = (s x).next)
    (hp : ∀ x ∈ B, x ≠ B.headD W → (s' x).prev = (s x).prev) :
    chainNP s' Z B W := by
  induction B generalizing X Z with
  | nil => exact ⟨h1, h4⟩
  | cons q B' ih =>
    have hqB' : q ∉ B' := by simp_all
    have ndB' : B'.Nodup := nd.of_cons
    have hlast : (q :: B').getLastD Z = B'.getLastD q := List.getLastD_cons ..
    refine ⟨by simpa using h1, h2 q rfl, ?_⟩
    have hcq : chainNP s q B' b := hc.2.2
    apply ih hcq ndB'
    · -- (s' q).next = B'.headD W
      cases B' with
      | nil => simpa using h3 q rfl
      | cons q' B'' =>
        have hne : q ≠ (q :: q' :: B'').getLastD Z := by
          rw [hlast]
          have : (q' :: B'').getLastD q ∈ q' :: B'' := by
            rw [List.getLastD_cons]
            exact List.getLastD_mem_cons ..
          intro heq; exact hqB' (heq ▸ this)
        rw [hn q (by simp) hne]
        simpa using hcq.1
    · intro q2 hq2
      cases B' with
      | nil => simp at hq2
      | cons q' B'' =>
        have hq : q2 = q' := by
          have := hq2; simp at this; exact this.symm
        subst hq
        have hne : q2 ≠ q := by
          intro h; exact hqB' (h ▸ List.mem_cons_self q2 B'')
        rw [hp q2 (by simp) (by simpa using hne)]
        simpa using hcq.2.1
    · intro p hp'
      apply h3
      cases B' with
      | nil => simp at hp'
      | cons q' B'' => simpa using hp'
    · rw [← hlast]; exact h4
    · intro x hx hne
      exact hn x (by simp [hx]) (by rwa [hlast])
    · intro x hx hne
      refine hp x (by simp [hx]) ?_
      simp only [List.headD_cons]
      rintro rfl; exact hqB' hx

/-! ### Pointwise characterizations of the primitive operations -/

theorem INIT_LIST_HEAD_spec (s : State) (h x : Nat) :
    INIT_LIST_HEAD h s x = if x = h then ⟨h, h⟩ else s x := by
  unfold INIT_LIST_HEAD setNext setPrev
  by_cases hx : x = h <;> simp [hx]

theorem __list_add_spec (s : State) {n p q : Nat} (hnp : n ≠ p) (hnq : n ≠ q)
    (x : Nat) :
    __list_add n p q s x =
      if x = n then ⟨q, p⟩
      else { next := if x = p then n else (s x).next,
             prev := if x = q then n else (s x).prev } := by
  unfold __list_add setNext setPrev
  by_cases h1 : x = n <;> by_cases h2 : x = p <;> by_cases h3 : x = q <;>
    simp_all

theorem __list_del_spec (s : State) (p q x : Nat) :
    __list_del p q s x =
      { next := if x = p then q else (s x).next,
        prev := if x = q then p else (s x).prev } := by
  unfold __list_del setNext setPrev
  by_cases h1 : x = p <;> by_cases h2 : x = q <;> simp_all

theorem list_del_spec (s : State) (e x : Nat) :
    list_del e s x =
      if x = e then ⟨LIST_POISON1, LIST_POISON2⟩
      else __list_del (s e).prev (s e).next s x := by
  unfold list_del __list_del_entry setNext setPrev
  by_cases h1 : x = e <;> simp_all

theorem list_replace_flat (s : State) {old n : Nat} (h1 : n ≠ old)
    (h4 : old ≠ (s old).next) :
    list_replace old n s =
      setNext (setPrev (setPrev (setNext s n (s old).next) (s old).next n) n
        (s old).prev) (s old).prev n := by
  have r1 : (setNext s n (s old).next n).next = (s old).next := by simp [setNext]
  have r2 : (setPrev (setNext s n (s old).next) (s old).next n old).prev
      = (s old).prev := by simp [setPrev, setNext, h4, Ne.symm h1]
  have r3 : (setPrev (setPrev (setNext s n (s old).next) (s old).next n) n
      (s old).prev n).prev = (s old).prev := by simp [setPrev]
  unfold list_replace
  simp only [r1, r2, r3]

theorem list_replace_spec (s : State) {old n : Nat} (h1 : n ≠ old)
    (h2 : n ≠ (s old).next) (h3 : n ≠ (s old).prev) (h4 : old ≠ (s old).next)
    (x : Nat) :
    list_replace old n s x =
      if x = n then ⟨(s old).next, (s old).prev⟩
      else { next := if x = (s old).prev then n else (s x).next,
             prev := if x = (s old).next then n else (s x).prev } := by
  rw [list_replace_flat s h1 h4]
  unfold setNext setPrev
  by_cases e1 : x = n
  · subst e1
    simp [h2, h3]
  · by_cases e2 : x = (s old).prev <;> by_cases e3 : x = (s old).next <;>
      simp_all

theorem __list_splice_spec (s : State) (list p q : Nat)
    (hpl : p ≠ (s list).prev) (x : Nat) :
    __list_splice list p q s x =
      { next := if x = p then (s list).next
                else if x = (s list).prev then q else (s x).next,
        prev := if x = q then (s list).prev
                else if x = (s list).next then p else (s x).prev } := by
  unfold __list_splice setNext setPrev
  by_cases e1 : x = p <;> by_cases e2 : x = (s list).prev <;>
    by_cases e3 : x = q <;> by_cases e4 : x = (s list).next <;>
    simp_all [Ne.symm hpl]

/-! ### List utilities -/

theorem headD_mem_cons (l : List Nat) (d : Nat) : l.headD d ∈ d :: l := by
  cases l <;> simp

theorem headD_mem {l : List Nat} (d : Nat) (h : l ≠ []) : l.headD d ∈ l := by
  cases l with
  | nil => exact absurd rfl h
  | cons x xs => simp

theorem getLastD_mem {l : List Nat} (d : Nat) (h : l ≠ []) : l.getLastD d ∈ l := by
  cases l with
  | nil => exact absurd rfl h
  | cons x xs =>
    rw [List.getLastD_cons]
    exact List.getLastD_mem_cons ..

theorem headD_congr {l : List Nat} (d d' : Nat) (h : l ≠ []) :
    l.headD d = l.headD d' := by
  cases l with
  | nil => exact absurd rfl h
  | cons x xs => simp

theorem getLastD_congr {l : List Nat} (d d' : Nat) (h : l ≠ []) :
    l.getLastD d = l.getLastD d' := by
  cases l with
  | nil => exact absurd rfl h
  | cons x xs => rw [List.getLastD_cons, List.getLastD_cons]

theorem getLast?_eq_getLastD {l : List Nat} (d : Nat) (h : l ≠ []) :
    l.getLast? = some (l.getLastD d) := by
  cases l with
  | nil => exact absurd rfl h
  | cons x xs =>
    rw [List.getLastD_cons]
    induction xs generalizing x with
    | nil => rfl
    | cons y ys ih => rw [List.getLastD_cons]; exact ih y (by simp)

theorem head?_eq_headD {l : List Nat} (d : Nat) (h : l ≠ []) :
    l.head? = some (l.headD d) := by
  cases l with
  | nil => exact absurd rfl h
  | cons x xs => rfl

/-! ### Nodup bookkeeping -/

theorem nodup_mid_insert {h n : Nat} {A B : List Nat}
    (nd : (h :: (A ++ B)).Nodup) (hn : n ∉ h :: (A ++ B)) :
    (h :: (A ++ n :: B)).Nodup := by
  have p : List.Perm (h :: n :: (A ++ B)) (h :: (A ++ n :: B)) :=
    List.Perm.cons h List.perm_middle.symm
  refine p.nodup ?_
  simp only [List.nodup_cons, List.mem_cons] at nd hn ⊢
  push_neg at hn
  exact ⟨by tauto, hn.2, nd.2⟩

theorem nodup_mid_delete {h e : Nat} {A B : List Nat}
    (nd : (h :: (A ++ e :: B)).Nodup) : (h :: (A ++ B)).Nodup := by
  have p : List.Perm (h :: (A ++ e :: B)) (h :: e :: (A ++ B)) :=
    List.Perm.cons h List.perm_middle
  have key := p.nodup nd
  simp only [List.nodup_cons, List.mem_cons] at key ⊢
  exact ⟨fun hh => key.1 (Or.inr hh), key.2.2⟩

theorem nodup_mid_facts {h e : Nat} {A B : List Nat}
    (nd : (h :: (A ++ e :: B)).Nodup) :
    h ∉ A ∧ h ∉ B ∧ h ≠ e ∧ e ∉ A ∧ e ∉ B ∧ A.Nodup ∧ B.Nodup ∧
      (∀ x ∈ A, x ∉ B) := by
  simp only [List.nodup_cons, List.mem_append, List.mem_cons,
    List.nodup_append, List.nodup_cons, List.Disjoint] at nd
  obtain ⟨hh, hA, ⟨heB, hB⟩, hd⟩ := nd
  push_neg at hh
  refine ⟨hh.1, fun hx => hh.2.2 hx, hh.2.1, fun hx => hd hx (Or.inl rfl),
    heB, hA, hB, fun x hx hxB => hd hx (Or.inr hxB)⟩

theorem nodup_cons_facts {h : Nat} {A : List Nat}
    (nd : (h :: A).Nodup) : h ∉ A ∧ A.Nodup := by
  simp only [List.nodup_cons] at nd
  exact nd

/-! ### Reciprocal linkage and membership facts from a chain -/

theorem chainNP_recip_next {s : State} {a b : Nat} {xs : List Nat}
    (hc : chainNP s a xs b) : ∀ x ∈ a :: xs, (s ((s x).next)).prev = x := by
  induction xs generalizing a with
  | nil =>
    intro x hx
    simp only [List.mem_cons, List.not_mem_nil, or_false] at hx
    subst hx; rw [hc.1]; exact hc.2
  | cons y ys ih =>
    intro x hx
    rcases List.mem_cons.mp hx with rfl | hx'
    · rw [hc.1]; exact hc.2.1
    · exact ih hc.2.2 x hx'

theorem chainNP_recip_prev {s : State} {a b : Nat} {xs : List Nat}
    (hc : chainNP s a xs b) : ∀ x ∈ xs ++ [b], (s ((s x).prev)).next = x := by
  induction xs generalizing a with
  | nil =>
    intro x hx
    simp only [List.nil_append, List.mem_singleton] at hx
    subst hx; rw [hc.2]; exact hc.1
  | cons y ys ih =>
    intro x hx
    rcases (by simpa using hx : x = y ∨ x ∈ ys ∨ x = b) with rfl | hx'
    · rw [hc.2.1]; exact hc.1
    · exact ih hc.2.2 x (by simpa using hx')

theorem chainNP_mem_next {s : State} {a b : Nat} {xs : List Nat}
    (hc : chainNP s a xs b) : ∀ x ∈ a :: xs, (s x).next ∈ xs ++ [b] := by
  induction xs generalizing a with
  | nil =>
    intro x hx
    simp only [List.mem_cons, List.not_mem_nil, or_false] at hx
    subst hx; rw [hc.1]; simp
  | cons y ys ih =>
    intro x hx
    rcases List.mem_cons.mp hx with rfl | hx'
    · rw [hc.1]; simp
    · have := ih hc.2.2 x hx'
      simp only [List.cons_append, List.mem_cons]
      right; exact this

/-! ### lrepr: frame rule, initialization -/

theorem lrepr_frame {s s' : State} {h : Nat} {xs : List Nat}
    (hr : lrepr s h xs) (hagree : ∀ x ∈ h :: xs, s' x = s x) : lrepr s' h xs := by
  refine ⟨chainNP_frame hr.1 ?_ ?_, hr.2⟩
  · intro x hx; rw [hagree x hx]
  · intro x hx
    have : x ∈ h :: xs := by
      rcases List.mem_append.mp hx with h1 | h1
      · exact List.mem_cons_of_mem _ h1
      · simp only [List.mem_singleton] at h1; subst h1; exact List.mem_cons_self ..
    rw [hagree x this]

theorem lrepr_INIT (s : State) (h : Nat) : lrepr (INIT_LIST_HEAD h s) h [] := by
  refine ⟨⟨?_, ?_⟩, by simp⟩ <;> simp [INIT_LIST_HEAD_spec]

theorem nodup_app_facts {h : Nat} {A B : List Nat}
    (nd : (h :: (A ++ B)).Nodup) :
    h ∉ A ∧ h ∉ B ∧ A.Nodup ∧ B.Nodup ∧ (∀ x ∈ A, x ∉ B) := by
  simp only [List.nodup_cons, List.mem_append, List.nodup_append,
    List.Disjoint] at nd
  obtain ⟨hh, hA, hB, hd⟩ := nd
  push_neg at hh
  exact ⟨hh.1, hh.2, hA, hB, fun x hx hxB => hd hx hxB⟩

theorem headD_eq_of_head? {l : List Nat} {y : Nat} (d : Nat)
    (hy : l.head? = some y) : l.headD d = y := by
  cases l with
  | nil => simp at hy
  | cons x xs => simp at hy; simp [hy]

theorem getLastD_eq_of_getLast? {l : List Nat} {z : Nat} (d : Nat)
    (hz : l.getLast? = some z) : l.getLastD d = z := by
  have hne : l ≠ [] := by rintro rfl; simp at hz
  rw [getLast?_eq_getLastD d hne] at hz
  exact Option.some.inj hz

theorem getLastD_append (A B : List Nat) (d : Nat) :
    (A ++ B).getLastD d = B.getLastD (A.getLastD d) := by
  induction A generalizing d with
  | nil => simp
  | cons a as ih =>
    rw [List.cons_append, List.getLastD_cons, ih, List.getLastD_cons]

theorem mem_of_head? {l : List Nat} {y : Nat} (hy : l.head? = some y) :
    y ∈ l := by
  cases l with
  | nil => simp at hy
  | cons x xs => simp at hy; simp [hy]

theorem mem_of_getLast? {l : List Nat} {z : Nat} (hz : l.getLast? = some z) :
    z ∈ l := by
  have hne : l ≠ [] := by rintro rfl; simp at hz
  have := getLastD_eq_of_getLast? z hz
  rw [← this]
  exact getLastD_mem z hne

/-! ### The master insertion lemma -/

theorem lrepr_insert {s : State} {h n : Nat} {A B : List Nat}
    (hr : lrepr s h (A ++ B)) (hn : n ∉ h :: (A ++ B)) :
    lrepr (__list_add n (A.getLastD h) (B.headD h) s) h (A ++ n :: B) := by
  obtain ⟨hc, nd⟩ := hr
  obtain ⟨hA, hB⟩ := chainNP_split2 hc
  obtain ⟨hhA, hhB, ndA, ndB, hAB⟩ := nodup_app_facts nd
  have hnh : n ≠ h := by intro e; exact hn (e ▸ List.mem_cons_self ..)
  have hnA : n ∉ A := fun e => hn (by simp [e])
  have hnB : n ∉ B := fun e => hn (by simp [e])
  have hpA : A.getLastD h ∈ h :: A := List.getLastD_mem_cons ..
  have hqB : B.headD h ∈ h :: B := headD_mem_cons ..
  have hnp : n ≠ A.getLastD h := by
    intro e
    rcases List.mem_cons.mp (e ▸ hpA) with e' | e'
    · exact hnh e'
    · exact hnA e'
  have hnq : n ≠ B.headD h := by
    intro e
    rcases List.mem_cons.mp (e ▸ hqB) with e' | e'
    · exact hnh e'
    · exact hnB e'
  have spec := __list_add_spec s hnp hnq
  set s' := __list_add n (A.getLastD h) (B.headD h) s with hs'
  have sp_n : s' n = ⟨B.headD h, A.getLastD h⟩ := by rw [spec]; simp
  have sp_next : ∀ x, x ≠ n →
      (s' x).next = if x = A.getLastD h then n else (s x).next := by
    intro x hx; rw [spec]; simp [hx]
  have sp_prev : ∀ x, x ≠ n →
      (s' x).prev = if x = B.headD h then n else (s x).prev := by
    intro x hx; rw [spec]; simp [hx]
  -- part 1: the A-segment, now ending in n
  have part1 : chainNP s' h A n := by
    refine chainNP_rebridge hA ndA ?_ ?_ ?_ ?_ ?_ ?_
    · -- (s' h).next = A.headD n
      cases A with
      | nil =>
        rw [sp_next h (Ne.symm hnh)]; simp
      | cons a as =>
        have hhp : h ≠ (a :: as).getLastD h := by
          intro e
          exact hhA (e ▸ getLastD_mem h (l := a :: as) (by simp))
        rw [sp_next h (Ne.symm hnh), if_neg hhp]
        have := chainNP_next_head hA
        simpa using this
    · intro y hy
      have hyA : y ∈ A := mem_of_head? hy
      have hyn : y ≠ n := fun e => hnA (e ▸ hyA)
      have hyq : y ≠ B.headD h := by
        intro e
        rcases List.mem_cons.mp (e ▸ hqB) with e' | e'
        · exact hhA (e' ▸ hyA)
        · exact hAB y hyA e'
      rw [sp_prev y hyn, if_neg hyq]
      have := chainNP_head_prev hA
      rwa [headD_eq_of_head? _ hy] at this
    · intro z hz
      have hzp : z = A.getLastD h := (getLastD_eq_of_getLast? h hz).symm
      rw [sp_next z (by rw [hzp]; exact Ne.symm hnp), hzp, if_pos rfl]
    · rw [sp_n]
    · intro x hx hne
      have hxn : x ≠ n := fun e => hnA (e ▸ hx)
      rw [sp_next x hxn, if_neg hne]
    · intro x hx _
      have hxn : x ≠ n := fun e => hnA (e ▸ hx)
      have hxq : x ≠ B.headD h := by
        intro e
        rcases List.mem_cons.mp (e ▸ hqB) with e' | e'
        · exact hhA (e' ▸ hx)
        · exact hAB x hx e'
      rw [sp_prev x hxn, if_neg hxq]
  -- part 2: the B-segment, now starting from n
  have part2 : chainNP s' n B h := by
    refine chainNP_rebridge hB ndB ?_ ?_ ?_ ?_ ?_ ?_
    · rw [sp_n]
    · intro y hy
      have hyq : y = B.headD h := (headD_eq_of_head? h hy).symm
      rw [sp_prev y (by rw [hyq]; exact Ne.symm hnq), hyq, if_pos rfl]
    · intro z hz
      have hzB : z ∈ B := mem_of_getLast? hz
      have hzn : z ≠ n := fun e => hnB (e ▸ hzB)
      have hzp : z ≠ A.getLastD h := by
        intro e
        rcases List.mem_cons.mp (e ▸ hpA) with e' | e'
        · exact hhB (e' ▸ hzB)
        · exact hAB _ e' hzB
      rw [sp_next z hzn, if_neg hzp]
      have := chainNP_next_last hB
      rwa [getLastD_eq_of_getLast? _ hz] at this
    · -- (s' h).prev = B.getLastD n
      cases B with
      | nil =>
        rw [sp_prev h (Ne.symm hnh)]; simp
      | cons b bs =>
        have hhq : h ≠ (b :: bs).headD h := by
          intro e
          exact hhB (e ▸ headD_mem h (l := b :: bs) (by simp))
        rw [sp_prev h (Ne.symm hnh), if_neg hhq]
        have := chainNP_prev_last hc
        rw [getLastD_append] at this
        rw [this]
        exact getLastD_congr _ _ (by simp)
    · intro x hx hne
      have hxn : x ≠ n := fun e => hnB (e ▸ hx)
      have hxp : x ≠ A.getLastD h := by
        intro e
        rcases List.mem_cons.mp (e ▸ hpA) with e' | e'
        · exact hhB (e' ▸ hx)
        · exact hAB _ e' hx
      rw [sp_next x hxn, if_neg hxp]
    · intro x hx hne
      have hxn : x ≠ n := fun e => hnB (e ▸ hx)
      rw [sp_prev x hxn, if_neg hne]
  -- assemble
  have part2top : chainNP s' (A.getLastD h) (n :: B) h := by
    refine ⟨?_, ?_, part2⟩
    · rw [sp_next _ (Ne.symm hnp), if_pos rfl]
    · rw [sp_n]
  refine ⟨?_, nodup_mid_insert nd hn⟩
  have := chainNP_join2 (B := n :: B) (by simpa using part1) part2top
  exact this

/-! ### Corollaries: list_add and list_add_tail -/

theorem lrepr_list_add {s : State} {h n : Nat} {xs : List Nat}
    (hr : lrepr s h xs) (hn : n ∉ h :: xs) :
    lrepr (list_add n h s) h (n :: xs) := by
  have e1 : (s h).next = xs.headD h := chainNP_next_head hr.1
  have key := lrepr_insert (A := []) (B := xs) (by simpa using hr)
    (by simpa using hn)
  simpa [list_add, e1] using key

theorem lrepr_list_add_tail {s : State} {h n : Nat} {xs : List Nat}
    (hr : lrepr s h xs) (hn : n ∉ h :: xs) :
    lrepr (list_add_tail n h s) h (xs ++ [n]) := by
  have e1 : (s h).prev = xs.getLastD h := chainNP_prev_last hr.1
  have key := lrepr_insert (A := xs) (B := []) (by simpa using hr)
    (by simpa using hn)
  simpa [list_add_tail, e1] using key

/-! ### The master deletion lemma -/

theorem lrepr_delentry {s : State} {h e : Nat} {A B : List Nat}
    (hr : lrepr s h (A ++ e :: B)) :
    lrepr (__list_del_entry e s) h (A ++ B) ∧
      (∀ x, x ≠ A.getLastD h → x ≠ B.headD h → __list_del_entry e s x = s x) := by
  obtain ⟨hc, nd⟩ := hr
  obtain ⟨hA, hB⟩ := (chainNP_append_iff A B).mp hc
  obtain ⟨hhA, hhB, hhe, heA, heB, ndA, ndB, hAB⟩ := nodup_mid_facts nd
  have he1 : (s e).prev = A.getLastD h := chainNP_prev_last hA
  have he2 : (s e).next = B.headD h := chainNP_next_head hB
  have hrw : __list_del_entry e s = __list_del (A.getLastD h) (B.headD h) s := by
    unfold __list_del_entry; rw [he1, he2]
  have hpA : A.getLastD h ∈ h :: A := List.getLastD_mem_cons ..
  have hqB : B.headD h ∈ h :: B := headD_mem_cons ..
  rw [hrw]
  set s' := __list_del (A.getLastD h) (B.headD h) s with hs'
  have spec := __list_del_spec s (A.getLastD h) (B.headD h)
  have sp_next : ∀ x, (s' x).next =
      if x = A.getLastD h then B.headD h else (s x).next := by
    intro x; rw [hs', spec x]
  have sp_prev : ∀ x, (s' x).prev =
      if x = B.headD h then A.getLastD h else (s x).prev := by
    intro x; rw [hs', spec x]
  have part1 : chainNP s' h A (B.headD h) := by
    refine chainNP_rebridge hA ndA ?_ ?_ ?_ ?_ ?_ ?_
    · cases A with
      | nil => rw [sp_next h]; simp
      | cons a as =>
        have hhp : h ≠ (a :: as).getLastD h := by
          intro e'
          exact hhA (e' ▸ getLastD_mem h (l := a :: as) (by simp))
        rw [sp_next h, if_neg hhp]
        have := chainNP_next_head hA
        simpa using this
    · intro y hy
      have hyA : y ∈ A := mem_of_head? hy
      have hyq : y ≠ B.headD h := by
        intro e'
        rcases List.mem_cons.mp (e' ▸ hqB) with e'' | e''
        · exact hhA (e'' ▸ hyA)
        · exact hAB y hyA e''
      rw [sp_prev y, if_neg hyq]
      have := chainNP_head_prev hA
      rwa [headD_eq_of_head? _ hy] at this
    · intro z hz
      have hzp : z = A.getLastD h := (getLastD_eq_of_getLast? h hz).symm
      rw [sp_next z, hzp, if_pos rfl]
    · rw [sp_prev _, if_pos rfl]
    · intro x hx hne
      rw [sp_next x, if_neg hne]
    · intro x hx _
      have hxq : x ≠ B.headD h := by
        intro e'
        rcases List.mem_cons.mp (e' ▸ hqB) with e'' | e''
        · exact hhA (e'' ▸ hx)
        · exact hAB x hx e''
      rw [sp_prev x, if_neg hxq]
  have part2 : chainNP s' (A.getLastD h) B h := by
    refine chainNP_rebridge hB ndB ?_ ?_ ?_ ?_ ?_ ?_
    · rw [sp_next _, if_pos rfl]
    · intro y hy
      have hyq : y = B.headD h := (headD_eq_of_head? h hy).symm
      rw [sp_prev y, hyq, if_pos rfl]
    · intro z hz
      have hzB : z ∈ B := mem_of_getLast? hz
      have hzp : z ≠ A.getLastD h := by
        intro e'
        rcases List.mem_cons.mp (e' ▸ hpA) with e'' | e''
        · exact hhB (e'' ▸ hzB)
        · exact hAB _ e'' hzB
      rw [sp_next z, if_neg hzp]
      have := chainNP_next_last hB
      rwa [getLastD_eq_of_getLast? _ hz] at this
    · cases B with
      | nil => rw [sp_prev h]; simp
      | cons b bs =>
        have hhq : h ≠ (b :: bs).headD h := by
          intro e'
          exact hhB (e' ▸ headD_mem h (l := b :: bs) (by simp))
        rw [sp_prev h, if_neg hhq]
        have := chainNP_prev_last hc
        rw [getLastD_append, List.getLastD_cons] at this
        rw [this]
        exact getLastD_congr _ _ (by simp)
    · intro x hx hne
      have hxp : x ≠ A.getLastD h := by
        intro e'
        rcases List.mem_cons.mp (e' ▸ hpA) with e'' | e''
        · exact hhB (e'' ▸ hx)
        · exact hAB _ e'' hx
      rw [sp_next x, if_neg hxp]
    · intro x hx hne
      rw [sp_prev x, if_neg hne]
  refine ⟨⟨chainNP_join2 part1 part2, nodup_mid_delete nd⟩, ?_⟩
  intro x hx1 hx2
  rw [hs', spec x, if_neg hx1, if_neg hx2]

/-! ### Pointwise agreement and footprint corollaries -/

theorem list_del_agree {s : State} {e x : Nat} (hx : x ≠ e) :
    list_del e s x = __list_del_entry e s x := by
  rw [list_del_spec, if_neg hx]; rfl

theorem list_del_init_agree {s : State} {e x : Nat} (hx : x ≠ e) :
    list_del_init e s x = __list_del_entry e s x := by
  unfold list_del_init
  rw [INIT_LIST_HEAD_spec, if_neg hx]

theorem list_del_init_at (s : State) (e : Nat) :
    list_del_init e s e = ⟨e, e⟩ := by
  unfold list_del_init
  rw [INIT_LIST_HEAD_spec, if_pos rfl]

theorem __list_del_entry_out {s : State} {e x : Nat}
    (h1 : x ≠ (s e).prev) (h2 : x ≠ (s e).next) :
    __list_del_entry e s x = s x := by
  unfold __list_del_entry
  rw [__list_del_spec, if_neg h1, if_neg h2]

theorem __list_add_out {s : State} {n p q x : Nat}
    (h1 : x ≠ n) (h2 : x ≠ p) (h3 : x ≠ q) :
    __list_add n p q s x = s x := by
  unfold __list_add setNext setPrev
  simp [h1, h2, h3]

theorem INIT_LIST_HEAD_out {s : State} {h x : Nat} (hx : x ≠ h) :
    INIT_LIST_HEAD h s x = s x := by
  rw [INIT_LIST_HEAD_spec, if_neg hx]

/-! ### Deletion corollaries -/

theorem lrepr_list_del {s : State} {h e : Nat} {A B : List Nat}
    (hr : lrepr s h (A ++ e :: B)) :
    lrepr (list_del e s) h (A ++ B) := by
  obtain ⟨hhA, hhB, hhe, heA, heB, -, -, -⟩ := nodup_mid_facts hr.2
  have hd := lrepr_delentry hr
  refine lrepr_frame hd.1 ?_
  intro x hx
  have hxe : x ≠ e := by
    rintro rfl
    rcases List.mem_cons.mp hx with e' | e'
    · exact hhe e'.symm
    · rcases List.mem_append.mp e' with e'' | e'' <;> [exact heA e''; exact heB e'']
  rw [list_del_agree hxe]

theorem lrepr_list_del_init {s : State} {h e : Nat} {A B : List Nat}
    (hr : lrepr s h (A ++ e :: B)) :
    lrepr (list_del_init e s) h (A ++ B) ∧
      lrepr (list_del_init e s) e [] := by
  obtain ⟨hhA, hhB, hhe, heA, heB, -, -, -⟩ := nodup_mid_facts hr.2
  have hd := lrepr_delentry hr
  constructor
  · refine lrepr_frame hd.1 ?_
    intro x hx
    have hxe : x ≠ e := by
      rintro rfl
      rcases List.mem_cons.mp hx with e' | e'
      · exact hhe e'.symm
      · rcases List.mem_append.mp e' with e'' | e'' <;>
          [exact heA e''; exact heB e'']
    rw [list_del_init_agree hxe]
  · refine ⟨⟨?_, ?_⟩, by simp⟩ <;> rw [list_del_init_at]

/-! ### The replace lemma -/

theorem lrepr_replace {s : State} {h old n : Nat} {A B : List Nat}
    (hr : lrepr s h (A ++ old :: B)) (hn : n ∉ h :: (A ++ old :: B)) :
    lrepr (list_replace old n s) h (A ++ n :: B) ∧
      list_replace old n s old = s old := by
  obtain ⟨hc, nd⟩ := hr
  obtain ⟨hA, hB⟩ := (chainNP_append_iff A B).mp hc
  obtain ⟨hhA, hhB, hhe, heA, heB, ndA, ndB, hAB⟩ := nodup_mid_facts nd
  have he1 : (s old).prev = A.getLastD h := chainNP_prev_last hA
  have he2 : (s old).next = B.headD h := chainNP_next_head hB
  have hpA : A.getLastD h ∈ h :: A := List.getLastD_mem_cons ..
  have hqB : B.headD h ∈ h :: B := headD_mem_cons ..
  have hnh : n ≠ h := by intro e; exact hn (e ▸ List.mem_cons_self ..)
  have hnA : n ∉ A := fun e => hn (by simp [e])
  have hnB : n ∉ B := fun e => hn (by simp [e])
  have hno : n ≠ old := fun e => hn (by simp [e])
  have hnp : n ≠ A.getLastD h := by
    intro e
    rcases List.mem_cons.mp (e ▸ hpA) with e' | e'
    · exact hnh e'
    · exact hnA e'
  have hnq : n ≠ B.headD h := by
    intro e
    rcases List.mem_cons.mp (e ▸ hqB) with e' | e'
    · exact hnh e'
    · exact hnB e'
  have hoq : old ≠ (s old).next := by
    rw [he2]
    intro e
    rcases List.mem_cons.mp (e ▸ hqB) with e' | e'
    · exact hhe e'.symm
    · exact heB e'
  have spec := list_replace_spec s hno (he2 ▸ hnq) (he1 ▸ hnp) hoq
  -- the replace is pointwise the deletion of `old` followed by the insertion
  -- of `n` between the same neighbors
  have hdel := lrepr_delentry (A := A) (B := B) ⟨hc, nd⟩
  have hdel_spec := __list_del_spec s (A.getLastD h) (B.headD h)
  have hdrw : __list_del_entry old s
      = __list_del (A.getLastD h) (B.headD h) s := by
    unfold __list_del_entry; rw [he1, he2]
  have heq : ∀ x, list_replace old n s x =
      __list_add n (A.getLastD h) (B.headD h) (__list_del_entry old s) x := by
    intro x
    rw [spec x, __list_add_spec _ hnp hnq x, hdrw]
    by_cases e1 : x = n
    · simp [e1, he1, he2]
    · rw [if_neg e1, if_neg e1, hdel_spec x, he1, he2]
      simp only [Node.mk.injEq]
      constructor <;> split_ifs <;> rfl
  have hn' : n ∉ h :: (A ++ B) := by
    intro e
    rcases List.mem_cons.mp e with e' | e'
    · exact hnh e'
    · rcases List.mem_append.mp e' with e'' | e'' <;>
        [exact hnA e''; exact hnB e'']
  have hins := lrepr_insert (s := __list_del_entry old s) (n := n)
    hdel.1 hn'
  constructor
  · refine lrepr_frame hins ?_
    intro x _
    rw [heq x]
  · have ho_p : old ≠ A.getLastD h := by
      intro e'
      rcases List.mem_cons.mp (e' ▸ hpA) with e'' | e''
      · exact hhe e''.symm
      · exact heA e''
    have ho_q : old ≠ B.headD h := by
      intro e'
      rcases List.mem_cons.mp (e' ▸ hqB) with e'' | e''
      · exact hhe e''.symm
      · exact heB e''
    rw [spec old, if_neg (Ne.symm hno), he1, he2, if_neg ho_p, if_neg ho_q,
      ← he2, ← he1]

/-! ### Moves and rotation -/

theorem lrepr_move_same {s : State} {h x : Nat} {A B : List Nat}
    (hr : lrepr s h (A ++ x :: B)) :
    lrepr (list_move x h s) h (x :: (A ++ B)) := by
  obtain ⟨hhA, hhB, hhe, heA, heB, -, -, -⟩ := nodup_mid_facts hr.2
  have hdel := (lrepr_delentry hr).1
  have hx : x ∉ h :: (A ++ B) := by
    intro e
    rcases List.mem_cons.mp e with e' | e'
    · exact hhe e'.symm
    · rcases List.mem_append.mp e' with e'' | e'' <;>
        [exact heA e''; exact heB e'']
  exact lrepr_list_add hdel hx

theorem lrepr_move_tail_same {s : State} {h x : Nat} {A B : List Nat}
    (hr : lrepr s h (A ++ x :: B)) :
    lrepr (list_move_tail x h s) h ((A ++ B) ++ [x]) := by
  obtain ⟨hhA, hhB, hhe, heA, heB, -, -, -⟩ := nodup_mid_facts hr.2
  have hdel := (lrepr_delentry hr).1
  have hx : x ∉ h :: (A ++ B) := by
    intro e
    rcases List.mem_cons.mp e with e' | e'
    · exact hhe e'.symm
    · rcases List.mem_append.mp e' with e'' | e'' <;>
        [exact heA e''; exact heB e'']
  exact lrepr_list_add_tail hdel hx

theorem lrepr_move_cross {s : State} {h1 h2 x : Nat} {A B ys : List Nat}
    (hr1 : lrepr s h1 (A ++ x :: B)) (hr2 : lrepr s h2 ys)
    (hdisj : ∀ y ∈ h1 :: (A ++ x :: B), y ∉ h2 :: ys) :
    lrepr (list_move x h2 s) h2 (x :: ys) ∧
      lrepr (list_move x h2 s) h1 (A ++ B) := by
  obtain ⟨hhA, hhB, hhe, heA, heB, -, -, -⟩ := nodup_mid_facts hr1.2
  have hc1 := hr1.1
  obtain ⟨hA, hB⟩ := (chainNP_append_iff A B).mp hc1
  have he1 : (s x).prev = A.getLastD h1 := chainNP_prev_last hA
  have he2 : (s x).next = B.headD h1 := chainNP_next_head hB
  have hpA : A.getLastD h1 ∈ h1 :: A := List.getLastD_mem_cons ..
  have hqB : B.headD h1 ∈ h1 :: B := headD_mem_cons ..
  have hmem_p : A.getLastD h1 ∈ h1 :: (A ++ x :: B) := by
    rcases List.mem_cons.mp hpA with e | e
    · rw [e]; exact List.mem_cons_self ..
    · exact List.mem_cons_of_mem _ (List.mem_append.mpr (Or.inl e))
  have hmem_q : B.headD h1 ∈ h1 :: (A ++ x :: B) := by
    rcases List.mem_cons.mp hqB with e | e
    · rw [e]; exact List.mem_cons_self ..
    · exact List.mem_cons_of_mem _
        (List.mem_append.mpr (Or.inr (List.mem_cons_of_mem _ e)))
  set s1 := __list_del_entry x s with hs1
  have hdel := (lrepr_delentry hr1).1
  have hfr2 : lrepr s1 h2 ys := by
    refine lrepr_frame hr2 ?_
    intro y hy
    refine __list_del_entry_out ?_ ?_
    · rw [he1]; intro e; exact hdisj _ hmem_p (e ▸ hy)
    · rw [he2]; intro e; exact hdisj _ hmem_q (e ▸ hy)
  have hx2 : x ∉ h2 :: ys := hdisj x (by simp)
  have hadd := lrepr_list_add hfr2 hx2
  refine ⟨hadd, ?_⟩
  refine lrepr_frame hdel ?_
  intro y hy
  have hymem : y ∈ h1 :: (A ++ x :: B) := by
    rcases List.mem_cons.mp hy with e | e
    · simp [e]
    · rcases List.mem_append.mp e with e' | e' <;> simp [e']
  have hy2 : y ∉ h2 :: ys := hdisj y hymem
  refine __list_add_out ?_ ?_ ?_
  · intro e
    subst e
    rcases List.mem_cons.mp hy with e' | e'
    · exact hhe e'.symm
    · rcases List.mem_append.mp e' with e'' | e'' <;>
        [exact heA e''; exact heB e'']
  · intro e; exact hy2 (e ▸ List.mem_cons_self ..)
  · intro e
    have : (s1 h2).next = ys.headD h2 := chainNP_next_head hfr2.1
    rw [this] at e
    exact hy2 (e ▸ headD_mem_cons ..)

theorem lrepr_move_tail_cross {s : State} {h1 h2 x : Nat} {A B ys : List Nat}
    (hr1 : lrepr s h1 (A ++ x :: B)) (hr2 : lrepr s h2 ys)
    (hdisj : ∀ y ∈ h1 :: (A ++ x :: B), y ∉ h2 :: ys) :
    lrepr (list_move_tail x h2 s) h2 (ys ++ [x]) ∧
      lrepr (list_move_tail x h2 s) h1 (A ++ B) := by
  obtain ⟨hhA, hhB, hhe, heA, heB, -, -, -⟩ := nodup_mid_facts hr1.2
  have hc1 := hr1.1
  obtain ⟨hA, hB⟩ := (chainNP_append_iff A B).mp hc1
  have he1 : (s x).prev = A.getLastD h1 := chainNP_prev_last hA
  have he2 : (s x).next = B.headD h1 := chainNP_next_head hB
  have hpA : A.getLastD h1 ∈ h1 :: A := List.getLastD_mem_cons ..
  have hqB : B.headD h1 ∈ h1 :: B := headD_mem_cons ..
  have hmem_p : A.getLastD h1 ∈ h1 :: (A ++ x :: B) := by
    rcases List.mem_cons.mp hpA with e | e
    · rw [e]; exact List.mem_cons_self ..
    · exact List.mem_cons_of_mem _ (List.mem_append.mpr (Or.inl e))
  have hmem_q : B.headD h1 ∈ h1 :: (A ++ x :: B) := by
    rcases List.mem_cons.mp hqB with e | e
    · rw [e]; exact List.mem_cons_self ..
    · exact List.mem_cons_of_mem _
        (List.mem_append.mpr (Or.inr (List.mem_cons_of_mem _ e)))
  set s1 := __list_del_entry x s with hs1
  have hdel := (lrepr_delentry hr1).1
  have hfr2 : lrepr s1 h2 ys := by
    refine lrepr_frame hr2 ?_
    intro y hy
    refine __list_del_entry_out ?_ ?_
    · rw [he1]; intro e; exact hdisj _ hmem_p (e ▸ hy)
    · rw [he2]; intro e; exact hdisj _ hmem_q (e ▸ hy)
  have hx2 : x ∉ h2 :: ys := hdisj x (by simp)
  have hadd := lrepr_list_add_tail hfr2 hx2
  refine ⟨hadd, ?_⟩
  refine lrepr_frame hdel ?_
  intro y hy
  have hymem : y ∈ h1 :: (A ++ x :: B) := by
    rcases List.mem_cons.mp hy with e | e
    · simp [e]
    · rcases List.mem_append.mp e with e' | e' <;> simp [e']
  have hy2 : y ∉ h2 :: ys := hdisj y hymem
  refine __list_add_out ?_ ?_ ?_
  · intro e
    subst e
    rcases List.mem_cons.mp hy with e' | e'
    · exact hhe e'.symm
    · rcases List.mem_append.mp e' with e'' | e'' <;>
        [exact heA e''; exact heB e'']
  · intro e
    have : (s1 h2).prev = ys.getLastD h2 := chainNP_prev_last hfr2.1
    rw [this] at e
    exact hy2 (e ▸ List.getLastD_mem_cons ..)
  · intro e; exact hy2 (e ▸ List.mem_cons_self ..)

theorem lrepr_rotate_left {s : State} {h : Nat} {xs : List Nat}
    (hr : lrepr s h xs) :
    lrepr (list_rotate_left h s) h (xs.tail ++ xs.take 1) := by
  cases xs with
  | nil =>
    have hemp : list_empty h s = true := by
      have := chainNP_next_head hr.1
      simp [list_empty, this]
    unfold list_rotate_left
    rw [hemp]
    simpa using hr
  | cons f rest =>
    have hne : (s h).next = f := by simpa using chainNP_next_head hr.1
    have hfh : f ≠ h := by
      intro e
      have := hr.2
      simp [e] at this
    have hemp : list_empty h s = false := by
      simp [list_empty, hne, hfh]
    unfold list_rotate_left
    rw [hemp]
    simp only [Bool.false_eq_true, if_false, hne]
    have := lrepr_move_tail_same (A := []) (B := rest) (by simpa using hr)
    simpa using this

/-! ### The splice lemma -/

theorem lrepr_splice_mid {s : State} {a b : Nat} {as C D : List Nat}
    (hra : lrepr s a as) (hrb : lrepr s b (C ++ D)) (hne : as ≠ [])
    (hdisj : ∀ y ∈ a :: as, y ∉ b :: (C ++ D)) :
    lrepr (__list_splice a (C.getLastD b) (D.headD b) s) b ((C ++ as) ++ D) ∧
      __list_splice a (C.getLastD b) (D.headD b) s a = s a := by
  obtain ⟨hca, nda⟩ := hra
  obtain ⟨haas, ndas⟩ := nodup_cons_facts nda
  obtain ⟨hbC, hbD, ndC, ndD, hCD⟩ := nodup_app_facts hrb.2
  obtain ⟨hCc, hDc⟩ := chainNP_split2 hrb.1
  have heF : (s a).next = as.headD a := chainNP_next_head hca
  have heL : (s a).prev = as.getLastD a := chainNP_prev_last hca
  have hFm : as.headD a ∈ as := headD_mem a hne
  have hLm : as.getLastD a ∈ as := getLastD_mem a hne
  have hpm : C.getLastD b ∈ b :: (C ++ D) := by
    rcases List.mem_cons.mp (List.getLastD_mem_cons C b) with e | e
    · rw [e]; exact List.mem_cons_self ..
    · exact List.mem_cons_of_mem _ (List.mem_append.mpr (Or.inl e))
  have hqm : D.headD b ∈ b :: (C ++ D) := by
    rcases List.mem_cons.mp (headD_mem_cons D b) with e | e
    · rw [e]; exact List.mem_cons_self ..
    · exact List.mem_cons_of_mem _ (List.mem_append.mpr (Or.inr e))
  have hFp : as.headD a ≠ C.getLastD b :=
    fun e => hdisj _ (List.mem_cons_of_mem _ hFm) (e ▸ hpm)
  have hFq : as.headD a ≠ D.headD b :=
    fun e => hdisj _ (List.mem_cons_of_mem _ hFm) (e ▸ hqm)
  have hLp : as.getLastD a ≠ C.getLastD b :=
    fun e => hdisj _ (List.mem_cons_of_mem _ hLm) (e ▸ hpm)
  have hLq : as.getLastD a ≠ D.headD b :=
    fun e => hdisj _ (List.mem_cons_of_mem _ hLm) (e ▸ hqm)
  have hpl : C.getLastD b ≠ (s a).prev := by rw [heL]; exact Ne.symm hLp
  have spec := __list_splice_spec s a (C.getLastD b) (D.headD b) hpl
  set s' := __list_splice a (C.getLastD b) (D.headD b) s with hs'
  have sp_next : ∀ x, (s' x).next =
      if x = C.getLastD b then as.headD a
      else if x = as.getLastD a then D.headD b else (s x).next := by
    intro x; rw [spec x, heF, heL]
  have sp_prev : ∀ x, (s' x).prev =
      if x = D.headD b then as.getLastD a
      else if x = as.headD a then C.getLastD b else (s x).prev := by
    intro x; rw [spec x, heF, heL]
  -- C-part: from b to the head of as
  have partC : chainNP s' b C (as.headD a) := by
    refine chainNP_rebridge hCc ndC ?_ ?_ ?_ ?_ ?_ ?_
    · -- (s' b).next = C.headD (as.headD a)
      cases C with
      | nil =>
        rw [sp_next b]; simp
      | cons c cs =>
        have hbp : b ≠ (c :: cs).getLastD b := by
          intro e
          exact hbC (e ▸ getLastD_mem b (l := c :: cs) (by simp))
        have hbL : b ≠ as.getLastD a :=
          fun e => hdisj _ (List.mem_cons_of_mem _ (e ▸ hLm))
            (List.mem_cons_self ..)
        rw [sp_next b, if_neg hbp, if_neg hbL]
        have := chainNP_next_head hCc
        simpa using this
    · intro y hy
      have hyC : y ∈ C := mem_of_head? hy
      have hyq : y ≠ D.headD b := by
        intro e
        rcases List.mem_cons.mp (e ▸ headD_mem_cons D b) with e' | e'
        · exact hbC (e' ▸ hyC)
        · exact hCD y hyC e'
      have hyF : y ≠ as.headD a :=
        fun e => hdisj _ (List.mem_cons_of_mem _ (e ▸ hFm))
          (List.mem_cons_of_mem _ (List.mem_append.mpr (Or.inl hyC)))
      rw [sp_prev y, if_neg hyq, if_neg hyF]
      have := chainNP_head_prev hCc
      rwa [headD_eq_of_head? _ hy] at this
    · intro z hz
      have hzp : z = C.getLastD b := (getLastD_eq_of_getLast? b hz).symm
      rw [sp_next z, hzp, if_pos rfl]
    · rw [sp_prev _, if_neg hFq, if_pos rfl]
    · intro x hx hne'
      have hxL : x ≠ as.getLastD a :=
        fun e => hdisj _ (List.mem_cons_of_mem _ (e ▸ hLm))
          (List.mem_cons_of_mem _ (List.mem_append.mpr (Or.inl hx)))
      rw [sp_next x, if_neg hne', if_neg hxL]
    · intro x hx _
      have hxq : x ≠ D.headD b := by
        intro e
        rcases List.mem_cons.mp (e ▸ headD_mem_cons D b) with e' | e'
        · exact hbC (e' ▸ hx)
        · exact hCD x hx e'
      have hxF : x ≠ as.headD a :=
        fun e => hdisj _ (List.mem_cons_of_mem _ (e ▸ hFm))
          (List.mem_cons_of_mem _ (List.mem_append.mpr (Or.inl hx)))
      rw [sp_prev x, if_neg hxq, if_neg hxF]
  -- the spliced-in as-segment, from C's end to D's head
  have partAs : chainNP s' (C.getLastD b) as (D.headD b) := by
    refine chainNP_rebridge hca ndas ?_ ?_ ?_ ?_ ?_ ?_
    · rw [sp_next _, if_pos rfl]
      exact (headD_congr _ _ hne).symm
    · intro y hy
      have hyF : y = as.headD a := (headD_eq_of_head? a hy).symm
      rw [sp_prev y, hyF, if_neg hFq, if_pos rfl]
    · intro z hz
      have hzL : z = as.getLastD a := (getLastD_eq_of_getLast? a hz).symm
      rw [sp_next z, hzL, if_neg hLp, if_pos rfl]
    · rw [sp_prev _, if_pos rfl]
      exact (getLastD_congr _ _ hne).symm
    · intro x hx hne'
      have hxp : x ≠ C.getLastD b :=
        fun e => hdisj _ (List.mem_cons_of_mem _ hx) (e ▸ hpm)
      have hxL : x ≠ as.getLastD a := by
        rwa [← getLastD_congr a (C.getLastD b) hne] at hne'
      rw [sp_next x, if_neg hxp, if_neg hxL]
    · intro x hx hne'
      have hxq : x ≠ D.headD b :=
        fun e => hdisj _ (List.mem_cons_of_mem _ hx) (e ▸ hqm)
      have hxF : x ≠ as.headD a := by
        rwa [← headD_congr a (D.headD b) hne] at hne'
      rw [sp_prev x, if_neg hxq, if_neg hxF]
  -- D-part: from as's end back to b
  have partD : chainNP s' (as.getLastD a) D b := by
    refine chainNP_rebridge hDc ndD ?_ ?_ ?_ ?_ ?_ ?_
    · rw [sp_next _, if_neg hLp, if_pos rfl]
    · intro y hy
      have hyq : y = D.headD b := (headD_eq_of_head? b hy).symm
      rw [sp_prev y, hyq, if_pos rfl]
    · intro z hz
      have hzD : z ∈ D := mem_of_getLast? hz
      have hzp : z ≠ C.getLastD b := by
        intro e
        rcases List.mem_cons.mp (e ▸ List.getLastD_mem_cons C b) with e' | e'
        · exact hbD (e' ▸ hzD)
        · exact hCD _ e' hzD
      have hzL : z ≠ as.getLastD a :=
        fun e => hdisj _ (List.mem_cons_of_mem _ (e ▸ hLm))
          (List.mem_cons_of_mem _ (List.mem_append.mpr (Or.inr hzD)))
      rw [sp_next z, if_neg hzp, if_neg hzL]
      have := chainNP_next_last hDc
      rwa [getLastD_eq_of_getLast? _ hz] at this
    · -- (s' b).prev = D.getLastD (as.getLastD a)
      cases D with
      | nil =>
        rw [sp_prev b]; simp
      | cons d ds =>
        have hbq : b ≠ (d :: ds).headD b := by
          intro e
          exact hbD (e ▸ headD_mem b (l := d :: ds) (by simp))
        have hbF : b ≠ as.headD a :=
          fun e => hdisj _ (List.mem_cons_of_mem _ (e ▸ hFm))
            (List.mem_cons_self ..)
        rw [sp_prev b, if_neg hbq, if_neg hbF]
        have := chainNP_prev_last hrb.1
        rw [getLastD_append] at this
        rw [this]
        exact getLastD_congr _ _ (by simp)
    · intro x hx hne'
      have hxp : x ≠ C.getLastD b := by
        intro e
        rcases List.mem_cons.mp (e ▸ List.getLastD_mem_cons C b) with e' | e'
        · exact hbD (e' ▸ hx)
        · exact hCD _ e' hx
      have hxL : x ≠ as.getLastD a :=
        fun e => hdisj _ (List.mem_cons_of_mem _ (e ▸ hLm))
          (List.mem_cons_of_mem _ (List.mem_append.mpr (Or.inr hx)))
      rw [sp_next x, if_neg hxp, if_neg hxL]
    · intro x hx hne'
      have hxF : x ≠ as.headD a :=
        fun e => hdisj _ (List.mem_cons_of_mem _ (e ▸ hFm))
          (List.mem_cons_of_mem _ (List.mem_append.mpr (Or.inr hx)))
      rw [sp_prev x, if_neg hne', if_neg hxF]
  constructor
  · constructor
    · -- assemble the chain
      have p2 : chainNP s' (C.getLastD b) (as ++ D) b := by
        refine chainNP_join2 partAs ?_
        rwa [getLastD_congr a (C.getLastD b) hne] at partD
      have p1 : chainNP s' b C ((as ++ D).headD b) := by
        have : (as ++ D).headD b = as.headD a := by
          cases as with
          | nil => exact absurd rfl hne
          | cons f fs => simp
        rwa [this]
      have := chainNP_join2 p1 p2
      rwa [← List.append_assoc] at this
    · -- nodup
      have pm : List.Perm (b :: (C ++ as ++ D)) ((b :: (C ++ D)) ++ as) := by
        have inner : List.Perm (C ++ as ++ D) ((C ++ D) ++ as) := by
          rw [List.append_assoc, List.append_assoc]
          exact List.Perm.append_left C List.perm_append_comm
        exact List.Perm.cons b inner
      refine pm.symm.nodup ?_
      rw [List.nodup_append]
      refine ⟨hrb.2, ndas, ?_⟩
      intro y hy hyas
      exact hdisj y (List.mem_cons_of_mem _ hyas) hy
  · -- the source head is untouched
    have hap : a ≠ C.getLastD b := fun e => hdisj a (List.mem_cons_self ..) (e ▸ hpm)
    have haq : a ≠ D.headD b := fun e => hdisj a (List.mem_cons_self ..) (e ▸ hqm)
    have haF : a ≠ as.headD a := fun e => haas (e ▸ hFm)
    have haL : a ≠ as.getLastD a := fun e => haas (e ▸ hLm)
    have e1 := sp_next a
    have e2 := sp_prev a
    rw [if_neg hap, if_neg haL] at e1
    rw [if_neg haq, if_neg haF] at e2
    have : s' a = ⟨(s' a).next, (s' a).prev⟩ := rfl
    rw [this, e1, e2]

/-! ### Splice operation lemmas -/

theorem lrepr_not_empty {s : State} {h : Nat} {xs : List Nat}
    (hr : lrepr s h xs) (hne : xs ≠ []) : list_empty h s = false := by
  have h1 : (s h).next = xs.headD h := chainNP_next_head hr.1
  have h2 : xs.headD h ∈ xs := headD_mem h hne
  have h3 : h ∉ xs := (nodup_cons_facts hr.2).1
  have : (s h).next ≠ h := by
    rw [h1]; intro e; exact h3 (e ▸ h2)
  simp [list_empty, this]

theorem lrepr_empty {s : State} {h : Nat}
    (hr : lrepr s h []) : list_empty h s = true := by
  have h1 : (s h).next = h := hr.1.1
  simp [list_empty, h1]

theorem splice_noop {s : State} {a b : Nat} (he : list_empty a s = true) :
    list_splice a b s = s ∧ list_splice_tail a b s = s ∧
      list_splice_init a b s = s ∧ list_splice_tail_init a b s = s := by
  refine ⟨?_, ?_, ?_, ?_⟩ <;>
    simp [list_splice, list_splice_tail, list_splice_init,
      list_splice_tail_init, he]

theorem lrepr_list_splice {s : State} {a b : Nat} {as bs : List Nat}
    (hra : lrepr s a as) (hrb : lrepr s b bs) (hne : as ≠ [])
    (hdisj : ∀ y ∈ a :: as, y ∉ b :: bs) :
    lrepr (list_splice a b s) b (as ++ bs) ∧ list_splice a b s a = s a := by
  have hguard : list_empty a s = false := lrepr_not_empty hra hne
  have hrw : list_splice a b s = __list_splice a b (s b).next s := by
    unfold list_splice
    rw [hguard]
    simp
  have hb : (s b).next = bs.headD b := chainNP_next_head hrb.1
  have key := lrepr_splice_mid (C := []) (D := bs) hra (by simpa using hrb)
    hne (by simpa using hdisj)
  rw [hrw, hb]
  constructor
  · have := key.1
    simpa using this
  · have := key.2
    simpa using this

theorem lrepr_list_splice_tail {s : State} {a b : Nat} {as bs : List Nat}
    (hra : lrepr s a as) (hrb : lrepr s b bs) (hne : as ≠ [])
    (hdisj : ∀ y ∈ a :: as, y ∉ b :: bs) :
    lrepr (list_splice_tail a b s) b (bs ++ as) ∧
      list_splice_tail a b s a = s a := by
  have hguard : list_empty a s = false := lrepr_not_empty hra hne
  have hrw : list_splice_tail a b s = __list_splice a (s b).prev b s := by
    unfold list_splice_tail
    rw [hguard]
    simp
  have hb : (s b).prev = bs.getLastD b := chainNP_prev_last hrb.1
  have key := lrepr_splice_mid (C := bs) (D := []) hra (by simpa using hrb)
    hne (by simpa using hdisj)
  rw [hrw, hb]
  constructor
  · have := key.1
    simpa using this
  · have := key.2
    simpa using this

theorem lrepr_list_splice_init {s : State} {a b : Nat} {as bs : List Nat}
    (hra : lrepr s a as) (hrb : lrepr s b bs) (hne : as ≠ [])
    (hdisj : ∀ y ∈ a :: as, y ∉ b :: bs) :
    lrepr (list_splice_init a b s) b (as ++ bs) ∧
      lrepr (list_splice_init a b s) a [] := by
  have hguard : list_empty a s = false := lrepr_not_empty hra hne
  have hsp := lrepr_list_splice hra hrb hne hdisj
  have hrw : list_splice_init a b s = INIT_LIST_HEAD a (list_splice a b s) := by
    unfold list_splice_init
    rw [hguard]
    unfold list_splice
    rw [hguard]
    simp
  rw [hrw]
  have haas : a ∉ as := (nodup_cons_facts hra.2).1
  constructor
  · refine lrepr_frame hsp.1 ?_
    intro y hy
    refine INIT_LIST_HEAD_out ?_
    intro e
    rw [e] at hy
    rcases List.mem_cons.mp hy with e' | e'
    · exact hdisj a (List.mem_cons_self ..) (e' ▸ List.mem_cons_self ..)
    · rcases List.mem_append.mp e' with e'' | e''
      · exact haas e''
      · exact hdisj a (List.mem_cons_self ..) (List.mem_cons_of_mem _ e'')
  · exact lrepr_INIT ..

theorem lrepr_list_splice_tail_init {s : State} {a b : Nat} {as bs : List Nat}
    (hra : lrepr s a as) (hrb : lrepr s b bs) (hne : as ≠ [])
    (hdisj : ∀ y ∈ a :: as, y ∉ b :: bs) :
    lrepr (list_splice_tail_init a b s) b (bs ++ as) ∧
      lrepr (list_splice_tail_init a b s) a [] := by
  have hguard : list_empty a s = false := lrepr_not_empty hra hne
  have hsp := lrepr_list_splice_tail hra hrb hne hdisj
  have hrw : list_splice_tail_init a b s
      = INIT_LIST_HEAD a (list_splice_tail a b s) := by
    unfold list_splice_tail_init
    rw [hguard]
    unfold list_splice_tail
    rw [hguard]
    simp
  rw [hrw]
  have haas : a ∉ as := (nodup_cons_facts hra.2).1
  constructor
  · refine lrepr_frame hsp.1 ?_
    intro y hy
    refine INIT_LIST_HEAD_out ?_
    intro e
    rw [e] at hy
    rcases List.mem_cons.mp hy with e' | e'
    · exact hdisj a (List.mem_cons_self ..) (e' ▸ List.mem_cons_self ..)
    · rcases List.mem_append.mp e' with e'' | e''
      · exact hdisj a (List.mem_cons_self ..) (List.mem_cons_of_mem _ e'')
      · exact haas e''
  · exact lrepr_INIT ..

/-! ### cut_position -/

theorem __list_cut_position_spec (s : State) (dest h e : Nat)
    (h1 : dest ≠ (s h).next) (h2 : dest ≠ e) (h3 : dest ≠ h)
    (h4 : dest ≠ (s e).next) (h5 : e ≠ h) (h6 : (s h).next ≠ (s e).next)
    (x : Nat) :
    __list_cut_position dest h e s x =
      { next := if x = h then (s e).next else if x = e then dest
                else if x = dest then (s h).next else (s x).next,
        prev := if x = (s e).next then h else if x = dest then e
                else if x = (s h).next then dest else (s x).prev } := by
  have r1 : (setNext s dest (s h).next dest).next = (s h).next := by
    simp [setNext]
  unfold __list_cut_position
  simp only [r1]
  unfold setNext setPrev
  by_cases e1 : x = h <;> by_cases e2 : x = e <;> by_cases e3 : x = dest <;>
    by_cases e4 : x = (s h).next <;> by_cases e5 : x = (s e).next <;>
    simp_all

theorem headD_append_cons (A B : List Nat) (e d : Nat) :
    (A ++ e :: B).headD d = A.headD e := by
  cases A <;> simp

theorem lrepr_cut_position_mid {s : State} {dest h e : Nat} {A B : List Nat}
    (hr : lrepr s h (A ++ e :: B)) (hd : dest ∉ h :: (A ++ e :: B)) :
    lrepr (list_cut_position dest h e s) dest (A ++ [e]) ∧
      lrepr (list_cut_position dest h e s) h B := by
  obtain ⟨hc, nd⟩ := hr
  obtain ⟨hA, hB⟩ := (chainNP_append_iff A B).mp hc
  obtain ⟨hhA, hhB, hhe, heA, heB, ndA, ndB, hAB⟩ := nodup_mid_facts nd
  have hdh : dest ≠ h := by intro e'; exact hd (e' ▸ List.mem_cons_self ..)
  have hdA : dest ∉ A := fun e' => hd (by simp [e'])
  have hdB : dest ∉ B := fun e' => hd (by simp [e'])
  have hde : dest ≠ e := fun e' => hd (by simp [e'])
  have heF : (s h).next = A.headD e := by
    rw [chainNP_next_head hc, headD_append_cons]
  have heNF : (s e).next = B.headD h := chainNP_next_head hB
  have hFm : A.headD e ∈ e :: A := headD_mem_cons ..
  have hNFm : B.headD h ∈ h :: B := headD_mem_cons ..
  -- the three guards reduce to the real cut
  have hguard1 : list_empty h s = false :=
    lrepr_not_empty ⟨hc, nd⟩ (by simp)
  have hguard2 : (list_is_singular h s
      && ((s h).next ≠ e && h ≠ e)) = false := by
    cases A with
    | nil =>
      have : (s h).next = e := by rw [heF]; rfl
      simp [this]
    | cons a A' =>
      have hnx : (s h).next = a := by rw [heF]; rfl
      have hpv : (s h).prev = B.getLastD e := by
        rw [chainNP_prev_last hc, getLastD_append, List.getLastD_cons]
      have : (s h).next ≠ (s h).prev := by
        rw [hnx, hpv]
        intro e'
        rcases List.mem_cons.mp (e' ▸ List.getLastD_mem_cons B e) with e'' | e''
        · exact heA (e'' ▸ List.mem_cons_self ..)
        · exact hAB a (List.mem_cons_self ..) e''
      simp [list_is_singular, this]
  have hrw : list_cut_position dest h e s = __list_cut_position dest h e s := by
    unfold list_cut_position
    rw [hguard1, hguard2]
    simp [Ne.symm hhe]
  -- spec of the raw cut
  have hdF : dest ≠ (s h).next := by
    rw [heF]
    intro e'
    rcases List.mem_cons.mp (e' ▸ hFm) with e'' | e''
    · exact hde e''
    · exact hdA e''
  have hdNF : dest ≠ (s e).next := by
    rw [heNF]
    intro e'
    rcases List.mem_cons.mp (e' ▸ hNFm) with e'' | e''
    · exact hdh e''
    · exact hdB e''
  have hFNF : (s h).next ≠ (s e).next := by
    rw [heF, heNF]
    intro e'
    rcases List.mem_cons.mp hFm with e1 | e1
    · rcases List.mem_cons.mp hNFm with e2 | e2
      · exact hhe (e2.symm.trans (e'.symm.trans e1))
      · exact heB (by rw [show e = B.headD h from e1.symm.trans e']; exact e2)
    · rcases List.mem_cons.mp hNFm with e2 | e2
      · exact hhA (by rw [show h = A.headD e from (e'.trans e2).symm]; exact e1)
      · exact hAB _ e1 (by rw [e']; exact e2)
  have spec := fun x => __list_cut_position_spec s dest h e hdF hde hdh hdNF
    (Ne.symm hhe) hFNF x
  have hdF' : dest ≠ A.headD e := by rw [← heF]; exact hdF
  have hdNF' : dest ≠ B.headD h := by rw [← heNF]; exact hdNF
  rw [hrw]
  set s' := __list_cut_position dest h e s with hs'
  have sp_next : ∀ x, (s' x).next =
      if x = h then B.headD h else if x = e then dest
      else if x = dest then A.headD e else (s x).next := by
    intro x; rw [spec x, heF, heNF]
  have sp_prev : ∀ x, (s' x).prev =
      if x = B.headD h then h else if x = dest then e
      else if x = A.headD e then dest else (s x).prev := by
    intro x; rw [spec x, heF, heNF]
  have hhF : h ≠ A.headD e := by
    intro e'
    rcases List.mem_cons.mp (e' ▸ hFm) with e'' | e''
    · exact hhe e''
    · exact hhA e''
  have heNF' : e ≠ B.headD h := by
    intro e'
    rcases List.mem_cons.mp (e' ▸ hNFm) with e'' | e''
    · exact hhe e''.symm
    · exact heB e''
  -- the destination chain
  have partA : chainNP s' dest A e := by
    refine chainNP_rebridge hA ndA ?_ ?_ ?_ ?_ ?_ ?_
    · rw [sp_next dest, if_neg hdh, if_neg hde, if_pos rfl]
    · intro y hy
      have hyA : y ∈ A := mem_of_head? hy
      have hyNF : y ≠ B.headD h := by
        intro e'
        rcases List.mem_cons.mp (e' ▸ hNFm) with e'' | e''
        · exact hhA (e'' ▸ hyA)
        · exact hAB y hyA e''
      have hyd : y ≠ dest := fun e' => hdA (e' ▸ hyA)
      have hyF : y = A.headD e := (headD_eq_of_head? e hy).symm
      rw [sp_prev y, if_neg hyNF, if_neg hyd, hyF, if_pos rfl]
    · intro z hz
      have hzA : z ∈ A := mem_of_getLast? hz
      have hzh : z ≠ h := fun e' => hhA (e' ▸ hzA)
      have hze : z ≠ e := fun e' => heA (e' ▸ hzA)
      have hzd : z ≠ dest := fun e' => hdA (e' ▸ hzA)
      rw [sp_next z, if_neg hzh, if_neg hze, if_neg hzd]
      have := chainNP_next_last hA
      rwa [getLastD_eq_of_getLast? _ hz] at this
    · rw [sp_prev e, if_neg heNF', if_neg (Ne.symm hde)]
      cases A with
      | nil => simp
      | cons a A' =>
        have heF2 : e ≠ (a :: A').headD e := by
          intro e'
          exact heA (e' ▸ headD_mem e (l := a :: A') (by simp))
        rw [if_neg heF2]
        have := chainNP_prev_last hA
        rw [this]
        exact getLastD_congr _ _ (by simp)
    · intro x hx hne'
      have hxh : x ≠ h := fun e' => hhA (e' ▸ hx)
      have hxe : x ≠ e := fun e' => heA (e' ▸ hx)
      have hxd : x ≠ dest := fun e' => hdA (e' ▸ hx)
      rw [sp_next x, if_neg hxh, if_neg hxe, if_neg hxd]
    · intro x hx hne'
      have hxNF : x ≠ B.headD h := by
        intro e'
        rcases List.mem_cons.mp (e' ▸ hNFm) with e'' | e''
        · exact hhA (e'' ▸ hx)
        · exact hAB x hx e''
      have hxd : x ≠ dest := fun e' => hdA (e' ▸ hx)
      rw [sp_prev x, if_neg hxNF, if_neg hxd, if_neg hne']
  have parttail : chainNP s' (A.getLastD dest) [e] dest := by
    refine ⟨?_, ?_, ?_, ?_⟩
    · cases A with
      | nil =>
        show (s' dest).next = e
        rw [sp_next dest, if_neg hdh, if_neg hde, if_pos rfl]
        rfl
      | cons a A' =>
        have hzA : (a :: A').getLastD dest ∈ a :: A' :=
          getLastD_mem dest (by simp)
        have hzh : (a :: A').getLastD dest ≠ h := fun e' => hhA (e' ▸ hzA)
        have hze : (a :: A').getLastD dest ≠ e := fun e' => heA (e' ▸ hzA)
        have hzd : (a :: A').getLastD dest ≠ dest := fun e' => hdA (e' ▸ hzA)
        rw [sp_next _, if_neg hzh, if_neg hze, if_neg hzd,
          getLastD_congr dest h (l := a :: A') (by simp)]
        exact chainNP_next_last hA
    · rw [sp_prev e, if_neg heNF', if_neg (Ne.symm hde)]
      cases A with
      | nil => simp
      | cons a A' =>
        have heF2 : e ≠ (a :: A').headD e := by
          intro e'
          exact heA (e' ▸ headD_mem e (l := a :: A') (by simp))
        rw [if_neg heF2]
        have := chainNP_prev_last hA
        rw [this]
        exact getLastD_congr _ _ (by simp)
    · rw [sp_next e, if_neg (Ne.symm hhe), if_pos rfl]
    · rw [sp_prev dest, if_neg hdNF', if_pos rfl]
  have nddest : (dest :: (A ++ [e])).Nodup := by
    rw [List.nodup_cons]
    constructor
    · intro hmem
      rcases List.mem_append.mp hmem with e' | e'
      · exact hdA e'
      · exact hde (by simpa using e')
    · rw [List.nodup_append]
      refine ⟨ndA, by simp, ?_⟩
      intro x hx
      simp only [List.mem_singleton]
      intro e'
      exact heA (e' ▸ hx)
  have parth : chainNP s' h B h := by
    refine chainNP_rebridge hB ndB ?_ ?_ ?_ ?_ ?_ ?_
    · rw [sp_next h, if_pos rfl]
    · intro y hy
      have hyq : y = B.headD h := (headD_eq_of_head? h hy).symm
      rw [sp_prev y, hyq, if_pos rfl]
    · intro z hz
      have hzB : z ∈ B := mem_of_getLast? hz
      have hzh : z ≠ h := fun e' => hhB (e' ▸ hzB)
      have hze : z ≠ e := fun e' => heB (e' ▸ hzB)
      have hzd : z ≠ dest := fun e' => hdB (e' ▸ hzB)
      rw [sp_next z, if_neg hzh, if_neg hze, if_neg hzd]
      have := chainNP_next_last hB
      rwa [getLastD_eq_of_getLast? _ hz] at this
    · cases B with
      | nil => rw [sp_prev h]; simp
      | cons bq B' =>
        have hh1 : h ≠ (bq :: B').headD h := by
          intro e'
          exact hhB (e' ▸ headD_mem h (l := bq :: B') (by simp))
        rw [sp_prev h, if_neg hh1, if_neg (Ne.symm hdh), if_neg hhF]
        have := chainNP_prev_last hc
        rw [getLastD_append, List.getLastD_cons] at this
        rw [this]
        exact getLastD_congr _ _ (by simp)
    · intro x hx hne'
      have hxh : x ≠ h := fun e' => hhB (e' ▸ hx)
      have hxe : x ≠ e := fun e' => heB (e' ▸ hx)
      have hxd : x ≠ dest := fun e' => hdB (e' ▸ hx)
      rw [sp_next x, if_neg hxh, if_neg hxe, if_neg hxd]
    · intro x hx hne'
      have hxd : x ≠ dest := fun e' => hdB (e' ▸ hx)
      have hxF : x ≠ A.headD e := by
        intro e'
        rcases List.mem_cons.mp (e' ▸ hFm) with e'' | e''
        · exact heB (e'' ▸ hx)
        · exact hAB _ e'' hx
      rw [sp_prev x, if_neg hne', if_neg hxd, if_neg hxF]
  exact ⟨⟨chainNP_join2 partA parttail, nddest⟩,
    ⟨parth, List.nodup_cons.mpr ⟨hhB, ndB⟩⟩⟩

theorem lrepr_cut_position_self {s : State} {dest h : Nat} {xs : List Nat}
    (hr : lrepr s h xs) (hne : xs ≠ []) (hd : dest ∉ h :: xs) :
    lrepr (list_cut_position dest h h s) dest [] ∧
      lrepr (list_cut_position dest h h s) h xs := by
  have hrw : list_cut_position dest h h s = INIT_LIST_HEAD dest s := by
    unfold list_cut_position
    rw [lrepr_not_empty hr hne]
    simp
  rw [hrw]
  refine ⟨lrepr_INIT .., lrepr_frame hr ?_⟩
  intro x hx
  refine INIT_LIST_HEAD_out ?_
  intro e'
  exact hd (e' ▸ hx)

theorem cut_position_empty_noop {s : State} {dest h e : Nat}
    (he : list_empty h s = true) : list_cut_position dest h e s = s := by
  unfold list_cut_position
  rw [he]
  simp

/-! ### cut_before -/

theorem list_cut_before_spec (s : State) (dest h e : Nat)
    (h1 : dest ≠ (s h).next) (h2 : dest ≠ e) (h3 : dest ≠ h)
    (h4 : dest ≠ (s e).prev) (h5 : (s h).next ≠ e) (x : Nat) :
    list_cut_before dest h e s x =
      { next := if x = h then e else if x = (s e).prev then dest
                else if x = dest then (s h).next else (s x).next,
        prev := if x = e then h else if x = dest then (s e).prev
                else if x = (s h).next then dest else (s x).prev } := by
  have r1 : (setNext s dest (s h).next dest).next = (s h).next := by
    simp [setNext]
  have r2 : (setPrev (setNext s dest (s h).next) (s h).next dest e).prev
      = (s e).prev := by
    simp [setPrev, setNext, Ne.symm h5, Ne.symm h2]
  unfold list_cut_before
  rw [if_neg h5]
  simp only [r1, r2]
  have r3 : (setPrev (setPrev (setNext s dest (s h).next) (s h).next dest)
      dest (s e).prev dest).prev = (s e).prev := by
    simp [setPrev]
  simp only [r3]
  unfold setNext setPrev
  by_cases e1 : x = h <;> by_cases e2 : x = e <;> by_cases e3 : x = dest <;>
    by_cases e4 : x = (s h).next <;> by_cases e5 : x = (s e).prev <;>
    simp_all

theorem lrepr_cut_before_mid {s : State} {dest h e : Nat} {A B : List Nat}
    (hr : lrepr s h (A ++ e :: B)) (hAne : A ≠ [])
    (hd : dest ∉ h :: (A ++ e :: B)) :
    lrepr (list_cut_before dest h e s) dest A ∧
      lrepr (list_cut_before dest h e s) h (e :: B) := by
  obtain ⟨hc, nd⟩ := hr
  obtain ⟨hA, hB⟩ := (chainNP_append_iff A B).mp hc
  obtain ⟨hhA, hhB, hhe, heA, heB, ndA, ndB, hAB⟩ := nodup_mid_facts nd
  have hdh : dest ≠ h := by intro e'; exact hd (e' ▸ List.mem_cons_self ..)
  have hdA : dest ∉ A := fun e' => hd (by simp [e'])
  have hdB : dest ∉ B := fun e' => hd (by simp [e'])
  have hde : dest ≠ e := fun e' => hd (by simp [e'])
  have heF : (s h).next = A.headD e := by
    rw [chainNP_next_head hc, headD_append_cons]
  have hePE : (s e).prev = A.getLastD h := chainNP_prev_last hA
  have hFA : A.headD e ∈ A := headD_mem e hAne
  have hPEA : A.getLastD h ∈ A := getLastD_mem h hAne
  have hF_e : A.headD e ≠ e := fun e' => heA (e' ▸ hFA)
  have hF_h : A.headD e ≠ h := fun e' => hhA (e' ▸ hFA)
  have hPE_h : A.getLastD h ≠ h := fun e' => hhA (e' ▸ hPEA)
  have hPE_e : A.getLastD h ≠ e := fun e' => heA (e' ▸ hPEA)
  have h1 : dest ≠ (s h).next := by
    rw [heF]; intro e'; exact hdA (e' ▸ hFA)
  have h4 : dest ≠ (s e).prev := by
    rw [hePE]; intro e'; exact hdA (e' ▸ hPEA)
  have h5 : (s h).next ≠ e := by rw [heF]; exact hF_e
  have spec := fun x => list_cut_before_spec s dest h e h1 hde hdh h4 h5 x
  set s' := list_cut_before dest h e s with hs'
  have sp_next : ∀ x, (s' x).next =
      if x = h then e else if x = A.getLastD h then dest
      else if x = dest then A.headD e else (s x).next := by
    intro x; rw [spec x, heF, hePE]
  have sp_prev : ∀ x, (s' x).prev =
      if x = e then h else if x = dest then A.getLastD h
      else if x = A.headD e then dest else (s x).prev := by
    intro x; rw [spec x, heF, hePE]
  have hdPE : dest ≠ A.getLastD h := fun e' => hdA (e' ▸ hPEA)
  have hdF : dest ≠ A.headD e := fun e' => hdA (e' ▸ hFA)
  have partA : chainNP s' dest A dest := by
    refine chainNP_rebridge hA ndA ?_ ?_ ?_ ?_ ?_ ?_
    · rw [sp_next dest, if_neg hdh, if_neg hdPE, if_pos rfl]
      exact headD_congr e dest hAne
    · intro y hy
      have hyA : y ∈ A := mem_of_head? hy
      have hye : y ≠ e := fun e' => heA (e' ▸ hyA)
      have hyd : y ≠ dest := fun e' => hdA (e' ▸ hyA)
      have hyF : y = A.headD e := (headD_eq_of_head? e hy).symm
      rw [sp_prev y, if_neg hye, if_neg hyd, hyF, if_pos rfl]
    · intro z hz
      have hzPE : z = A.getLastD h := (getLastD_eq_of_getLast? h hz).symm
      have hzh : z ≠ h := by rw [hzPE]; exact hPE_h
      rw [sp_next z, if_neg hzh, hzPE, if_pos rfl]
    · rw [sp_prev dest, if_neg hde, if_pos rfl]
      exact getLastD_congr h dest hAne
    · intro x hx hne'
      have hxh : x ≠ h := fun e' => hhA (e' ▸ hx)
      have hxd : x ≠ dest := fun e' => hdA (e' ▸ hx)
      have hxPE : x ≠ A.getLastD h := by
        rwa [getLastD_congr dest h hAne] at hne'
      rw [sp_next x, if_neg hxh, if_neg hxPE, if_neg hxd]
    · intro x hx hne'
      have hxe : x ≠ e := fun e' => heA (e' ▸ hx)
      have hxd : x ≠ dest := fun e' => hdA (e' ▸ hx)
      have hxF : x ≠ A.headD e := by
        rwa [headD_congr dest e hAne] at hne'
      rw [sp_prev x, if_neg hxe, if_neg hxd, if_neg hxF]
  have parth : chainNP s' h (e :: B) h := by
    refine ⟨?_, ?_, ?_⟩
    · rw [sp_next h, if_pos rfl]
    · rw [sp_prev e, if_pos rfl]
    · refine chainNP_frame hB ?_ ?_
      · intro x hx
        rcases List.mem_cons.mp hx with rfl | hxB
        · rw [sp_next x, if_neg (Ne.symm hhe), if_neg (Ne.symm hPE_e),
            if_neg (Ne.symm hde)]
        · have hxh : x ≠ h := fun e' => hhB (e' ▸ hxB)
          have hxPE : x ≠ A.getLastD h := fun e' => hAB _ hPEA (e' ▸ hxB)
          have hxd : x ≠ dest := fun e' => hdB (e' ▸ hxB)
          rw [sp_next x, if_neg hxh, if_neg hxPE, if_neg hxd]
      · intro x hx
        rcases List.mem_append.mp hx with hxB | hxh
        · have hxe : x ≠ e := fun e' => heB (e' ▸ hxB)
          have hxd : x ≠ dest := fun e' => hdB (e' ▸ hxB)
          have hxF : x ≠ A.headD e := fun e' => hAB _ hFA (e' ▸ hxB)
          rw [sp_prev x, if_neg hxe, if_neg hxd, if_neg hxF]
        · have hxh' : x = h := by simpa using hxh
          rw [hxh', sp_prev h, if_neg hhe, if_neg (Ne.symm hdh),
            if_neg (Ne.symm hF_h)]
  refine ⟨⟨partA, ?_⟩, ⟨parth, ?_⟩⟩
  · rw [List.nodup_cons]
    exact ⟨hdA, ndA⟩
  · rw [List.nodup_cons, List.nodup_cons]
    refine ⟨?_, heB, ndB⟩
    intro hmem
    rcases List.mem_cons.mp hmem with e' | e'
    · exact hhe e'
    · exact hhB e'

theorem lrepr_cut_before_first {s : State} {dest h e : Nat} {B : List Nat}
    (hr : lrepr s h (e :: B)) (hd : dest ∉ h :: e :: B) :
    lrepr (list_cut_before dest h e s) dest [] ∧
      lrepr (list_cut_before dest h e s) h (e :: B) := by
  have heF : (s h).next = e := by simpa using chainNP_next_head hr.1
  have hrw : list_cut_before dest h e s = INIT_LIST_HEAD dest s := by
    unfold list_cut_before
    rw [if_pos heF]
  rw [hrw]
  refine ⟨lrepr_INIT .., lrepr_frame hr ?_⟩
  intro x hx
  refine INIT_LIST_HEAD_out ?_
  intro e'
  exact hd (e' ▸ hx)

theorem lrepr_cut_before_all {s : State} {dest h : Nat} {xs : List Nat}
    (hr : lrepr s h xs) (hd : dest ∉ h :: xs) :
    lrepr (list_cut_before dest h h s) dest xs ∧
      lrepr (list_cut_before dest h h s) h [] := by
  obtain ⟨hc, nd⟩ := hr
  obtain ⟨hhxs, ndxs⟩ := nodup_cons_facts nd
  have hdh : dest ≠ h := by intro e'; exact hd (e' ▸ List.mem_cons_self ..)
  have hdxs : dest ∉ xs := fun e' => hd (List.mem_cons_of_mem _ e')
  cases xs with
  | nil =>
    have heF : (s h).next = h := hc.1
    have hrw : list_cut_before dest h h s = INIT_LIST_HEAD dest s := by
      unfold list_cut_before
      rw [if_pos heF]
    rw [hrw]
    refine ⟨lrepr_INIT .., ?_, by simp⟩
    refine ⟨?_, ?_⟩ <;> rw [INIT_LIST_HEAD_out (Ne.symm hdh)]
    · exact hc.1
    · exact hc.2
  | cons f rest =>
    have hne : (f :: rest) ≠ [] := by simp
    have heF : (s h).next = (f :: rest).headD h := chainNP_next_head hc
    have hePE : (s h).prev = (f :: rest).getLastD h := chainNP_prev_last hc
    have hFm : (f :: rest).headD h ∈ f :: rest := headD_mem h hne
    have hPEm : (f :: rest).getLastD h ∈ f :: rest := getLastD_mem h hne
    have hF_h : (f :: rest).headD h ≠ h := fun e' => hhxs (e' ▸ hFm)
    have hPE_h : (f :: rest).getLastD h ≠ h := fun e' => hhxs (e' ▸ hPEm)
    have h1 : dest ≠ (s h).next := by
      rw [heF]; intro e'; exact hdxs (e' ▸ hFm)
    have h4 : dest ≠ (s h).prev := by
      rw [hePE]; intro e'; exact hdxs (e' ▸ hPEm)
    have h5 : (s h).next ≠ h := by rw [heF]; exact hF_h
    have spec := fun x => list_cut_before_spec s dest h h h1 hdh hdh h4 h5 x
    set s' := list_cut_before dest h h s with hs'
    have sp_next : ∀ x, (s' x).next =
        if x = h then h else if x = (f :: rest).getLastD h then dest
        else if x = dest then (f :: rest).headD h else (s x).next := by
      intro x; rw [spec x, heF, hePE]
    have sp_prev : ∀ x, (s' x).prev =
        if x = h then h else if x = dest then (f :: rest).getLastD h
        else if x = (f :: rest).headD h then dest else (s x).prev := by
      intro x; rw [spec x, heF, hePE]
    have partA : chainNP s' dest (f :: rest) dest := by
      refine chainNP_rebridge hc ndxs ?_ ?_ ?_ ?_ ?_ ?_
      · rw [sp_next dest, if_neg hdh, if_neg ?_, if_pos rfl]
        · exact headD_congr h dest hne
        · intro e'; exact hdxs (e' ▸ hPEm)
      · intro y hy
        have hyxs : y ∈ f :: rest := mem_of_head? hy
        have hyh : y ≠ h := fun e' => hhxs (e' ▸ hyxs)
        have hyd : y ≠ dest := fun e' => hdxs (e' ▸ hyxs)
        have hyF : y = (f :: rest).headD h := (headD_eq_of_head? h hy).symm
        rw [sp_prev y, if_neg hyh, if_neg hyd, hyF, if_pos rfl]
      · intro z hz
        have hzPE : z = (f :: rest).getLastD h :=
          (getLastD_eq_of_getLast? h hz).symm
        have hzh : z ≠ h := by rw [hzPE]; exact hPE_h
        rw [sp_next z, if_neg hzh, hzPE, if_pos rfl]
      · rw [sp_prev dest, if_neg hdh, if_pos rfl]
        exact getLastD_congr h dest hne
      · intro x hx hne'
        have hxh : x ≠ h := fun e' => hhxs (e' ▸ hx)
        have hxd : x ≠ dest := fun e' => hdxs (e' ▸ hx)
        have hxPE : x ≠ (f :: rest).getLastD h := by
          rwa [getLastD_congr dest h hne] at hne'
        rw [sp_next x, if_neg hxh, if_neg hxPE, if_neg hxd]
      · intro x hx hne'
        have hxh : x ≠ h := fun e' => hhxs (e' ▸ hx)
        have hxd : x ≠ dest := fun e' => hdxs (e' ▸ hx)
        have hxF : x ≠ (f :: rest).headD h := by
          rwa [headD_congr dest h hne] at hne'
        rw [sp_prev x, if_neg hxh, if_neg hxd, if_neg hxF]
    refine ⟨⟨partA, ?_⟩, ⟨?_, ?_⟩, by simp⟩
    · rw [List.nodup_cons]
      exact ⟨hdxs, ndxs⟩
    · rw [sp_next h, if_pos rfl]
    · rw [sp_prev h, if_pos rfl]

theorem cut_before_first_noop_shape {s : State} {dest h e : Nat}
    (hg : (s h).next = e) : list_cut_before dest h e s = INIT_LIST_HEAD dest s := by
  unfold list_cut_before
  rw [if_pos hg]

/-! ### bulk_move_tail -/

theorem list_bulk_move_tail_spec (s : State) (h f l pA qB t : Nat)
    (e1 : (s f).prev = pA) (e2 : (s l).next = qB)
    (e3 : qB = h → pA = t) (e4 : qB ≠ h → (s h).prev = t) (x : Nat) :
    list_bulk_move_tail h f l s x =
      { next := if x = l then h else if x = t then f
                else if x = pA then qB else (s x).next,
        prev := if x = h then l else if x = f then t
                else if x = qB then pA else (s x).prev } := by
  have r1 : (setNext s (s f).prev (s l).next l).next = qB := by
    unfold setNext
    by_cases hl : l = (s f).prev
    · rw [if_pos hl]; exact e2
    · rw [if_neg hl]; exact e2
  have r2 : (setNext s (s f).prev (s l).next f).prev = pA := by
    unfold setNext
    by_cases hf : f = (s f).prev
    · rw [if_pos hf]; exact e1
    · rw [if_neg hf]; exact e1
  have r3 : (setPrev (setNext s (s f).prev (s l).next) qB pA h).prev = t := by
    by_cases hq : qB = h
    · subst hq
      unfold setPrev
      rw [if_pos rfl]
      exact e3 rfl
    · unfold setPrev setNext
      rw [if_neg (Ne.symm hq)]
      by_cases hh : h = (s f).prev
      · rw [if_pos hh]; exact e4 hq
      · rw [if_neg hh]; exact e4 hq
  unfold list_bulk_move_tail
  simp only [r1, r2, r3]
  have r4 : (setNext (setPrev (setNext s (s f).prev (s l).next) qB pA)
      t f h).prev = t := by
    have : ∀ (u : State) (a v y : Nat), (setNext u a v y).prev = (u y).prev := by
      intro u a v y
      unfold setNext
      by_cases hy : y = a <;> simp [hy]
    rw [this]
    exact r3
  simp only [r4]
  rw [e1, e2] at *
  unfold setNext setPrev
  by_cases c1 : x = l <;> by_cases c2 : x = t <;> by_cases c3 : x = pA <;>
    by_cases c4 : x = h <;> by_cases c5 : x = f <;> by_cases c6 : x = qB <;>
    simp_all

theorem nodup_three_facts {h : Nat} {A R B : List Nat}
    (nd : (h :: (A ++ R ++ B)).Nodup) :
    h ∉ A ∧ h ∉ R ∧ h ∉ B ∧ A.Nodup ∧ R.Nodup ∧ B.Nodup ∧
      (∀ x ∈ A, x ∉ R) ∧ (∀ x ∈ A, x ∉ B) ∧ (∀ x ∈ R, x ∉ B) := by
  simp only [List.nodup_cons, List.mem_append, List.nodup_append,
    List.Disjoint] at nd
  obtain ⟨hh, ⟨ndA, ndR, hAR⟩, ndB, hARB⟩ := nd
  push_neg at hh
  obtain ⟨⟨hh1, hh2⟩, hh3⟩ := hh
  exact ⟨hh1, hh2, hh3, ndA, ndR, ndB, fun x hx => hAR hx,
    fun x hx => hARB (Or.inl hx), fun x hx => hARB (Or.inr hx)⟩

theorem lrepr_bulk_move_tail {s : State} {h f : Nat} {A R' B : List Nat}
    (hr : lrepr s h (A ++ (f :: R') ++ B)) :
    lrepr (list_bulk_move_tail h f ((f :: R').getLastD f) s) h
      ((A ++ B) ++ (f :: R')) := by
  obtain ⟨hc, nd⟩ := hr
  obtain ⟨hhA, hhR, hhB, ndA, ndR, ndB, hAR, hAB2, hRB⟩ := nodup_three_facts nd
  have hfR : f ∈ f :: R' := List.mem_cons_self ..
  have hfR' : f ∉ R' := (nodup_cons_facts ndR).1
  have ndR' : R'.Nodup := (nodup_cons_facts ndR).2
  have hc' : chainNP s h (A ++ f :: (R' ++ B)) h := by
    rwa [List.append_assoc] at hc
  obtain ⟨hA, hRest⟩ := (chainNP_append_iff A (R' ++ B)).mp hc'
  obtain ⟨hR, hBc⟩ := chainNP_split2 (A := R') (B := B) hRest
  rw [List.getLastD_cons]
  have hlm : R'.getLastD f ∈ f :: R' := List.getLastD_mem_cons ..
  have e1 : (s f).prev = A.getLastD h := chainNP_prev_last hA
  have e2 : (s (R'.getLastD f)).next = B.headD h := chainNP_next_head hBc
  have hpAm : A.getLastD h ∈ h :: A := List.getLastD_mem_cons ..
  have hqBm : B.headD h ∈ h :: B := headD_mem_cons ..
  have htm : (A ++ B).getLastD h ∈ h :: (A ++ B) := List.getLastD_mem_cons ..
  have hBempty_iff : B.headD h = h → B = [] := by
    intro hq
    cases B with
    | nil => rfl
    | cons bq B'' =>
      exfalso
      exact hhB (by rw [← (by simpa using hq : bq = h)]; exact List.mem_cons_self ..)
  have e3 : B.headD h = h → A.getLastD h = (A ++ B).getLastD h := by
    intro hq
    rw [hBempty_iff hq]
    simp
  have e4 : B.headD h ≠ h → (s h).prev = (A ++ B).getLastD h := by
    intro hq
    have hBne : B ≠ [] := by
      intro e'; rw [e'] at hq; exact hq rfl
    have t1 := chainNP_prev_last hc
    rw [getLastD_append] at t1
    rw [t1]
    conv_rhs => rw [getLastD_append]
    exact getLastD_congr _ _ hBne
  have spec := fun x => list_bulk_move_tail_spec s h f (R'.getLastD f)
    (A.getLastD h) (B.headD h) ((A ++ B).getLastD h) e1 e2 e3 e4 x
  set s' := list_bulk_move_tail h f (R'.getLastD f) s with hs'
  have sp_next : ∀ x, (s' x).next =
      if x = R'.getLastD f then h else if x = (A ++ B).getLastD h then f
      else if x = A.getLastD h then B.headD h else (s x).next := by
    intro x; rw [spec x]
  have sp_prev : ∀ x, (s' x).prev =
      if x = h then R'.getLastD f else if x = f then (A ++ B).getLastD h
      else if x = B.headD h then A.getLastD h else (s x).prev := by
    intro x; rw [spec x]
  -- frequently used disequalities
  have hmemR_ne : ∀ x ∈ f :: R', x ≠ h ∧ x ∉ A ∧ x ∉ B := by
    intro x hx
    exact ⟨fun e' => hhR (e' ▸ hx), fun e' => hAR x e' hx,
      fun e' => hRB x hx e'⟩
  have ht_notR : ∀ x ∈ f :: R', x ≠ (A ++ B).getLastD h := by
    intro x hx e'
    rcases List.mem_cons.mp (e' ▸ htm) with e'' | e''
    · exact (hmemR_ne x hx).1 e''
    · rcases List.mem_append.mp e'' with e3' | e3'
      · exact (hmemR_ne x hx).2.1 e3'
      · exact (hmemR_ne x hx).2.2 e3'
  have hpA_notR : ∀ x ∈ f :: R', x ≠ A.getLastD h := by
    intro x hx e'
    rcases List.mem_cons.mp (e' ▸ hpAm) with e'' | e''
    · exact (hmemR_ne x hx).1 e''
    · exact (hmemR_ne x hx).2.1 e''
  have hqB_notR : ∀ x ∈ f :: R', x ≠ B.headD h := by
    intro x hx e'
    rcases List.mem_cons.mp (e' ▸ hqBm) with e'' | e''
    · exact (hmemR_ne x hx).1 e''
    · exact (hmemR_ne x hx).2.2 e''
  have hl_notA : ∀ x ∈ A, x ≠ R'.getLastD f := by
    intro x hx e'
    exact hAR x hx (e' ▸ hlm)
  have hl_notB : ∀ x ∈ B, x ≠ R'.getLastD f := by
    intro x hx e'
    exact hRB _ (e' ▸ hlm) hx
  have hf_notA : ∀ x ∈ A, x ≠ f := fun x hx e' => hAR x hx (e' ▸ hfR)
  have hf_notB : ∀ x ∈ B, x ≠ f := fun x hx e' => hRB _ (e' ▸ hfR) hx
  -- part 1a : A between h and (B.headD f)
  have part1a : chainNP s' h A (B.headD f) := by
    refine chainNP_rebridge hA ndA ?_ ?_ ?_ ?_ ?_ ?_
    · -- (s' h).next = A.headD (B.headD f)
      have hhl : h ≠ R'.getLastD f := fun e' => hhR (e' ▸ hlm)
      cases A with
      | nil =>
        cases B with
        | nil =>
          rw [sp_next h, if_neg hhl]
          simp
        | cons bq B'' =>
          have hht : h ≠ ((List.nil ++ bq :: B'').getLastD h) := by
            intro e'
            have hmm : (bq :: B'').getLastD h ∈ bq :: B'' :=
              getLastD_mem h (by simp)
            rw [List.nil_append] at e'
            exact hhB (e' ▸ hmm)
          rw [sp_next h, if_neg hhl, if_neg hht,
            if_pos (show h = (List.nil (α := Nat)).getLastD h from rfl)]
          simp
      | cons a A'' =>
        have hht : h ≠ ((a :: A'' ++ B).getLastD h) := by
          intro e'
          have hmm : (a :: A'' ++ B).getLastD h ∈ a :: A'' ++ B :=
            getLastD_mem h (by simp)
          rw [← e'] at hmm
          rcases List.mem_cons.mp hmm with e'' | e''
          · exact hhA (e'' ▸ List.mem_cons_self ..)
          · rcases List.mem_append.mp e'' with e3' | e3'
            · exact hhA (List.mem_cons_of_mem _ e3')
            · exact hhB e3'
        have hhpA : h ≠ (a :: A'').getLastD h := by
          intro e'
          exact hhA (e' ▸ getLastD_mem h (l := a :: A'') (by simp))
        rw [sp_next h, if_neg hhl, if_neg hht, if_neg hhpA]
        have := chainNP_next_head hA
        simpa using this
    · intro y hy
      have hyA : y ∈ A := mem_of_head? hy
      have hyh : y ≠ h := fun e' => hhA (e' ▸ hyA)
      have hyf : y ≠ f := hf_notA y hyA
      have hyqB : y ≠ B.headD h := by
        intro e'
        rcases List.mem_cons.mp (e' ▸ hqBm) with e'' | e''
        · exact hyh e''
        · exact hAB2 y hyA e''
      rw [sp_prev y, if_neg hyh, if_neg hyf, if_neg hyqB]
      have := chainNP_head_prev hA
      rwa [headD_eq_of_head? _ hy] at this
    · intro z hz
      have hzA : z ∈ A := mem_of_getLast? hz
      have hzpA : z = A.getLastD h := (getLastD_eq_of_getLast? h hz).symm
      have hzl : z ≠ R'.getLastD f := hl_notA z hzA
      cases B with
      | nil =>
        have hzt : z = (A ++ []).getLastD h := by
          rw [List.append_nil]; exact hzpA
        rw [sp_next z, if_neg hzl, hzt, if_pos rfl]
        rfl
      | cons bq B'' =>
        have hzt : z ≠ (A ++ bq :: B'').getLastD h := by
          rw [getLastD_append, List.getLastD_cons]
          intro e'
          have : (B'').getLastD bq ∈ bq :: B'' := List.getLastD_mem_cons ..
          exact hAB2 z hzA (e' ▸ this)
        rw [sp_next z, if_neg hzl, if_neg hzt, hzpA, if_pos rfl]
        rfl
    · -- (s' (B.headD f)).prev = A.getLastD h
      cases B with
      | nil =>
        have hfh : f ≠ h := fun e' => hhR (e' ▸ hfR)
        rw [show (List.nil (α := Nat)).headD f = f from rfl, sp_prev f,
          if_neg hfh, if_pos rfl]
        simp
      | cons bq B'' =>
        have hqm : bq ∈ bq :: B'' := List.mem_cons_self ..
        have hqh : bq ≠ h := fun e' => hhB (e' ▸ hqm)
        have hqf : bq ≠ f := hf_notB bq hqm
        rw [show (bq :: B'').headD f = bq from rfl, sp_prev bq,
          if_neg hqh, if_neg hqf, show (bq :: B'').headD h = bq from rfl,
          if_pos rfl]
    · intro x hx hne'
      have hxl : x ≠ R'.getLastD f := hl_notA x hx
      have hxt : x ≠ (A ++ B).getLastD h := by
        cases B with
        | nil => rw [List.append_nil]; exact hne'
        | cons bq B'' =>
          rw [getLastD_append, List.getLastD_cons]
          intro e'
          have : (B'').getLastD bq ∈ bq :: B'' := List.getLastD_mem_cons ..
          exact hAB2 x hx (e' ▸ this)
      rw [sp_next x, if_neg hxl, if_neg hxt, if_neg hne']
    · intro x hx _
      have hxh : x ≠ h := fun e' => hhA (e' ▸ hx)
      have hxf : x ≠ f := hf_notA x hx
      have hxqB : x ≠ B.headD h := by
        intro e'
        rcases List.mem_cons.mp (e' ▸ hqBm) with e'' | e''
        · exact hxh e''
        · exact hAB2 x hx e''
      rw [sp_prev x, if_neg hxh, if_neg hxf, if_neg hxqB]
  -- part 1b : B between A's end and f
  have part1b : chainNP s' (A.getLastD h) B f := by
    refine chainNP_rebridge hBc ndB ?_ ?_ ?_ ?_ ?_ ?_
    · have hpAl : A.getLastD h ≠ R'.getLastD f := by
        intro e'
        rcases List.mem_cons.mp hpAm with e'' | e''
        · exact hhR ((e'' ▸ e') ▸ hlm)
        · exact hAR _ e'' (e' ▸ hlm)
      cases B with
      | nil =>
        have hrwt : (A ++ ([] : List Nat)).getLastD h = A.getLastD h := by
          rw [List.append_nil]
        rw [sp_next _, if_neg hpAl, hrwt, if_pos rfl]
        rfl
      | cons bq B'' =>
        have hpAt : A.getLastD h ≠ (A ++ bq :: B'').getLastD h := by
          rw [getLastD_append, List.getLastD_cons]
          intro e'
          have hmm : (B'').getLastD bq ∈ bq :: B'' := List.getLastD_mem_cons ..
          rcases List.mem_cons.mp hpAm with e'' | e''
          · exact hhB ((e'' ▸ e') ▸ hmm)
          · exact hAB2 _ e'' (e' ▸ hmm)
        rw [sp_next _, if_neg hpAl, if_neg hpAt, if_pos rfl]
        rfl
    · intro y hy
      have hyB : y ∈ B := mem_of_head? hy
      have hyh : y ≠ h := fun e' => hhB (e' ▸ hyB)
      have hyf : y ≠ f := hf_notB y hyB
      have hyq : y = B.headD h := (headD_eq_of_head? h hy).symm
      rw [sp_prev y, if_neg hyh, if_neg hyf, hyq, if_pos rfl]
    · intro z hz
      have hzB : z ∈ B := mem_of_getLast? hz
      have hzl : z ≠ R'.getLastD f := hl_notB z hzB
      have hzt : z = (A ++ B).getLastD h := by
        rw [getLastD_append]
        exact (getLastD_eq_of_getLast? _ hz).symm
      rw [sp_next z, if_neg hzl, hzt, if_pos rfl]
    · have hfh : f ≠ h := fun e' => hhR (e' ▸ hfR)
      rw [sp_prev f, if_neg hfh, if_pos rfl]
      cases B with
      | nil => simp
      | cons bq B'' =>
        rw [getLastD_append]
    · intro x hx hne'
      have hxl : x ≠ R'.getLastD f := hl_notB x hx
      have hxt : x ≠ (A ++ B).getLastD h := by
        rw [getLastD_append]
        exact hne'
      have hxpA : x ≠ A.getLastD h := by
        intro e'
        rcases List.mem_cons.mp (e' ▸ hpAm) with e'' | e''
        · exact hhB (e'' ▸ hx)
        · exact hAB2 _ e'' hx
      rw [sp_next x, if_neg hxl, if_neg hxt, if_neg hxpA]
    · intro x hx hne'
      have hxh : x ≠ h := fun e' => hhB (e' ▸ hx)
      have hxf : x ≠ f := hf_notB x hx
      have hxqB : x ≠ B.headD h := by
        intro e'
        apply hne'
        rw [e']
        exact headD_congr h f (by rintro rfl; exact absurd hx (List.not_mem_nil x))
      rw [sp_prev x, if_neg hxh, if_neg hxf, if_neg hxqB]
  -- part 2 : the moved run, from t to h
  have partR : chainNP s' f R' h := by
    refine chainNP_rebridge hR ndR' ?_ ?_ ?_ ?_ ?_ ?_
    · cases R' with
      | nil =>
        rw [show (List.nil (α := Nat)).getLastD f = f from rfl] at sp_next
        rw [sp_next f, if_pos rfl]
        rfl
      | cons r R'' =>
        have hfl : f ≠ (r :: R'').getLastD f := by
          rw [List.getLastD_cons]
          intro e'
          exact hfR' (e' ▸ List.getLastD_mem_cons ..)
        have hft : f ≠ (A ++ B).getLastD h := ht_notR f hfR
        have hfpA : f ≠ A.getLastD h := hpA_notR f hfR
        rw [sp_next f, if_neg hfl, if_neg hft, if_neg hfpA]
        have := chainNP_next_head hR
        rw [this]
        exact headD_congr _ _ (by simp)
    · intro y hy
      have hyR : y ∈ R' := mem_of_head? hy
      have hyR2 : y ∈ f :: R' := List.mem_cons_of_mem _ hyR
      have hyh : y ≠ h := (hmemR_ne y hyR2).1
      have hyf : y ≠ f := fun e' => hfR' (e' ▸ hyR)
      have hyqB : y ≠ B.headD h := hqB_notR y hyR2
      rw [sp_prev y, if_neg hyh, if_neg hyf, if_neg hyqB]
      have := chainNP_head_prev hR
      rwa [headD_eq_of_head? _ hy] at this
    · intro z hz
      have hzl : z = R'.getLastD f := (getLastD_eq_of_getLast? f hz).symm
      rw [sp_next z, hzl, if_pos rfl]
    · rw [sp_prev h, if_pos rfl]
    · intro x hx hne'
      have hxR2 : x ∈ f :: R' := List.mem_cons_of_mem _ hx
      have hxt : x ≠ (A ++ B).getLastD h := ht_notR x hxR2
      have hxpA : x ≠ A.getLastD h := hpA_notR x hxR2
      rw [sp_next x, if_neg hne', if_neg hxt, if_neg hxpA]
    · intro x hx hne'
      have hxR2 : x ∈ f :: R' := List.mem_cons_of_mem _ hx
      have hxh : x ≠ h := (hmemR_ne x hxR2).1
      have hxf : x ≠ f := fun e' => hfR' (e' ▸ hx)
      have hxqB : x ≠ B.headD h := hqB_notR x hxR2
      rw [sp_prev x, if_neg hxh, if_neg hxf, if_neg hxqB]
  have part2 : chainNP s' ((A ++ B).getLastD h) (f :: R') h := by
    refine ⟨?_, ?_, partR⟩
    · have htl : (A ++ B).getLastD h ≠ R'.getLastD f := by
        intro e'
        rcases List.mem_cons.mp htm with e'' | e''
        · exact hhR ((e'' ▸ e') ▸ hlm)
        · rcases List.mem_append.mp e'' with e3' | e3'
          · exact hAR _ e3' (e' ▸ hlm)
          · exact hRB _ (e' ▸ hlm) e3'
      rw [sp_next _, if_neg htl, if_pos rfl]
    · have hfh : f ≠ h := fun e' => hhR (e' ▸ hfR)
      rw [sp_prev f, if_neg hfh, if_pos rfl]
  constructor
  · have j1 : chainNP s' h (A ++ B) ((f :: R').headD h) := by
      rw [show (f :: R').headD h = f from rfl]
      exact chainNP_join2 part1a part1b
    exact chainNP_join2 j1 part2
  · have pm : List.Perm (h :: ((A ++ (f :: R')) ++ B))
        (h :: ((A ++ B) ++ (f :: R'))) := by
      refine List.Perm.cons h ?_
      rw [List.append_assoc, List.append_assoc]
      exact List.Perm.append_left A List.perm_append_comm
    exact pm.nodup nd

/-! ### Reachability stays within the cycle -/

theorem lrepr_reach_mem {s : State} {h : Nat} {xs : List Nat}
    (hr : lrepr s h xs) : ∀ n, reach s h n → n ∈ h :: xs := by
  intro n hn
  induction hn with
  | refl => exact List.mem_cons_self ..
  | tail _ hstep ih =>
    rename_i b c _
    have := chainNP_mem_next hr.1 b ih
    rw [hstep] at this
    rcases List.mem_append.mp this with e | e
    · exact List.mem_cons_of_mem _ e
    · simp only [List.mem_singleton] at e
      rw [e]
      exact List.mem_cons_self ..

/-! ### Round trip: add then del restores the original heap on the cycle -/

theorem list_add_del_roundtrip {s : State} {h n : Nat} {xs : List Nat}
    (hr : lrepr s h xs) (hne : xs ≠ []) (hn : n ∉ h :: xs) :
    (∀ x ∈ h :: xs, list_del n (list_add n h s) x = s x) ∧
      lrepr (list_del n (list_add n h s)) h xs := by
  have hf : (s h).next = xs.headD h := chainNP_next_head hr.1
  have hfm : xs.headD h ∈ xs := headD_mem h hne
  have hhxs : h ∉ xs := (nodup_cons_facts hr.2).1
  have hnh : n ≠ h := by intro e'; exact hn (e' ▸ List.mem_cons_self ..)
  have hnf : n ≠ (s h).next := by
    rw [hf]; intro e'; exact hn (List.mem_cons_of_mem _ (e' ▸ hfm))
  have hhf : h ≠ (s h).next := by
    rw [hf]; intro e'; exact hhxs (e' ▸ hfm)
  have addspec := __list_add_spec s (p := h) (q := (s h).next) hnh hnf
  have s1n : list_add n h s n = ⟨(s h).next, h⟩ := by
    unfold list_add
    rw [addspec n, if_pos rfl]
  have hmain : ∀ x, x ≠ n → list_del n (list_add n h s) x = s x := by
    intro x hxn
    have hx_next : (list_add n h s x).next
        = if x = h then n else (s x).next := by
      unfold list_add
      rw [addspec x, if_neg hxn]
    have hx_prev : (list_add n h s x).prev
        = if x = (s h).next then n else (s x).prev := by
      unfold list_add
      rw [addspec x, if_neg hxn]
    have key : list_del n (list_add n h s) x =
        { next := if x = h then (s h).next else (list_add n h s x).next,
          prev := if x = (s h).next then h else (list_add n h s x).prev } := by
      rw [list_del_spec, if_neg hxn, s1n, __list_del_spec]
    rw [key, hx_next, hx_prev]
    by_cases exh : x = h <;> by_cases exf : x = (s h).next
    · exact absurd (exh.symm.trans exf) hhf
    · rw [if_pos exh, if_neg exf, if_neg exf, exh]
    · have hfp : (s ((s h).next)).prev = h := by
        rw [hf]; exact chainNP_head_prev hr.1
      rw [if_neg exh, if_pos exf, if_neg exh]
      rw [show (Node.mk (s x).next h) = s x from ?_]
      rw [show h = (s x).prev from ?_]
      · rw [exf]; exact hfp.symm
    · rw [if_neg exh, if_neg exf, if_neg exh, if_neg exf]
  constructor
  · intro x hx
    exact hmain x (fun e' => hn (e' ▸ hx))
  · refine lrepr_frame hr ?_
    intro x hx
    exact hmain x (fun e' => hn (e' ▸ hx))

/-! ### Safe iteration with deletion -/

theorem eachSafeDelAux_spec {h : Nat} :
    ∀ (xs : List Nat) (s : State), lrepr s h xs →
      (eachSafeDelAux (xs.length + 1) s h (xs.headD h)
        ((s (xs.headD h)).next)).1 = xs ∧
      lrepr (eachSafeDelAux (xs.length + 1) s h (xs.headD h)
        ((s (xs.headD h)).next)).2 h [] := by
  intro xs
  induction xs with
  | nil =>
    intro s hr
    constructor <;> simp [eachSafeDelAux, hr]
  | cons x rest ih =>
    intro s hr
    have hxh : x ≠ h := by
      intro e'
      have := hr.2
      simp [e'] at this
    have hnx : (s x).next = rest.headD h := chainNP_next_head hr.1.2.2
    have hdel : lrepr (list_del x s) h rest :=
      lrepr_list_del (A := []) (B := rest) (by simpa using hr)
    have hlen : (x :: rest).length + 1 = rest.length + 1 + 1 := by simp
    rw [hlen]
    have hunf : eachSafeDelAux (rest.length + 1 + 1) s h ((x :: rest).headD h)
        ((s ((x :: rest).headD h)).next)
        = (x :: (eachSafeDelAux (rest.length + 1) (list_del x s) h
            ((s x).next) ((list_del x s ((s x).next)).next)).1,
          (eachSafeDelAux (rest.length + 1) (list_del x s) h
            ((s x).next) ((list_del x s ((s x).next)).next)).2) := by
      show eachSafeDelAux (rest.length + 1 + 1) s h x ((s x).next) = _
      rw [show eachSafeDelAux (rest.length + 1 + 1) s h x ((s x).next)
        = if x = h then ([], s) else
            (x :: (eachSafeDelAux (rest.length + 1) (list_del x s) h
              ((s x).next) ((list_del x s ((s x).next)).next)).1,
            (eachSafeDelAux (rest.length + 1) (list_del x s) h
              ((s x).next) ((list_del x s ((s x).next)).next)).2) from rfl]
      rw [if_neg hxh]
    rw [hunf]
    have ihres := ih (list_del x s) hdel
    rw [← hnx] at ihres
    exact ⟨by rw [ihres.1], ihres.2⟩

theorem list_for_each_safe_del_spec {s : State} {h : Nat} {xs : List Nat}
    (hr : lrepr s h xs) :
    (list_for_each_safe_del h s (xs.length + 1)).1 = xs ∧
      lrepr (list_for_each_safe_del h s (xs.length + 1)).2 h [] := by
  have hf : (s h).next = xs.headD h := chainNP_next_head hr.1
  unfold list_for_each_safe_del
  rw [hf]
  exact eachSafeDelAux_spec xs s hr

/-! ### Swap -/

/-- Transposition of two addresses. -/
def transp (a b x : Nat) : Nat :=
  if x = a then b else if x = b then a else x

theorem transp_left (a b : Nat) : transp a b a = b := by simp [transp]

theorem transp_right {a b : Nat} (h : a ≠ b) : transp a b b = a := by
  simp [transp, Ne.symm h]

theorem transp_other {a b x : Nat} (h1 : x ≠ a) (h2 : x ≠ b) :
    transp a b x = x := by simp [transp, h1, h2]

theorem map_transp_eq_of_not_mem {a b : Nat} {l : List Nat}
    (ha : a ∉ l) (hb : b ∉ l) : l.map (transp a b) = l := by
  induction l with
  | nil => rfl
  | cons x xs ih =>
    have hxa : x ≠ a := fun e' => ha (e' ▸ List.mem_cons_self ..)
    have hxb : x ≠ b := fun e' => hb (e' ▸ List.mem_cons_self ..)
    rw [List.map_cons, transp_other hxa hxb,
      ih (fun e' => ha (List.mem_cons_of_mem _ e'))
        (fun e' => hb (List.mem_cons_of_mem _ e'))]

theorem map_transp_shape {a b : Nat} {A M B : List Nat}
    (haA : a ∉ A) (hbA : b ∉ A) (haM : a ∉ M) (hbM : b ∉ M)
    (haB : a ∉ B) (hbB : b ∉ B) (hab : a ≠ b) :
    (A ++ a :: (M ++ b :: B)).map (transp a b) = A ++ b :: (M ++ a :: B) := by
  rw [List.map_append, List.map_cons, List.map_append, List.map_cons,
    map_transp_eq_of_not_mem haA hbA, map_transp_eq_of_not_mem haM hbM,
    map_transp_eq_of_not_mem haB hbB, transp_left, transp_right hab]

theorem map_transp_shape2 {a b : Nat} {A M B : List Nat}
    (haA : a ∉ A) (hbA : b ∉ A) (haM : a ∉ M) (hbM : b ∉ M)
    (haB : a ∉ B) (hbB : b ∉ B) (hab : a ≠ b) :
    (A ++ b :: (M ++ a :: B)).map (transp a b) = A ++ a :: (M ++ b :: B) := by
  rw [List.map_append, List.map_cons, List.map_append, List.map_cons,
    map_transp_eq_of_not_mem haA hbA, map_transp_eq_of_not_mem haM hbM,
    map_transp_eq_of_not_mem haB hbB, transp_left, transp_right hab]

theorem list_del_out {s : State} {e x : Nat} (h1 : x ≠ e)
    (h2 : x ≠ (s e).prev) (h3 : x ≠ (s e).next) :
    list_del e s x = s x := by
  rw [list_del_agree h1, __list_del_entry_out h2 h3]

theorem list_replace_out {s : State} {old n x : Nat} (h1 : n ≠ old)
    (h2 : n ≠ (s old).next) (h3 : n ≠ (s old).prev) (h4 : old ≠ (s old).next)
    (hx1 : x ≠ n) (hx2 : x ≠ (s old).next) (hx3 : x ≠ (s old).prev) :
    list_replace old n s x = s x := by
  rw [list_replace_spec s h1 h2 h3 h4 x, if_neg hx1, if_neg hx3, if_neg hx2]

theorem lrepr_add_after {s : State} {h n : Nat} {A B : List Nat}
    (hr : lrepr s h (A ++ B)) (hn : n ∉ h :: (A ++ B)) :
    lrepr (list_add n (A.getLastD h) s) h (A ++ n :: B) := by
  have e1 : (s (A.getLastD h)).next = B.headD h :=
    chainNP_next_head (chainNP_split2 hr.1).2
  unfold list_add
  rw [e1]
  exact lrepr_insert hr hn

theorem lrepr_swap_fwd {s : State} {h a b : Nat} {A M B : List Nat}
    (hr : lrepr s h (A ++ a :: (M ++ b :: B))) :
    lrepr (list_swap a b s) h (A ++ b :: (M ++ a :: B)) := by
  have hr2 : lrepr s h ((A ++ a :: M) ++ b :: B) := by
    rw [List.append_assoc, List.cons_append]; exact hr
  obtain ⟨hhA, hhMbB, hha, haA, haMbB, -, -, -⟩ := nodup_mid_facts hr.2
  obtain ⟨-, -, hhb, hbAaM, hbB, -, -, -⟩ := nodup_mid_facts hr2.2
  have hab : a ≠ b := fun e' => haMbB
    (List.mem_append.mpr (Or.inr (by rw [e']; exact List.mem_cons_self ..)))
  have haM : a ∉ M := fun e' => haMbB (List.mem_append.mpr (Or.inl e'))
  have haB : a ∉ B := fun e' => haMbB
    (List.mem_append.mpr (Or.inr (List.mem_cons_of_mem _ e')))
  have hbA : b ∉ A := fun e' => hbAaM (List.mem_append.mpr (Or.inl e'))
  have hbM : b ∉ M := fun e' => hbAaM
    (List.mem_append.mpr (Or.inr (List.mem_cons_of_mem _ e')))
  obtain ⟨hL, hR⟩ := (chainNP_append_iff (A ++ a :: M) B).mp hr2.1
  have hpos : (s b).prev = M.getLastD a := by
    have := chainNP_prev_last hL
    rwa [getLastD_append, List.getLastD_cons] at this
  have hdel : lrepr (list_del b s) h (A ++ a :: (M ++ B)) := by
    rw [← List.cons_append, ← List.append_assoc]
    exact lrepr_list_del hr2
  have hbnot : b ∉ h :: (A ++ a :: (M ++ B)) := by
    simp only [List.mem_cons, List.mem_append, not_or]
    exact ⟨fun e' => hhb e'.symm, hbA, fun e' => hab e'.symm, hbM, hbB⟩
  have hrep := (lrepr_replace hdel hbnot).1
  have hpos2 : (if (s b).prev = a then b else (s b).prev) = M.getLastD b := by
    rw [hpos]
    cases M with
    | nil => simp
    | cons m M' =>
      rw [List.getLastD_cons, List.getLastD_cons]
      have hne : M'.getLastD m ≠ a := by
        intro e'
        exact haM (e' ▸ List.getLastD_mem_cons ..)
      rw [if_neg hne]
  have hform : list_swap a b s
      = list_add a (M.getLastD b) (list_replace a b (list_del b s)) := by
    simp only [list_swap]
    rw [hpos2]
  have hrep2 : lrepr (list_replace a b (list_del b s)) h ((A ++ b :: M) ++ B) := by
    rw [List.append_assoc, List.cons_append]; exact hrep
  have hanot : a ∉ h :: ((A ++ b :: M) ++ B) := by
    simp only [List.mem_cons, List.mem_append, not_or]
    exact ⟨fun e' => hha e'.symm, ⟨haA, hab, haM⟩, haB⟩
  have hkey := lrepr_add_after (A := A ++ b :: M) (B := B) hrep2 hanot
  have hsite : (A ++ b :: M).getLastD h = M.getLastD b := by
    rw [getLastD_append, List.getLastD_cons]
  rw [hsite] at hkey
  rw [hform, ← List.cons_append, ← List.append_assoc]
  exact hkey

theorem lrepr_swap_bwd {s : State} {h a b : Nat} {A M B : List Nat}
    (hr : lrepr s h (A ++ b :: (M ++ a :: B))) :
    lrepr (list_swap a b s) h (A ++ a :: (M ++ b :: B)) := by
  obtain ⟨hhA, hhMaB, hhb, hbA, hbMaB, -, -, -⟩ := nodup_mid_facts hr.2
  have hr2 : lrepr s h ((A ++ b :: M) ++ a :: B) := by
    rw [List.append_assoc, List.cons_append]; exact hr
  obtain ⟨-, -, hha, haAbM, haB, -, -, -⟩ := nodup_mid_facts hr2.2
  have hab : a ≠ b := fun e' => haAbM
    (List.mem_append.mpr (Or.inr (by rw [e']; exact List.mem_cons_self ..)))
  have haA : a ∉ A := fun e' => haAbM (List.mem_append.mpr (Or.inl e'))
  have haM : a ∉ M := fun e' => haAbM
    (List.mem_append.mpr (Or.inr (List.mem_cons_of_mem _ e')))
  have hbM : b ∉ M := fun e' => hbMaB (List.mem_append.mpr (Or.inl e'))
  have hbB : b ∉ B := fun e' => hbMaB
    (List.mem_append.mpr (Or.inr (List.mem_cons_of_mem _ e')))
  obtain ⟨hA, -⟩ := (chainNP_append_iff A (M ++ a :: B)).mp hr.1
  have hpos : (s b).prev = A.getLastD h := chainNP_prev_last hA
  have hposne : A.getLastD h ≠ a := by
    intro e'
    have hm : A.getLastD h ∈ h :: A := List.getLastD_mem_cons ..
    rw [e'] at hm
    rcases List.mem_cons.mp hm with e'' | e''
    · exact hha e''.symm
    · exact haA e''
  have hdel2 : lrepr (list_del b s) h ((A ++ M) ++ a :: B) := by
    rw [List.append_assoc]
    exact lrepr_list_del (A := A) (B := M ++ a :: B) hr
  have hbnot : b ∉ h :: ((A ++ M) ++ a :: B) := by
    simp only [List.mem_cons, List.mem_append, not_or]
    exact ⟨fun e' => hhb e'.symm, ⟨hbA, hbM⟩, fun e' => hab e'.symm, hbB⟩
  have hrep := (lrepr_replace hdel2 hbnot).1
  have hform : list_swap a b s
      = list_add a (A.getLastD h) (list_replace a b (list_del b s)) := by
    simp only [list_swap]
    rw [hpos, if_neg hposne]
  have hrep2 : lrepr (list_replace a b (list_del b s)) h (A ++ (M ++ b :: B)) := by
    rw [← List.append_assoc]; exact hrep
  have hanot : a ∉ h :: (A ++ (M ++ b :: B)) := by
    simp only [List.mem_cons, List.mem_append, not_or]
    exact ⟨fun e' => hha e'.symm, haA, haM, hab, haB⟩
  have hkey := lrepr_add_after (A := A) (B := M ++ b :: B) hrep2 hanot
  rw [hform]
  exact hkey

theorem lrepr_swap_same {s : State} {h a b : Nat} {xs : List Nat}
    (hr : lrepr s h xs) (ha : a ∈ xs) (hb : b ∈ xs) (hab : a ≠ b) :
    lrepr (list_swap a b s) h (xs.map (transp a b)) := by
  obtain ⟨A, T, rfl⟩ := List.append_of_mem ha
  by_cases hbT : b ∈ T
  · obtain ⟨M, B, rfl⟩ := List.append_of_mem hbT
    obtain ⟨-, -, -, haA, haMbB, -, -, -⟩ := nodup_mid_facts hr.2
    have hr2 : lrepr s h ((A ++ a :: M) ++ b :: B) := by
      rw [List.append_assoc, List.cons_append]; exact hr
    obtain ⟨-, -, -, hbAaM, hbB, -, -, -⟩ := nodup_mid_facts hr2.2
    have haM : a ∉ M := fun e' => haMbB (List.mem_append.mpr (Or.inl e'))
    have haB : a ∉ B := fun e' => haMbB
      (List.mem_append.mpr (Or.inr (List.mem_cons_of_mem _ e')))
    have hbA : b ∉ A := fun e' => hbAaM (List.mem_append.mpr (Or.inl e'))
    have hbM : b ∉ M := fun e' => hbAaM
      (List.mem_append.mpr (Or.inr (List.mem_cons_of_mem _ e')))
    rw [map_transp_shape haA hbA haM hbM haB hbB hab]
    exact lrepr_swap_fwd hr
  · have hbA0 : b ∈ A := by
      rcases List.mem_append.mp hb with e' | e'
      · exact e'
      · rcases List.mem_cons.mp e' with e'' | e''
        · exact absurd e''.symm hab
        · exact absurd e'' hbT
    obtain ⟨A2, M, rfl⟩ := List.append_of_mem hbA0
    have hr' : lrepr s h (A2 ++ b :: (M ++ a :: T)) := by
      rw [← List.cons_append, ← List.append_assoc]; exact hr
    obtain ⟨-, -, -, hbA2, hbMaT, -, -, -⟩ := nodup_mid_facts hr'.2
    obtain ⟨-, -, -, haA2bM, haT, -, -, -⟩ := nodup_mid_facts hr.2
    have haA2 : a ∉ A2 := fun e' => haA2bM (List.mem_append.mpr (Or.inl e'))
    have haM : a ∉ M := fun e' => haA2bM
      (List.mem_append.mpr (Or.inr (List.mem_cons_of_mem _ e')))
    have hbM : b ∉ M := fun e' => hbMaT (List.mem_append.mpr (Or.inl e'))
    rw [show (A2 ++ b :: M) ++ a :: T = A2 ++ b :: (M ++ a :: T) from by
      rw [List.append_assoc, List.cons_append]]
    rw [map_transp_shape2 haA2 hbA2 haM hbM haT hbT hab]
    exact lrepr_swap_bwd hr'

theorem lrepr_swap_cross {s : State} {g k a b : Nat} {A B C D : List Nat}
    (hr1 : lrepr s g (A ++ a :: B)) (hr2 : lrepr s k (C ++ b :: D))
    (hdisj : ∀ x ∈ g :: (A ++ a :: B), x ∉ k :: (C ++ b :: D)) :
    lrepr (list_swap a b s) g (A ++ b :: B) ∧
      lrepr (list_swap a b s) k (C ++ a :: D) := by
  obtain ⟨hgA, hgB, hga, haA, haB, -, -, -⟩ := nodup_mid_facts hr1.2
  obtain ⟨hkC, hkD, hkb, hbC, hbD, -, -, -⟩ := nodup_mid_facts hr2.2
  have hmem_a : a ∈ g :: (A ++ a :: B) :=
    List.mem_cons_of_mem _ (List.mem_append.mpr (Or.inr (List.mem_cons_self ..)))
  have hbmemL2 : b ∈ k :: (C ++ b :: D) :=
    List.mem_cons_of_mem _ (List.mem_append.mpr (Or.inr (List.mem_cons_self ..)))
  have haL2 : a ∉ k :: (C ++ b :: D) := hdisj a hmem_a
  have hba : b ≠ a := fun e' => haL2 (by rw [← e']; exact hbmemL2)
  obtain ⟨hA1, hB1⟩ := (chainNP_append_iff A B).mp hr1.1
  have han : (s a).next = B.headD g := chainNP_next_head hB1
  have hap : (s a).prev = A.getLastD g := chainNP_prev_last hA1
  obtain ⟨hC1, hD1⟩ := (chainNP_append_iff C D).mp hr2.1
  have hbp : (s b).prev = C.getLastD k := chainNP_prev_last hC1
  have hbn : (s b).next = D.headD k := chainNP_next_head hD1
  have hmemBh : B.headD g ∈ g :: (A ++ a :: B) := by
    rcases List.mem_cons.mp (headD_mem_cons B g) with e' | e'
    · rw [e']; exact List.mem_cons_self ..
    · exact List.mem_cons_of_mem _
        (List.mem_append.mpr (Or.inr (List.mem_cons_of_mem _ e')))
  have hmemAl : A.getLastD g ∈ g :: (A ++ a :: B) := by
    rcases List.mem_cons.mp (List.getLastD_mem_cons A g) with e' | e'
    · rw [e']; exact List.mem_cons_self ..
    · exact List.mem_cons_of_mem _ (List.mem_append.mpr (Or.inl e'))
  have hposmem : C.getLastD k ∈ k :: (C ++ b :: D) := by
    rcases List.mem_cons.mp (List.getLastD_mem_cons C k) with e' | e'
    · rw [e']; exact List.mem_cons_self ..
    · exact List.mem_cons_of_mem _ (List.mem_append.mpr (Or.inl e'))
  have hqmem : D.headD k ∈ k :: (C ++ b :: D) := by
    rcases List.mem_cons.mp (headD_mem_cons D k) with e' | e'
    · rw [e']; exact List.mem_cons_self ..
    · exact List.mem_cons_of_mem _
        (List.mem_append.mpr (Or.inr (List.mem_cons_of_mem _ e')))
  have hposne : C.getLastD k ≠ a := fun e' => haL2 (by rw [← e']; exact hposmem)
  have hsub : ∀ x ∈ k :: (C ++ D), x ∈ k :: (C ++ b :: D) := by
    intro x hx
    rcases List.mem_cons.mp hx with e' | e'
    · rw [e']; exact List.mem_cons_self ..
    · rcases List.mem_append.mp e' with e'' | e''
      · exact List.mem_cons_of_mem _ (List.mem_append.mpr (Or.inl e''))
      · exact List.mem_cons_of_mem _
          (List.mem_append.mpr (Or.inr (List.mem_cons_of_mem _ e'')))
  have hfr1 : ∀ x ∈ g :: (A ++ a :: B), list_del b s x = s x := by
    intro x hx
    have hx2 := hdisj x hx
    have hxb : x ≠ b := fun e' => hx2 (by rw [e']; exact hbmemL2)
    refine list_del_out hxb ?_ ?_
    · rw [hbp]; exact fun e' => hx2 (by rw [e']; exact hposmem)
    · rw [hbn]; exact fun e' => hx2 (by rw [e']; exact hqmem)
  have hs1g : lrepr (list_del b s) g (A ++ a :: B) := lrepr_frame hr1 hfr1
  have hs1k : lrepr (list_del b s) k (C ++ D) := lrepr_list_del hr2
  have hs1a : list_del b s a = s a := hfr1 a hmem_a
  have hbnot1 : b ∉ g :: (A ++ a :: B) := fun e' => hdisj b e' hbmemL2
  have hs2g := (lrepr_replace (A := A) (B := B) hs1g hbnot1).1
  have h2' : b ≠ (list_del b s a).next := by
    rw [hs1a, han]; exact fun e' => hbnot1 (by rw [e']; exact hmemBh)
  have h3' : b ≠ (list_del b s a).prev := by
    rw [hs1a, hap]; exact fun e' => hbnot1 (by rw [e']; exact hmemAl)
  have h4' : a ≠ (list_del b s a).next := by
    rw [hs1a, han]
    intro e'
    have hm := headD_mem_cons B g
    rw [← e'] at hm
    rcases List.mem_cons.mp hm with e'' | e''
    · exact hga e''.symm
    · exact haB e''
  have hfr2 : ∀ x ∈ k :: (C ++ D),
      list_replace a b (list_del b s) x = list_del b s x := by
    intro x hx
    have hxL2 := hsub x hx
    have hxb : x ≠ b := by
      intro e'; rw [e'] at hx
      rcases List.mem_cons.mp hx with e'' | e''
      · exact hkb e''.symm
      · rcases List.mem_append.mp e'' with e3 | e3
        · exact hbC e3
        · exact hbD e3
    refine list_replace_out hba h2' h3' h4' hxb ?_ ?_
    · rw [hs1a, han]; intro e'; rw [e'] at hxL2; exact hdisj _ hmemBh hxL2
    · rw [hs1a, hap]; intro e'; rw [e'] at hxL2; exact hdisj _ hmemAl hxL2
  have hs2k : lrepr (list_replace a b (list_del b s)) k (C ++ D) :=
    lrepr_frame hs1k hfr2
  have hform : list_swap a b s
      = list_add a (C.getLastD k) (list_replace a b (list_del b s)) := by
    simp only [list_swap]
    rw [hbp, if_neg hposne]
  have hanot2 : a ∉ k :: (C ++ D) := fun e' => haL2 (hsub a e')
  have hkres := lrepr_add_after (A := C) (B := D) hs2k hanot2
  have hq : (list_replace a b (list_del b s) (C.getLastD k)).next = D.headD k :=
    chainNP_next_head (chainNP_split2 hs2k.1).2
  have hposb : C.getLastD k ≠ b := by
    intro e'
    have hm := List.getLastD_mem_cons C k
    rw [e'] at hm
    rcases List.mem_cons.mp hm with e'' | e''
    · exact hkb e''.symm
    · exact hbC e''
  have hqb : D.headD k ≠ b := by
    intro e'
    have hm := headD_mem_cons D k
    rw [e'] at hm
    rcases List.mem_cons.mp hm with e'' | e''
    · exact hkb e''.symm
    · exact hbD e''
  have hfr3 : ∀ x ∈ g :: (A ++ b :: B),
      list_add a (C.getLastD k) (list_replace a b (list_del b s)) x
        = list_replace a b (list_del b s) x := by
    intro x hx
    have hxa : x ≠ a := by
      intro e'; rw [e'] at hx
      rcases List.mem_cons.mp hx with e'' | e''
      · exact hga e''.symm
      · rcases List.mem_append.mp e'' with e3 | e3
        · exact haA e3
        · rcases List.mem_cons.mp e3 with e4 | e4
          · exact hba e4.symm
          · exact haB e4
    have hxcase : x = b ∨ x ∈ g :: (A ++ a :: B) := by
      rcases List.mem_cons.mp hx with e' | e'
      · exact Or.inr (by rw [e']; exact List.mem_cons_self ..)
      · rcases List.mem_append.mp e' with e'' | e''
        · exact Or.inr (List.mem_cons_of_mem _ (List.mem_append.mpr (Or.inl e'')))
        · rcases List.mem_cons.mp e'' with e3 | e3
          · exact Or.inl e3
          · exact Or.inr (List.mem_cons_of_mem _
              (List.mem_append.mpr (Or.inr (List.mem_cons_of_mem _ e3))))
    unfold list_add
    rw [hq]
    rcases hxcase with e' | hxL1
    · refine __list_add_out hxa ?_ ?_
      · rw [e']; exact fun e'' => hposb e''.symm
      · rw [e']; exact fun e'' => hqb e''.symm
    · have hxL2 := hdisj x hxL1
      refine __list_add_out hxa ?_ ?_
      · intro e'; rw [e'] at hxL2; exact hxL2 hposmem
      · intro e'; rw [e'] at hxL2; exact hxL2 hqmem
  have hgres := lrepr_frame hs2g hfr3
  rw [hform]
  exact ⟨hgres, hkres⟩

/-! ## Hash lists (`hlist_head` / `hlist_node`)

A `pprev` field is a pointer to a pointer: it designates either a head's
`first` slot, a node's `next` slot, `NULL`, or the poison value written by
`hlist_del`.  Node address `0` stands for the `NULL` node pointer. -/

inductive HSlot where
  | hnull : HSlot
  | hpoison : HSlot
  | firstOf (h : Nat) : HSlot
  | nextOf (a : Nat) : HSlot
deriving DecidableEq

structure HNode where
  next : Nat
  pprev : HSlot
deriving DecidableEq

structure HState where
  heads : Nat → Nat
  nodes : Nat → HNode

/-- Read through a pointer-to-pointer slot. -/
def readSlot (st : HState) : HSlot → Nat
  | .hnull => 0
  | .hpoison => 0
  | .firstOf h => st.heads h
  | .nextOf a => (st.nodes a).next

def setFirst (st : HState) (h v : Nat) : HState :=
  { st with heads := fun x => if x = h then v else st.heads x }

def setHNext (st : HState) (a v : Nat) : HState :=
  { st with nodes := fun x => if x = a then { st.nodes x with next := v }
      else st.nodes x }

def setPprev (st : HState) (a : Nat) (v : HSlot) : HState :=
  { st with nodes := fun x => if x = a then { st.nodes x with pprev := v }
      else st.nodes x }

/-- Write through a pointer-to-pointer slot (`*pprev = v`). -/
def writeSlot (st : HState) : HSlot → Nat → HState
  | .hnull, _ => st
  | .hpoison, _ => st
  | .firstOf h, v => setFirst st h v
  | .nextOf a, v => setHNext st a v

/-- `INIT_HLIST_HEAD(ptr)`: `ptr->first = NULL`. -/
def INIT_HLIST_HEAD (h : Nat) (st : HState) : HState :=
  setFirst st h 0

/-- `INIT_HLIST_NODE(h)`: `h->next = NULL; h->pprev = NULL`. -/
def INIT_HLIST_NODE (n : Nat) (st : HState) : HState :=
  setPprev (setHNext st n 0) n .hnull

/-- `hlist_unhashed(h)`: `!h->pprev`. -/
def hlist_unhashed (n : Nat) (st : HState) : Bool :=
  (st.nodes n).pprev = HSlot.hnull

/-- `hlist_empty(h)`: `!h->first`. -/
def hlist_empty (h : Nat) (st : HState) : Bool :=
  st.heads h = 0

/-- `__hlist_del(n)`: `*pprev = next; if (next) next->pprev = pprev`. -/
def __hlist_del (n : Nat) (st : HState) : HState :=
  let nx := (st.nodes n).next
  let pp := (st.nodes n).pprev
  let st1 := writeSlot st pp nx
  if nx ≠ 0 then setPprev st1 nx pp else st1

/-- `hlist_del(n)`: unlink, then poison `n`'s fields. -/
def hlist_del (n : Nat) (st : HState) : HState :=
  let st1 := __hlist_del n st
  setPprev (setHNext st1 n LIST_POISON1) n .hpoison

/-- `hlist_del_init(n)`: unlink and reinitialize, but only if hashed. -/
def hlist_del_init (n : Nat) (st : HState) : HState :=
  if hlist_unhashed n st then st
  else INIT_HLIST_NODE n (__hlist_del n st)

/-- `hlist_add_head(n, h)` with the source's write order. -/
def hlist_add_head (n h : Nat) (st : HState) : HState :=
  let first := st.heads h
  let st1 := setHNext st n first
  let st2 := if first ≠ 0 then setPprev st1 first (.nextOf n) else st1
  let st3 := setFirst st2 h n
  setPprev st3 n (.firstOf h)

/-- `hlist_add_before(n, next)` with the source's write order; the final
`*(n->pprev) = n` re-reads `n->pprev` from the current state. -/
def hlist_add_before (n next : Nat) (st : HState) : HState :=
  let st1 := setPprev st n (st.nodes next).pprev
  let st2 := setHNext st1 n next
  let st3 := setPprev st2 next (.nextOf n)
  writeSlot st3 ((st3.nodes n).pprev) n

/-- `hlist_add_behind(n, prev)` with the source's write order. -/
def hlist_add_behind (n prev : Nat) (st : HState) : HState :=
  let st1 := setHNext st n (st.nodes prev).next
  let st2 := setHNext st1 prev n
  let st3 := setPprev st2 n (.nextOf prev)
  if (st3.nodes n).next ≠ 0 then setPprev st3 (st3.nodes n).next (.nextOf n)
  else st3

/-- `hlist_add_fake(n)`: `n->pprev = &n->next`. -/
def hlist_add_fake (n : Nat) (st : HState) : HState :=
  setPprev st n (.nextOf n)

/-- `hlist_fake(h)`: `h->pprev == &h->next`. -/
def hlist_fake (n : Nat) (st : HState) : Bool :=
  (st.nodes n).pprev = HSlot.nextOf n

/-- `hlist_is_singular_node(n, h)`. -/
def hlist_is_singular_node (n h : Nat) (st : HState) : Bool :=
  (st.nodes n).next = 0 && (st.nodes n).pprev = HSlot.firstOf h

/-- `hlist_move_list(old, new)` with the source's write order. -/
def hlist_move_list (old _new : Nat) (st : HState) : HState :=
  let st1 := setFirst st _new (st.heads old)
  let st2 := if st1.heads _new ≠ 0 then
      setPprev st1 (st1.heads _new) (.firstOf _new)
    else st1
  setFirst st2 old 0

/-- `hchain st sl ns`: the slot `sl` points at the successive nodes `ns`,
each node's `pprev` points back at the slot that points at it, and the
final `next` is `NULL`. -/
def hchain (st : HState) : HSlot → List Nat → Prop
  | sl, [] => readSlot st sl = 0
  | sl, n :: ns => readSlot st sl = n ∧ (st.nodes n).pprev = sl ∧
      hchain st (.nextOf n) ns

instance hchain.instDecidable (st : HState) :
    ∀ (sl : HSlot) (ns : List Nat), Decidable (hchain st sl ns)
  | _, [] => inferInstanceAs (Decidable (_ = _))
  | _, n :: ns =>
    have := hchain.instDecidable st (.nextOf n) ns
    inferInstanceAs (Decidable (_ ∧ _ ∧ _))

/-- `hrepr st h ns`: head `h` roots a well-formed hash list holding the
distinct non-null nodes `ns` in order. -/
def hrepr (st : HState) (h : Nat) (ns : List Nat) : Prop :=
  hchain st (.firstOf h) ns ∧ ns.Nodup ∧ 0 ∉ ns

instance (st : HState) (h : Nat) (ns : List Nat) : Decidable (hrepr st h ns) :=
  inferInstanceAs (Decidable (_ ∧ _ ∧ _))

/-- `hseg st sl ns`: like `hchain` but without the terminating `NULL`. -/
def hseg (st : HState) : HSlot → List Nat → Prop
  | _, [] => True
  | sl, n :: ns => readSlot st sl = n ∧ (st.nodes n).pprev = sl ∧
      hseg st (.nextOf n) ns

/-- The slot left dangling after traversing `ns` from `sl`. -/
def endSlot (sl : HSlot) (ns : List Nat) : HSlot :=
  match ns.getLast? with
  | none => sl
  | some a => HSlot.nextOf a

theorem endSlot_nil (sl : HSlot) : endSlot sl [] = sl := rfl

theorem endSlot_cons (sl : HSlot) (n : Nat) (ns : List Nat) :
    endSlot sl (n :: ns) = endSlot (.nextOf n) ns := by
  cases ns with
  | nil => simp [endSlot]
  | cons m ms =>
    simp only [endSlot, List.getLast?_cons_cons]
    cases h : (m :: ms).getLast? with
    | none => simp at h
    | some a => rfl

theorem endSlot_append (sl : HSlot) (A B : List Nat) :
    endSlot sl (A ++ B) = endSlot (endSlot sl A) B := by
  induction A generalizing sl with
  | nil => rfl
  | cons a A ih => rw [List.cons_append, endSlot_cons, endSlot_cons, ih]

theorem hchain_iff {st : HState} {sl : HSlot} {ns : List Nat} :
    hchain st sl ns ↔ hseg st sl ns ∧ readSlot st (endSlot sl ns) = 0 := by
  induction ns generalizing sl with
  | nil => simp [hchain, hseg, endSlot]
  | cons n ns ih => simp [hchain, hseg, endSlot_cons, ih, and_assoc]

theorem hseg_append_iff {st : HState} {sl : HSlot} (A B : List Nat) :
    hseg st sl (A ++ B) ↔ hseg st sl A ∧ hseg st (endSlot sl A) B := by
  induction A generalizing sl with
  | nil => simp [hseg, endSlot]
  | cons a A ih => simp [hseg, ih, endSlot_cons, and_assoc]

theorem hseg_frame {st st' : HState} {sl : HSlot} {ns : List Nat}
    (hc : hseg st sl ns)
    (h0 : ns ≠ [] → readSlot st' sl = readSlot st sl)
    (hnx : ∀ x ∈ ns.dropLast, (st'.nodes x).next = (st.nodes x).next)
    (hpp : ∀ x ∈ ns, (st'.nodes x).pprev = (st.nodes x).pprev) :
    hseg st' sl ns := by
  induction ns generalizing sl with
  | nil => trivial
  | cons n ns ih =>
    obtain ⟨h1, h2, h3⟩ := hc
    refine ⟨?_, ?_, ?_⟩
    · rw [h0 (by simp), h1]
    · rw [hpp n (List.mem_cons_self ..), h2]
    · refine ih h3 ?_ ?_ ?_
      · intro hne
        show (st'.nodes n).next = (st.nodes n).next
        refine hnx n ?_
        cases ns with
        | nil => exact absurd rfl hne
        | cons m ms => exact List.mem_cons_self ..
      · intro x hx
        refine hnx x ?_
        cases ns with
        | nil => simp at hx
        | cons m ms => exact List.mem_cons_of_mem _ hx
      · intro x hx
        exact hpp x (List.mem_cons_of_mem _ hx)

theorem hchain_invariant {st : HState} {sl : HSlot} {ns : List Nat}
    (hc : hchain st sl ns) :
    ∀ n ∈ ns, readSlot st ((st.nodes n).pprev) = n ∧
      ((st.nodes n).next ≠ 0 →
        (st.nodes ((st.nodes n).next)).pprev = .nextOf n) := by
  induction ns generalizing sl with
  | nil => intro n hn; simp at hn
  | cons m ms ih =>
    obtain ⟨h1, h2, h3⟩ := hc
    intro n hn
    rcases List.mem_cons.mp hn with e' | e'
    · subst e'
      constructor
      · rw [h2, h1]
      · intro hne
        cases ms with
        | nil =>
          have h0 : readSlot st (.nextOf n) = 0 := h3
          simp only [readSlot] at h0
          exact absurd h0 hne
        | cons k ks =>
          obtain ⟨g1, g2, -⟩ := h3
          simp only [readSlot] at g1
          rw [g1]
          exact g2
    · exact ih h3 n e'

theorem setFirst_heads (st : HState) (h v x : Nat) :
    (setFirst st h v).heads x = if x = h then v else st.heads x := rfl

theorem setFirst_nodes (st : HState) (h v : Nat) :
    (setFirst st h v).nodes = st.nodes := rfl

theorem setHNext_heads (st : HState) (a v : Nat) :
    (setHNext st a v).heads = st.heads := rfl

theorem setHNext_nodes (st : HState) (a v x : Nat) :
    (setHNext st a v).nodes x
      = if x = a then { st.nodes x with next := v } else st.nodes x := rfl

theorem setPprev_heads (st : HState) (a : Nat) (v : HSlot) :
    (setPprev st a v).heads = st.heads := rfl

theorem setPprev_nodes (st : HState) (a : Nat) (v : HSlot) (x : Nat) :
    (setPprev st a v).nodes x
      = if x = a then { st.nodes x with pprev := v } else st.nodes x := rfl

theorem hlist_add_head_heads (n h : Nat) (st : HState) (x : Nat) :
    (hlist_add_head n h st).heads x = if x = h then n else st.heads x := by
  simp only [hlist_add_head]
  by_cases h1 : st.heads h ≠ 0 <;>
    simp [h1, setPprev_heads, setFirst_heads, setHNext_heads]

theorem hlist_add_head_next (n h : Nat) (st : HState) (x : Nat) :
    ((hlist_add_head n h st).nodes x).next
      = if x = n then st.heads h else (st.nodes x).next := by
  simp only [hlist_add_head]
  by_cases h1 : st.heads h ≠ 0 <;> by_cases h2 : x = n <;>
    by_cases h3 : x = st.heads h <;>
    simp [h1, h2, h3, setPprev_nodes, setFirst_nodes, setHNext_nodes] <;>
    split_ifs <;> simp_all

theorem hlist_add_head_pprev (n h : Nat) (st : HState) (x : Nat) :
    ((hlist_add_head n h st).nodes x).pprev
      = if x = n then HSlot.firstOf h
        else if x = st.heads h ∧ st.heads h ≠ 0 then HSlot.nextOf n
        else (st.nodes x).pprev := by
  simp only [hlist_add_head]
  by_cases h1 : st.heads h ≠ 0 <;> by_cases h2 : x = n <;>
    by_cases h3 : x = st.heads h <;>
    simp [h1, h2, h3, setPprev_nodes, setFirst_nodes, setHNext_nodes] <;>
    split_ifs <;> simp_all

theorem __hlist_del_first_heads {st : HState} {n h0 : Nat}
    (hpp : (st.nodes n).pprev = .firstOf h0) (x : Nat) :
    (__hlist_del n st).heads x
      = if x = h0 then (st.nodes n).next else st.heads x := by
  simp only [__hlist_del, hpp, writeSlot]
  by_cases h1 : (st.nodes n).next ≠ 0 <;>
    simp [h1, setPprev_heads, setFirst_heads] <;> split_ifs <;> simp_all

theorem __hlist_del_first_next {st : HState} {n h0 : Nat}
    (hpp : (st.nodes n).pprev = .firstOf h0) (x : Nat) :
    ((__hlist_del n st).nodes x).next = (st.nodes x).next := by
  simp only [__hlist_del, hpp, writeSlot]
  by_cases h1 : (st.nodes n).next ≠ 0 <;> by_cases h2 : x = (st.nodes n).next <;>
    simp [h1, h2, setPprev_nodes, setFirst_nodes] <;> split_ifs <;> simp_all

theorem __hlist_del_first_pprev {st : HState} {n h0 : Nat}
    (hpp : (st.nodes n).pprev = .firstOf h0) (x : Nat) :
    ((__hlist_del n st).nodes x).pprev
      = if x = (st.nodes n).next ∧ (st.nodes n).next ≠ 0 then HSlot.firstOf h0
        else (st.nodes x).pprev := by
  simp only [__hlist_del, hpp, writeSlot]
  by_cases h1 : (st.nodes n).next ≠ 0 <;> by_cases h2 : x = (st.nodes n).next <;>
    simp [h1, h2, setPprev_nodes, setFirst_nodes] <;> split_ifs <;> simp_all

theorem __hlist_del_next_heads {st : HState} {n p : Nat}
    (hpp : (st.nodes n).pprev = .nextOf p) (x : Nat) :
    (__hlist_del n st).heads x = st.heads x := by
  simp only [__hlist_del, hpp, writeSlot]
  by_cases h1 : (st.nodes n).next ≠ 0 <;>
    simp [h1, setPprev_heads, setHNext_heads]

theorem __hlist_del_next_next {st : HState} {n p : Nat}
    (hpp : (st.nodes n).pprev = .nextOf p) (x : Nat) :
    ((__hlist_del n st).nodes x).next
      = if x = p then (st.nodes n).next else (st.nodes x).next := by
  simp only [__hlist_del, hpp, writeSlot]
  by_cases h1 : (st.nodes n).next ≠ 0 <;> by_cases h2 : x = p <;>
    by_cases h3 : x = (st.nodes n).next <;>
    simp [h1, h2, h3, setPprev_nodes, setHNext_nodes] <;>
    split_ifs <;> simp_all

theorem __hlist_del_next_pprev {st : HState} {n p : Nat}
    (hpp : (st.nodes n).pprev = .nextOf p) (x : Nat) :
    ((__hlist_del n st).nodes x).pprev
      = if x = (st.nodes n).next ∧ (st.nodes n).next ≠ 0 then HSlot.nextOf p
        else (st.nodes x).pprev := by
  simp only [__hlist_del, hpp, writeSlot]
  by_cases h1 : (st.nodes n).next ≠ 0 <;> by_cases h2 : x = p <;>
    by_cases h3 : x = (st.nodes n).next <;>
    simp [h1, h2, h3, setPprev_nodes, setHNext_nodes] <;>
    split_ifs <;> simp_all

theorem hlist_del_heads (n : Nat) (st : HState) (x : Nat) :
    (hlist_del n st).heads x = (__hlist_del n st).heads x := by
  simp [hlist_del, setPprev_heads, setHNext_heads]

theorem hlist_del_nodes_ne {n : Nat} {st : HState} {x : Nat} (hx : x ≠ n) :
    (hlist_del n st).nodes x = (__hlist_del n st).nodes x := by
  simp [hlist_del, setPprev_nodes, setHNext_nodes, hx]

theorem hlist_del_nodes_self (n : Nat) (st : HState) :
    (hlist_del n st).nodes n = ⟨LIST_POISON1, HSlot.hpoison⟩ := by
  simp [hlist_del, setPprev_nodes, setHNext_nodes]

theorem hlist_add_before_first_heads {st : HState} {n nxt h0 : Nat}
    (hpp : (st.nodes nxt).pprev = .firstOf h0) (hne : n ≠ nxt) (x : Nat) :
    (hlist_add_before n nxt st).heads x
      = if x = h0 then n else st.heads x := by
  simp only [hlist_add_before, setPprev_nodes, setHNext_nodes,
    if_pos rfl, if_neg hne]
  by_cases h2 : nxt = n
  · exact absurd h2.symm hne
  · simp [h2, hne, hpp, writeSlot, setFirst_heads, setPprev_heads,
      setHNext_heads]

theorem hlist_add_before_first_next {st : HState} {n nxt h0 : Nat}
    (hpp : (st.nodes nxt).pprev = .firstOf h0) (hne : n ≠ nxt) (x : Nat) :
    ((hlist_add_before n nxt st).nodes x).next
      = if x = n then nxt else (st.nodes x).next := by
  simp only [hlist_add_before, setPprev_nodes, setHNext_nodes]
  by_cases h2 : nxt = n
  · exact absurd h2.symm hne
  · by_cases h3 : x = n <;> by_cases h4 : x = nxt <;>
      simp [h2, h3, h4, hne, hpp, writeSlot, setFirst_nodes, setPprev_nodes,
        setHNext_nodes] <;> split_ifs <;> simp_all

theorem hlist_add_before_first_pprev {st : HState} {n nxt h0 : Nat}
    (hpp : (st.nodes nxt).pprev = .firstOf h0) (hne : n ≠ nxt) (x : Nat) :
    ((hlist_add_before n nxt st).nodes x).pprev
      = if x = n then HSlot.firstOf h0
        else if x = nxt then HSlot.nextOf n
        else (st.nodes x).pprev := by
  simp only [hlist_add_before, setPprev_nodes, setHNext_nodes]
  by_cases h2 : nxt = n
  · exact absurd h2.symm hne
  · by_cases h3 : x = n <;> by_cases h4 : x = nxt <;>
      simp [h2, h3, h4, hne, hpp, writeSlot, setFirst_nodes, setPprev_nodes,
        setHNext_nodes] <;> split_ifs <;> simp_all

theorem hlist_add_before_next_heads {st : HState} {n nxt p : Nat}
    (hpp : (st.nodes nxt).pprev = .nextOf p) (hne : n ≠ nxt) (x : Nat) :
    (hlist_add_before n nxt st).heads x = st.heads x := by
  simp only [hlist_add_before, setPprev_nodes, setHNext_nodes]
  by_cases h2 : nxt = n
  · exact absurd h2.symm hne
  · simp [h2, hne, hpp, writeSlot, setFirst_heads, setPprev_heads,
      setHNext_heads]

theorem hlist_add_before_next_next {st : HState} {n nxt p : Nat}
    (hpp : (st.nodes nxt).pprev = .nextOf p) (hne : n ≠ nxt) (hpn : p ≠ n)
    (x : Nat) :
    ((hlist_add_before n nxt st).nodes x).next
      = if x = n then nxt else if x = p then n else (st.nodes x).next := by
  simp only [hlist_add_before, setPprev_nodes, setHNext_nodes]
  by_cases h2 : nxt = n
  · exact absurd h2.symm hne
  · by_cases h3 : x = n <;> by_cases h4 : x = nxt <;> by_cases h5 : x = p <;>
      simp [h2, h3, h4, h5, hne, hpp, writeSlot, setFirst_nodes, setPprev_nodes,
        setHNext_nodes] <;> split_ifs <;> simp_all

theorem hlist_add_before_next_pprev {st : HState} {n nxt p : Nat}
    (hpp : (st.nodes nxt).pprev = .nextOf p) (hne : n ≠ nxt) (x : Nat) :
    ((hlist_add_before n nxt st).nodes x).pprev
      = if x = n then HSlot.nextOf p
        else if x = nxt then HSlot.nextOf n
        else (st.nodes x).pprev := by
  simp only [hlist_add_before, setPprev_nodes, setHNext_nodes]
  by_cases h2 : nxt = n
  · exact absurd h2.symm hne
  · by_cases h3 : x = n <;> by_cases h4 : x = nxt <;> by_cases h5 : x = p <;>
      simp [h2, h3, h4, h5, hne, hpp, writeSlot, setFirst_nodes, setPprev_nodes,
        setHNext_nodes] <;> split_ifs <;> simp_all

theorem hlist_add_behind_heads (n prv : Nat) (st : HState) (x : Nat) :
    (hlist_add_behind n prv st).heads x = st.heads x := by
  simp only [hlist_add_behind, setPprev_nodes, setHNext_nodes]
  by_cases h1 : n = prv <;> split_ifs <;>
    simp_all [setPprev_heads, setHNext_heads]

theorem hlist_add_behind_next {st : HState} {n prv : Nat} (hne : n ≠ prv)
    (x : Nat) :
    ((hlist_add_behind n prv st).nodes x).next
      = if x = n then (st.nodes prv).next
        else if x = prv then n else (st.nodes x).next := by
  simp only [hlist_add_behind, setPprev_nodes, setHNext_nodes]
  by_cases h3 : x = n <;> by_cases h4 : x = prv <;>
    by_cases h5 : x = (st.nodes prv).next <;>
    simp [h3, h4, h5, hne, setPprev_nodes, setHNext_nodes] <;>
    split_ifs <;> simp_all [setPprev_nodes, setHNext_nodes, setFirst_nodes,
      setPprev_heads, setHNext_heads, setFirst_heads]

theorem hlist_add_behind_pprev {st : HState} {n prv : Nat} (hne : n ≠ prv)
    (hnx : (st.nodes prv).next ≠ n) (x : Nat) :
    ((hlist_add_behind n prv st).nodes x).pprev
      = if x = n then HSlot.nextOf prv
        else if x = (st.nodes prv).next ∧ (st.nodes prv).next ≠ 0 then
          HSlot.nextOf n
        else (st.nodes x).pprev := by
  simp only [hlist_add_behind, setPprev_nodes, setHNext_nodes]
  by_cases h3 : x = n <;> by_cases h4 : x = prv <;>
    by_cases h5 : x = (st.nodes prv).next <;>
    by_cases h6 : (st.nodes prv).next = 0 <;>
    simp [h3, h4, h5, h6, hne, hnx, setPprev_nodes, setHNext_nodes] <;>
    split_ifs <;> first
      | rfl
      | (exfalso; omega)

set_option maxRecDepth 4000 in
theorem hlist_move_list_heads {st : HState} {old _new : Nat}
    (hon : old ≠ _new) (x : Nat) :
    (hlist_move_list old _new st).heads x
      = if x = old then 0 else if x = _new then st.heads old
        else st.heads x := by
  simp only [hlist_move_list, setFirst_heads]
  by_cases h1 : st.heads old = 0 <;> by_cases h2 : x = old <;>
    by_cases h3 : x = _new <;>
    simp [h1, h2, h3, hon, setFirst_heads, setPprev_heads] <;>
    split_ifs <;> simp_all [setPprev_nodes, setHNext_nodes, setFirst_nodes,
      setPprev_heads, setHNext_heads, setFirst_heads]

theorem hlist_move_list_next (old _new : Nat) (st : HState) (x : Nat) :
    ((hlist_move_list old _new st).nodes x).next = (st.nodes x).next := by
  simp only [hlist_move_list, setFirst_nodes]
  by_cases h1 : st.heads old = 0 <;> by_cases h2 : x = st.heads old <;>
    simp [h1, h2, setFirst_nodes, setPprev_nodes] <;>
    split_ifs <;> simp_all [setPprev_nodes, setHNext_nodes, setFirst_nodes,
      setPprev_heads, setHNext_heads, setFirst_heads]

theorem hlist_move_list_pprev (old _new : Nat) (st : HState) (x : Nat) :
    ((hlist_move_list old _new st).nodes x).pprev
      = if x = st.heads old ∧ st.heads old ≠ 0 then HSlot.firstOf _new
        else (st.nodes x).pprev := by
  simp only [hlist_move_list, setFirst_nodes]
  by_cases h1 : st.heads old = 0 <;> by_cases h2 : x = st.heads old <;>
    simp [h1, h2, setFirst_nodes, setPprev_nodes, setFirst_heads] <;>
    split_ifs <;> simp_all [setPprev_nodes, setHNext_nodes, setFirst_nodes,
      setPprev_heads, setHNext_heads, setFirst_heads]

theorem hchain_read_head {st : HState} {sl : HSlot} {B : List Nat}
    (hc : hchain st sl B) : readSlot st sl = B.headD 0 := by
  cases B with
  | nil => exact hc
  | cons m ms => exact hc.1

theorem hchain_append_iff2 {st : HState} {sl : HSlot} (A B : List Nat) :
    hchain st sl (A ++ B) ↔ hseg st sl A ∧ hchain st (endSlot sl A) B := by
  rw [hchain_iff, hseg_append_iff, endSlot_append, hchain_iff, and_assoc]

theorem endSlot_concat (sl : HSlot) (A : List Nat) (l : Nat) :
    endSlot sl (A ++ [l]) = .nextOf l := by
  rw [endSlot_append]; simp [endSlot]

theorem hchain_frame {st st' : HState} {sl : HSlot} {ns : List Nat}
    (hc : hchain st sl ns)
    (h0 : readSlot st' sl = readSlot st sl)
    (hag : ∀ x ∈ ns, st'.nodes x = st.nodes x) :
    hchain st' sl ns := by
  induction ns generalizing sl with
  | nil =>
    show readSlot st' sl = 0
    rw [h0]; exact hc
  | cons m ms ih =>
    obtain ⟨h1, h2, h3⟩ := hc
    have hm := hag m (List.mem_cons_self ..)
    refine ⟨by rw [h0, h1], by rw [hm, h2], ?_⟩
    refine ih h3 ?_ ?_
    · show readSlot st' (.nextOf m) = readSlot st (.nextOf m)
      simp only [readSlot]
      rw [hm]
    · intro x hx
      exact hag x (List.mem_cons_of_mem _ hx)

theorem hnodup_mid_facts {n : Nat} {A B : List Nat}
    (nd : (A ++ n :: B).Nodup) :
    n ∉ A ∧ n ∉ B ∧ A.Nodup ∧ B.Nodup ∧ (∀ x ∈ A, x ∉ B) := by
  simp only [List.nodup_append, List.nodup_cons, List.Disjoint] at nd
  obtain ⟨ndA, ⟨hnB, ndB⟩, hd⟩ := nd
  exact ⟨fun e => hd e (List.mem_cons_self ..), hnB, ndA, ndB,
    fun x hx hxB => hd hx (List.mem_cons_of_mem _ hxB)⟩

theorem hzero_mid_facts {n : Nat} {A B : List Nat}
    (h0 : (0 : Nat) ∉ A ++ n :: B) : (0 : Nat) ∉ A ∧ n ≠ 0 ∧ (0 : Nat) ∉ B := by
  simp only [List.mem_append, List.mem_cons, not_or] at h0
  exact ⟨h0.1, fun e => h0.2.1 e.symm, h0.2.2⟩

theorem hnodup_mid_delete {n : Nat} {A B : List Nat}
    (nd : (A ++ n :: B).Nodup) : (A ++ B).Nodup := by
  obtain ⟨-, -, ndA, ndB, hd⟩ := hnodup_mid_facts nd
  simp only [List.nodup_append]
  exact ⟨ndA, ndB, hd⟩

theorem hzero_mid_delete {n : Nat} {A B : List Nat}
    (h0 : (0 : Nat) ∉ A ++ n :: B) : (0 : Nat) ∉ A ++ B := by
  obtain ⟨h1, -, h3⟩ := hzero_mid_facts h0
  simp only [List.mem_append, not_or]
  exact ⟨h1, h3⟩

theorem hnodup_mid_insert {n : Nat} {A B : List Nat}
    (nd : (A ++ B).Nodup) (hn : n ∉ A ++ B) : (A ++ n :: B).Nodup := by
  rw [List.perm_middle.nodup_iff]
  exact List.nodup_cons.mpr ⟨hn, nd⟩

theorem hzero_mid_insert {n : Nat} {A B : List Nat}
    (h0 : (0 : Nat) ∉ A ++ B) (hn : n ≠ 0) : (0 : Nat) ∉ A ++ n :: B := by
  simp only [List.mem_append, List.mem_cons, not_or] at h0 ⊢
  exact ⟨h0.1, fun e => hn e.symm, h0.2⟩

theorem hnode_ext {a b : HNode} (h1 : a.next = b.next)
    (h2 : a.pprev = b.pprev) : a = b := by
  cases a; cases b; cases h1; cases h2; rfl

theorem hlist_add_head_untouched {st : HState} {n h x : Nat} (hxn : x ≠ n)
    (hxf : ¬(x = st.heads h ∧ st.heads h ≠ 0)) :
    (hlist_add_head n h st).nodes x = st.nodes x :=
  hnode_ext (by rw [hlist_add_head_next, if_neg hxn])
    (by rw [hlist_add_head_pprev, if_neg hxn, if_neg hxf])

theorem __hlist_del_first_untouched {st : HState} {n h0 x : Nat}
    (hpp : (st.nodes n).pprev = .firstOf h0)
    (hx : ¬(x = (st.nodes n).next ∧ (st.nodes n).next ≠ 0)) :
    (__hlist_del n st).nodes x = st.nodes x :=
  hnode_ext (__hlist_del_first_next hpp x)
    (by rw [__hlist_del_first_pprev hpp, if_neg hx])

theorem __hlist_del_next_untouched {st : HState} {n p x : Nat}
    (hpp : (st.nodes n).pprev = .nextOf p) (hxp : x ≠ p)
    (hx : ¬(x = (st.nodes n).next ∧ (st.nodes n).next ≠ 0)) :
    (__hlist_del n st).nodes x = st.nodes x :=
  hnode_ext (by rw [__hlist_del_next_next hpp, if_neg hxp])
    (by rw [__hlist_del_next_pprev hpp, if_neg hx])

theorem hlist_add_before_first_untouched {st : HState} {n nxt h0 x : Nat}
    (hpp : (st.nodes nxt).pprev = .firstOf h0) (hne : n ≠ nxt)
    (hxn : x ≠ n) (hxx : x ≠ nxt) :
    (hlist_add_before n nxt st).nodes x = st.nodes x :=
  hnode_ext (by rw [hlist_add_before_first_next hpp hne, if_neg hxn])
    (by rw [hlist_add_before_first_pprev hpp hne, if_neg hxn, if_neg hxx])

theorem hlist_add_before_next_untouched {st : HState} {n nxt p x : Nat}
    (hpp : (st.nodes nxt).pprev = .nextOf p) (hne : n ≠ nxt) (hpn : p ≠ n)
    (hxn : x ≠ n) (hxx : x ≠ nxt) (hxp : x ≠ p) :
    (hlist_add_before n nxt st).nodes x = st.nodes x :=
  hnode_ext
    (by rw [hlist_add_before_next_next hpp hne hpn, if_neg hxn, if_neg hxp])
    (by rw [hlist_add_before_next_pprev hpp hne, if_neg hxn, if_neg hxx])

theorem hlist_add_behind_untouched {st : HState} {n prv x : Nat}
    (hne : n ≠ prv) (hnx : (st.nodes prv).next ≠ n) (hxn : x ≠ n)
    (hxp : x ≠ prv)
    (hx : ¬(x = (st.nodes prv).next ∧ (st.nodes prv).next ≠ 0)) :
    (hlist_add_behind n prv st).nodes x = st.nodes x :=
  hnode_ext (by rw [hlist_add_behind_next hne, if_neg hxn, if_neg hxp])
    (by rw [hlist_add_behind_pprev hne hnx, if_neg hxn, if_neg hx])

theorem hlist_move_list_untouched {st : HState} {old _new x : Nat}
    (hx : ¬(x = st.heads old ∧ st.heads old ≠ 0)) :
    (hlist_move_list old _new st).nodes x = st.nodes x :=
  hnode_ext (hlist_move_list_next old _new st x)
    (by rw [hlist_move_list_pprev, if_neg hx])

/-- `INIT_HLIST_HEAD` establishes the empty-list invariant. -/
theorem hrepr_INIT_HEAD (st : HState) (h : Nat) :
    hrepr (INIT_HLIST_HEAD h st) h [] := by
  refine ⟨?_, List.nodup_nil, by simp⟩
  show readSlot (INIT_HLIST_HEAD h st) (.firstOf h) = 0
  simp [INIT_HLIST_HEAD, readSlot, setFirst]

/-- `INIT_HLIST_NODE` on a node outside the list preserves the invariant. -/
theorem hrepr_INIT_NODE {st : HState} {h : Nat} {ns : List Nat} {n : Nat}
    (hr : hrepr st h ns) (hn : n ∉ ns) :
    hrepr (INIT_HLIST_NODE n st) h ns := by
  obtain ⟨hc, nd, h0m⟩ := hr
  refine ⟨?_, nd, h0m⟩
  refine hchain_frame hc rfl ?_
  intro x hx
  have hxn : x ≠ n := fun e => hn (e ▸ hx)
  simp [INIT_HLIST_NODE, setPprev_nodes, setHNext_nodes, hxn]

/-- `hlist_add_head` prepends a fresh non-null node. -/
theorem hrepr_add_head {st : HState} {h n : Nat} {ns : List Nat}
    (hr : hrepr st h ns) (hn : n ∉ ns) (hn0 : n ≠ 0) :
    hrepr (hlist_add_head n h st) h (n :: ns) := by
  obtain ⟨hc, nd, h0m⟩ := hr
  have hf : st.heads h = ns.headD 0 := hchain_read_head hc
  refine ⟨?_, List.nodup_cons.mpr ⟨hn, nd⟩, ?_⟩
  case refine_2 =>
    simp only [List.mem_cons, not_or]
    exact ⟨fun e => hn0 e.symm, h0m⟩
  refine ⟨?_, ?_, ?_⟩
  · show readSlot (hlist_add_head n h st) (.firstOf h) = n
    simp only [readSlot]
    rw [hlist_add_head_heads, if_pos rfl]
  · rw [hlist_add_head_pprev, if_pos rfl]
  · cases ns with
    | nil =>
      show readSlot (hlist_add_head n h st) (.nextOf n) = 0
      simp only [readSlot]
      rw [hlist_add_head_next, if_pos rfl, hf]
      rfl
    | cons m ms =>
      obtain ⟨r1, r2, hms⟩ := hc
      have hm : st.heads h = m := r1
      have hm0 : m ≠ 0 := fun e => h0m (by rw [e]; exact List.mem_cons_self ..)
      have hnm : n ≠ m := fun e => hn (by rw [e]; exact List.mem_cons_self ..)
      have hcond : m = st.heads h ∧ st.heads h ≠ 0 :=
        ⟨hm.symm, by rw [hm]; exact hm0⟩
      refine ⟨?_, ?_, ?_⟩
      · show readSlot (hlist_add_head n h st) (.nextOf n) = m
        simp only [readSlot]
        rw [hlist_add_head_next, if_pos rfl, hm]
      · rw [hlist_add_head_pprev, if_neg (Ne.symm hnm), if_pos hcond]
      · refine hchain_frame hms ?_ ?_
        · show readSlot (hlist_add_head n h st) (.nextOf m)
            = readSlot st (.nextOf m)
          simp only [readSlot]
          rw [hlist_add_head_next, if_neg (Ne.symm hnm)]
        · intro x hx
          have hxn : x ≠ n :=
            fun e => hn (by rw [← e]; exact List.mem_cons_of_mem _ hx)
          have hxm : x ≠ m := by
            have hmm := (List.nodup_cons.mp nd).1
            exact fun e => hmm (by rw [← e]; exact hx)
          refine hlist_add_head_untouched hxn ?_
          rintro ⟨e1, -⟩
          exact hxm (by rw [e1, hm])

theorem list_nil_or_append_single (A : List Nat) :
    A = [] ∨ ∃ L b, A = L ++ [b] := by
  rcases List.eq_nil_or_concat A with h | ⟨L, b, h⟩
  · exact Or.inl h
  · exact Or.inr ⟨L, b, by rw [h, List.concat_eq_append]⟩

theorem hrepr___hlist_del {st : HState} {h e : Nat} {A B : List Nat}
    (hr : hrepr st h (A ++ e :: B)) :
    hrepr (__hlist_del e st) h (A ++ B) := by
  obtain ⟨hc, nd, h0m⟩ := hr
  obtain ⟨heA, heB, ndA, ndB, hdAB⟩ := hnodup_mid_facts nd
  obtain ⟨h0A, he0, h0B⟩ := hzero_mid_facts h0m
  obtain ⟨hsA, hcE⟩ := (hchain_append_iff2 A (e :: B)).mp hc
  obtain ⟨r1, r2, hcB⟩ := hcE
  have henx : (st.nodes e).next = B.headD 0 := hchain_read_head hcB
  have hxnotB : ∀ x, x ∈ A → ¬(x = (st.nodes e).next ∧ (st.nodes e).next ≠ 0) := by
    intro x hx
    rintro ⟨hx1, hx2⟩
    rw [henx] at hx1
    cases B with
    | nil => exact (hx2 (by rw [henx]; rfl)).elim
    | cons m ms =>
      exact hdAB x hx (by rw [hx1]; exact List.mem_cons_self ..)
  refine ⟨?_, hnodup_mid_delete nd, hzero_mid_delete h0m⟩
  refine (hchain_append_iff2 A B).mpr ⟨?_, ?_⟩
  · -- the prefix segment is untouched
    rcases list_nil_or_append_single A with rfl | ⟨A', l, rfl⟩
    · trivial
    · rw [endSlot_concat] at r1 r2
      have hle : l ≠ e := fun e' => heA (by rw [← e']; simp)
      refine hseg_frame hsA ?_ ?_ ?_
      · intro _
        show readSlot (__hlist_del e st) (.firstOf h)
          = readSlot st (.firstOf h)
        simp only [readSlot]
        rw [__hlist_del_next_heads r2]
      · intro x hx
        rw [List.dropLast_concat] at hx
        have hxl : x ≠ l := fun e' => (List.nodup_append.mp ndA).2.2 hx
          (by rw [← e']; exact List.mem_cons_self ..)
        rw [__hlist_del_next_next r2, if_neg hxl]
      · intro x hx
        rw [__hlist_del_next_pprev r2, if_neg (hxnotB x hx)]
  · -- the slot that pointed at `e` now points at `B`
    cases B with
    | nil =>
      show readSlot (__hlist_del e st) (endSlot (.firstOf h) A) = 0
      rcases list_nil_or_append_single A with rfl | ⟨A', l, rfl⟩
      · show (__hlist_del e st).heads h = 0
        rw [__hlist_del_first_heads r2, if_pos rfl, henx]
        rfl
      · rw [endSlot_concat] at r2 ⊢
        have hle : l ≠ e := fun e' => heA (by rw [← e']; simp)
        show ((__hlist_del e st).nodes l).next = 0
        rw [__hlist_del_next_next r2, if_pos rfl, henx]
        rfl
    | cons m ms =>
      have hm0 : m ≠ 0 := fun e' => h0B (by rw [← e']; exact List.mem_cons_self ..)
      have hme : m ≠ e := fun e' => heB (by rw [← e']; exact List.mem_cons_self ..)
      have hmm : m ∉ ms := (List.nodup_cons.mp ndB).1
      have hmh : (st.nodes e).next = m := by rw [henx]; rfl
      obtain ⟨-, -, hms⟩ := hcB
      refine ⟨?_, ?_, ?_⟩
      · rcases list_nil_or_append_single A with rfl | ⟨A', l, rfl⟩
        · show (__hlist_del e st).heads h = m
          rw [__hlist_del_first_heads r2, if_pos rfl, hmh]
        · rw [endSlot_concat] at r2 ⊢
          show ((__hlist_del e st).nodes l).next = m
          rw [__hlist_del_next_next r2, if_pos rfl, hmh]
      · rcases list_nil_or_append_single A with rfl | ⟨A', l, rfl⟩
        · rw [__hlist_del_first_pprev r2, if_pos ⟨hmh.symm, by rw [hmh]; exact hm0⟩]
          rfl
        · rw [endSlot_concat] at r2 ⊢
          rw [__hlist_del_next_pprev r2, if_pos ⟨hmh.symm, by rw [hmh]; exact hm0⟩]
      · refine hchain_frame hms ?_ ?_
        · show readSlot (__hlist_del e st) (.nextOf m) = readSlot st (.nextOf m)
          simp only [readSlot]
          rcases list_nil_or_append_single A with rfl | ⟨A', l, rfl⟩
          · rw [__hlist_del_first_next r2]
          · rw [endSlot_concat] at r2
            have hml : m ≠ l := fun e' => hdAB l (by simp) (by rw [← e']; exact List.mem_cons_self ..)
            rw [__hlist_del_next_next r2, if_neg hml]
        · intro x hx
          have hxm : x ≠ m := fun e' => hmm (by rw [← e']; exact hx)
          have hnotnx : ¬(x = (st.nodes e).next ∧ (st.nodes e).next ≠ 0) := by
            rintro ⟨hx1, -⟩
            exact hxm (by rw [hx1, hmh])
          rcases list_nil_or_append_single A with rfl | ⟨A', l, rfl⟩
          · exact __hlist_del_first_untouched r2 hnotnx
          · rw [endSlot_concat] at r2
            have hxl : x ≠ l := fun e' => hdAB l (by simp)
              (by rw [← e']; exact List.mem_cons_of_mem _ hx)
            exact __hlist_del_next_untouched r2 hxl hnotnx

/-- `hlist_del` removes a member and preserves the invariant. -/
theorem hrepr_hlist_del {st : HState} {h e : Nat} {A B : List Nat}
    (hr : hrepr st h (A ++ e :: B)) :
    hrepr (hlist_del e st) h (A ++ B) := by
  have hd := hrepr___hlist_del hr
  obtain ⟨hc, nd2, h02⟩ := hd
  obtain ⟨heA, heB, -, -, -⟩ := hnodup_mid_facts hr.2.1
  refine ⟨?_, nd2, h02⟩
  refine hchain_frame hc ?_ ?_
  · show readSlot (hlist_del e st) (.firstOf h)
      = readSlot (__hlist_del e st) (.firstOf h)
    simp only [readSlot]
    rw [hlist_del_heads]
  · intro x hx
    have hxe : x ≠ e := by
      rcases List.mem_append.mp hx with h' | h'
      · exact fun e' => heA (by rw [← e']; exact h')
      · exact fun e' => heB (by rw [← e']; exact h')
    exact hlist_del_nodes_ne hxe

/-- `hlist_del_init` removes a member, preserves the invariant and leaves
the removed node unhashed. -/
theorem hrepr_hlist_del_init {st : HState} {h e : Nat} {A B : List Nat}
    (hr : hrepr st h (A ++ e :: B)) :
    hrepr (hlist_del_init e st) h (A ++ B) ∧
      hlist_unhashed e (hlist_del_init e st) = true := by
  obtain ⟨hsA, hcE⟩ := (hchain_append_iff2 A (e :: B)).mp hr.1
  obtain ⟨r1, r2, hcB⟩ := hcE
  have hhash : hlist_unhashed e st = false := by
    simp only [hlist_unhashed, r2]
    rcases list_nil_or_append_single A with rfl | ⟨A', l, rfl⟩
    · simp [endSlot]
    · rw [endSlot_concat]
      simp
  have hform : hlist_del_init e st = INIT_HLIST_NODE e (__hlist_del e st) := by
    simp [hlist_del_init, hhash]
  constructor
  · rw [hform]
    refine hrepr_INIT_NODE (hrepr___hlist_del hr) ?_
    obtain ⟨heA, heB, -, -, -⟩ := hnodup_mid_facts hr.2.1
    simp only [List.mem_append, not_or]
    exact ⟨heA, heB⟩
  · rw [hform]
    simp [hlist_unhashed, INIT_HLIST_NODE, setPprev_nodes, setHNext_nodes]

/-- `hlist_add_before` inserts a fresh non-null node before a member. -/
theorem hrepr_add_before {st : HState} {h n nxt : Nat} {A B : List Nat}
    (hr : hrepr st h (A ++ nxt :: B)) (hn : n ∉ A ++ nxt :: B)
    (hn0 : n ≠ 0) :
    hrepr (hlist_add_before n nxt st) h (A ++ n :: nxt :: B) := by
  obtain ⟨hc, nd, h0m⟩ := hr
  obtain ⟨hxA, hxB, ndA, ndB, hdAB⟩ := hnodup_mid_facts nd
  obtain ⟨h0A, hx0, h0B⟩ := hzero_mid_facts h0m
  obtain ⟨hsA, hcE⟩ := (hchain_append_iff2 A (nxt :: B)).mp hc
  obtain ⟨r1, r2, hcB⟩ := hcE
  have hnn : n ≠ nxt := fun e' => hn
    (by rw [e']; exact List.mem_append.mpr (Or.inr (List.mem_cons_self ..)))
  have hnA : n ∉ A := fun e' => hn (List.mem_append.mpr (Or.inl e'))
  have hnB : n ∉ B := fun e' => hn
    (List.mem_append.mpr (Or.inr (List.mem_cons_of_mem _ e')))
  have hnd2 : (A ++ n :: nxt :: B).Nodup := by
    refine hnodup_mid_insert ?_ ?_ (n := n) (A := A) (B := nxt :: B)
    · exact nd
    · exact hn
  have h02 : (0 : Nat) ∉ A ++ n :: nxt :: B :=
    hzero_mid_insert (A := A) (B := nxt :: B) h0m hn0
  refine ⟨?_, hnd2, h02⟩
  refine (hchain_append_iff2 A (n :: nxt :: B)).mpr ⟨?_, ?_⟩
  · -- prefix untouched
    rcases list_nil_or_append_single A with rfl | ⟨A', l, rfl⟩
    · trivial
    · rw [endSlot_concat] at r1 r2
      have hln : l ≠ n := fun e' => hnA (by rw [← e']; simp)
      have hlnxt : l ≠ nxt := fun e' => hxA (by rw [← e']; simp)
      refine hseg_frame hsA ?_ ?_ ?_
      · intro _
        show readSlot (hlist_add_before n nxt st) (.firstOf h)
          = readSlot st (.firstOf h)
        simp only [readSlot]
        rw [hlist_add_before_next_heads r2 hnn]
      · intro x hx
        rw [List.dropLast_concat] at hx
        have hxn : x ≠ n := fun e' => hnA
          (by rw [← e']; exact List.mem_append.mpr (Or.inl hx))
        have hxl : x ≠ l := fun e' => (List.nodup_append.mp ndA).2.2 hx
          (by rw [← e']; exact List.mem_cons_self ..)
        rw [hlist_add_before_next_next r2 hnn hln,
          if_neg hxn, if_neg hxl]
      · intro x hx
        have hxn : x ≠ n := fun e' => hnA (by rw [← e']; exact hx)
        have hxnxt : x ≠ nxt := fun e' => hxA (by rw [← e']; exact hx)
        rw [hlist_add_before_next_pprev r2 hnn, if_neg hxn, if_neg hxnxt]
  · -- the seam now holds `n :: nxt :: B`
    have hkey : readSlot (hlist_add_before n nxt st)
        (endSlot (.firstOf h) A) = n := by
      rcases list_nil_or_append_single A with rfl | ⟨A', l, rfl⟩
      · show (hlist_add_before n nxt st).heads h = n
        rw [hlist_add_before_first_heads r2 hnn, if_pos rfl]
      · rw [endSlot_concat] at r2 ⊢
        have hln : l ≠ n := fun e' => hnA (by rw [← e']; simp)
        show ((hlist_add_before n nxt st).nodes l).next = n
        rw [hlist_add_before_next_next r2 hnn hln,
          if_neg hln, if_pos rfl]
    have hppn : ((hlist_add_before n nxt st).nodes n).pprev
        = endSlot (.firstOf h) A := by
      rcases list_nil_or_append_single A with rfl | ⟨A', l, rfl⟩
      · rw [hlist_add_before_first_pprev r2 hnn, if_pos rfl]
        rfl
      · rw [endSlot_concat] at r2 ⊢
        rw [hlist_add_before_next_pprev r2 hnn, if_pos rfl]
    have hnxtread : ((hlist_add_before n nxt st).nodes n).next = nxt := by
      rcases list_nil_or_append_single A with rfl | ⟨A', l, rfl⟩
      · rw [hlist_add_before_first_next r2 hnn, if_pos rfl]
      · rw [endSlot_concat] at r2
        have hln : l ≠ n := fun e' => hnA (by rw [← e']; simp)
        rw [hlist_add_before_next_next r2 hnn hln, if_pos rfl]
    have hppnxt : ((hlist_add_before n nxt st).nodes nxt).pprev
        = HSlot.nextOf n := by
      rcases list_nil_or_append_single A with rfl | ⟨A', l, rfl⟩
      · rw [hlist_add_before_first_pprev r2 hnn,
          if_neg (Ne.symm hnn), if_pos rfl]
      · rw [endSlot_concat] at r2
        rw [hlist_add_before_next_pprev r2 hnn,
          if_neg (Ne.symm hnn), if_pos rfl]
    refine ⟨hkey, hppn, hnxtread, hppnxt, ?_⟩
    refine hchain_frame hcB ?_ ?_
    · show readSlot (hlist_add_before n nxt st) (.nextOf nxt)
        = readSlot st (.nextOf nxt)
      simp only [readSlot]
      rcases list_nil_or_append_single A with rfl | ⟨A', l, rfl⟩
      · rw [hlist_add_before_first_next r2 hnn, if_neg (Ne.symm hnn)]
      · rw [endSlot_concat] at r2
        have hln : l ≠ n := fun e' => hnA (by rw [← e']; simp)
        have hlnxt : l ≠ nxt := fun e' => hxA (by rw [← e']; simp)
        rw [hlist_add_before_next_next r2 hnn hln,
          if_neg (Ne.symm hnn), if_neg (Ne.symm hlnxt)]
    · intro x hx
      have hxn : x ≠ n := fun e' => hnB (by rw [← e']; exact hx)
      have hxnxt : x ≠ nxt := fun e' => hxB (by rw [← e']; exact hx)
      rcases list_nil_or_append_single A with rfl | ⟨A', l, rfl⟩
      · exact hlist_add_before_first_untouched r2 hnn hxn hxnxt
      · rw [endSlot_concat] at r2
        have hln : l ≠ n := fun e' => hnA (by rw [← e']; simp)
        have hxl : x ≠ l := fun e' => hdAB l (by simp)
          (by rw [← e']; exact hx)
        exact hlist_add_before_next_untouched r2 hnn hln
          hxn hxnxt hxl

/-- `hlist_add_behind` inserts a fresh non-null node after a member. -/
theorem hrepr_add_behind {st : HState} {h n prv : Nat} {A B : List Nat}
    (hr : hrepr st h (A ++ prv :: B)) (hn : n ∉ A ++ prv :: B)
    (hn0 : n ≠ 0) :
    hrepr (hlist_add_behind n prv st) h (A ++ prv :: n :: B) := by
  obtain ⟨hc, nd, h0m⟩ := hr
  obtain ⟨hpA, hpB, ndA, ndB, hdAB⟩ := hnodup_mid_facts nd
  obtain ⟨h0A, hp0, h0B⟩ := hzero_mid_facts h0m
  obtain ⟨hsA, hcE⟩ := (hchain_append_iff2 A (prv :: B)).mp hc
  obtain ⟨r1, r2, hcB⟩ := hcE
  have hnp : n ≠ prv := fun e' => hn
    (by rw [e']; exact List.mem_append.mpr (Or.inr (List.mem_cons_self ..)))
  have hnA : n ∉ A := fun e' => hn (List.mem_append.mpr (Or.inl e'))
  have hnB : n ∉ B := fun e' => hn
    (List.mem_append.mpr (Or.inr (List.mem_cons_of_mem _ e')))
  have hnx0 : (st.nodes prv).next = B.headD 0 := hchain_read_head hcB
  have hnxne : (st.nodes prv).next ≠ n := by
    rw [hnx0]
    cases B with
    | nil => exact fun e' => hn0 e'.symm
    | cons m ms => exact fun e' => hnB (by rw [← e']; exact List.mem_cons_self ..)
  have hnd2 : (A ++ prv :: n :: B).Nodup := by
    have base : ((A ++ [prv]) ++ B).Nodup := by
      rw [List.append_assoc, List.singleton_append]; exact nd
    have hn2 : n ∉ (A ++ [prv]) ++ B := by
      simp only [List.mem_append, List.mem_singleton, not_or]
      exact ⟨⟨hnA, hnp⟩, hnB⟩
    have := hnodup_mid_insert base hn2
    rwa [List.append_assoc, List.singleton_append] at this
  have h02 : (0 : Nat) ∉ A ++ prv :: n :: B := by
    simp only [List.mem_append, List.mem_cons, not_or] at h0m ⊢
    exact ⟨h0m.1, h0m.2.1, fun e' => hn0 e'.symm, h0m.2.2⟩
  refine ⟨?_, hnd2, h02⟩
  refine (hchain_append_iff2 A (prv :: n :: B)).mpr ⟨?_, ?_⟩
  · refine hseg_frame hsA ?_ ?_ ?_
    · intro _
      show readSlot (hlist_add_behind n prv st) (.firstOf h)
        = readSlot st (.firstOf h)
      simp only [readSlot]
      rw [hlist_add_behind_heads]
    · intro x hx
      have hxA : x ∈ A := (List.dropLast_sublist A).subset hx
      have hxn : x ≠ n := fun e' => hnA (by rw [← e']; exact hxA)
      have hxp : x ≠ prv := fun e' => hpA (by rw [← e']; exact hxA)
      rw [hlist_add_behind_next hnp, if_neg hxn, if_neg hxp]
    · intro x hx
      have hxn : x ≠ n := fun e' => hnA (by rw [← e']; exact hx)
      have hcond : ¬(x = (st.nodes prv).next ∧ (st.nodes prv).next ≠ 0) := by
        rintro ⟨e1, e2⟩
        rw [hnx0] at e1
        cases B with
        | nil => exact e2 (by rw [hnx0]; rfl)
        | cons m ms =>
          exact hdAB x hx (by rw [e1]; exact List.mem_cons_self ..)
      rw [hlist_add_behind_pprev hnp hnxne, if_neg hxn, if_neg hcond]
  · have hpn2 : prv ≠ n := Ne.symm hnp
    have hppp : ¬(prv = (st.nodes prv).next ∧ (st.nodes prv).next ≠ 0) := by
      rintro ⟨e1, e2⟩
      rw [hnx0] at e1
      cases B with
      | nil => exact e2 (by rw [hnx0]; rfl)
      | cons m ms =>
        exact hpB (by rw [e1]; exact List.mem_cons_self ..)
    refine ⟨?_, ?_, ?_, ?_, ?_⟩
    · -- slot before prv still reads prv
      rcases list_nil_or_append_single A with rfl | ⟨A', l, rfl⟩
      · show (hlist_add_behind n prv st).heads h = prv
        rw [hlist_add_behind_heads]
        exact r1
      · rw [endSlot_concat] at r1 ⊢
        have hln : l ≠ n := fun e' => hnA (by rw [← e']; simp)
        have hlp : l ≠ prv := fun e' => hpA (by rw [← e']; simp)
        show ((hlist_add_behind n prv st).nodes l).next = prv
        rw [hlist_add_behind_next hnp, if_neg hln, if_neg hlp]
        exact r1
    · -- prv's pprev unchanged
      rw [hlist_add_behind_pprev hnp hnxne, if_neg hpn2, if_neg hppp]
      exact r2
    · -- prv's next is now n
      show ((hlist_add_behind n prv st).nodes prv).next = n
      rw [hlist_add_behind_next hnp, if_neg hpn2, if_pos rfl]
    · -- n's pprev points at prv's next slot
      rw [hlist_add_behind_pprev hnp hnxne, if_pos rfl]
    · -- n's next continues with B
      cases B with
      | nil =>
        show readSlot (hlist_add_behind n prv st) (.nextOf n) = 0
        simp only [readSlot]
        rw [hlist_add_behind_next hnp, if_pos rfl, hnx0]
        rfl
      | cons m ms =>
        have hm0 : m ≠ 0 :=
          fun e' => h0B (by rw [← e']; exact List.mem_cons_self ..)
        have hmn : m ≠ n :=
          fun e' => hnB (by rw [← e']; exact List.mem_cons_self ..)
        have hmp : m ≠ prv :=
          fun e' => hpB (by rw [← e']; exact List.mem_cons_self ..)
        have hmnx : m = (st.nodes prv).next := by rw [hnx0]; rfl
        obtain ⟨-, -, hms⟩ := hcB
        refine ⟨?_, ?_, ?_⟩
        · show ((hlist_add_behind n prv st).nodes n).next = m
          rw [hlist_add_behind_next hnp, if_pos rfl, hnx0]
          rfl
        · rw [hlist_add_behind_pprev hnp hnxne, if_neg hmn,
            if_pos ⟨hmnx, by rw [← hmnx]; exact hm0⟩]
        · refine hchain_frame hms ?_ ?_
          · show readSlot (hlist_add_behind n prv st) (.nextOf m)
              = readSlot st (.nextOf m)
            simp only [readSlot]
            rw [hlist_add_behind_next hnp, if_neg hmn, if_neg hmp]
          · intro x hx
            have hxn : x ≠ n :=
              fun e' => hnB (by rw [← e']; exact List.mem_cons_of_mem _ hx)
            have hxp : x ≠ prv :=
              fun e' => hpB (by rw [← e']; exact List.mem_cons_of_mem _ hx)
            have hxm : x ≠ m := fun e' => (List.nodup_cons.mp ndB).1
              (by rw [← e']; exact hx)
            refine hlist_add_behind_untouched hnp hnxne hxn hxp ?_
            rintro ⟨e1, -⟩
            exact hxm (by rw [e1, ← hmnx])

/-- `hlist_move_list` transfers a whole list to a fresh head and empties
the old head. -/
theorem hrepr_move_list {st : HState} {old _new : Nat} {ns : List Nat}
    (hr : hrepr st old ns) (hon : old ≠ _new) :
    hrepr (hlist_move_list old _new st) _new ns ∧
      hrepr (hlist_move_list old _new st) old [] := by
  obtain ⟨hc, nd, h0m⟩ := hr
  constructor
  · refine ⟨?_, nd, h0m⟩
    cases ns with
    | nil =>
      show readSlot (hlist_move_list old _new st) (.firstOf _new) = 0
      show (hlist_move_list old _new st).heads _new = 0
      rw [hlist_move_list_heads hon, if_neg (Ne.symm hon), if_pos rfl]
      exact hc
    | cons m ms =>
      obtain ⟨r1, r2, hms⟩ := hc
      have hf : st.heads old = m := r1
      have hm0 : m ≠ 0 := fun e' => h0m (by rw [← e']; exact List.mem_cons_self ..)
      have hmm : m ∉ ms := (List.nodup_cons.mp nd).1
      refine ⟨?_, ?_, ?_⟩
      · show (hlist_move_list old _new st).heads _new = m
        rw [hlist_move_list_heads hon, if_neg (Ne.symm hon), if_pos rfl]
        exact hf
      · rw [hlist_move_list_pprev, if_pos ⟨by rw [hf], by rw [hf]; exact hm0⟩]
      · refine hchain_frame hms ?_ ?_
        · show readSlot (hlist_move_list old _new st) (.nextOf m)
            = readSlot st (.nextOf m)
          simp only [readSlot]
          rw [hlist_move_list_next]
        · intro x hx
          have hxm : x ≠ m := fun e' => hmm (by rw [← e']; exact hx)
          refine hlist_move_list_untouched ?_
          rintro ⟨e1, -⟩
          exact hxm (by rw [e1, hf])
  · refine ⟨?_, List.nodup_nil, by simp⟩
    show (hlist_move_list old _new st).heads old = 0
    rw [hlist_move_list_heads hon, if_pos rfl]

/-- Exact footprint of `hlist_del` on a well-formed list: only the removed
node, the slot that pointed at it, and the successor's `pprev` change. -/
theorem hlist_del_frame_effect {st : HState} {h e : Nat} {A B : List Nat}
    (hr : hrepr st h (A ++ e :: B)) :
    (∀ x : Nat, x ≠ e → HSlot.nextOf x ≠ endSlot (.firstOf h) A →
        ((hlist_del e st).nodes x).next = (st.nodes x).next) ∧
    (∀ x : Nat, x ≠ e → x ≠ (st.nodes e).next →
        ((hlist_del e st).nodes x).pprev = (st.nodes x).pprev) ∧
    (∀ y : Nat, HSlot.firstOf y ≠ endSlot (.firstOf h) A →
        (hlist_del e st).heads y = st.heads y) ∧
    readSlot (hlist_del e st) (endSlot (.firstOf h) A) = (st.nodes e).next ∧
    ((st.nodes e).next ≠ 0 →
      ((hlist_del e st).nodes ((st.nodes e).next)).pprev
        = endSlot (.firstOf h) A) ∧
    (hlist_del e st).nodes e = ⟨LIST_POISON1, HSlot.hpoison⟩ := by
  obtain ⟨hc, nd, h0m⟩ := hr
  obtain ⟨heA, heB, ndA, ndB, hdAB⟩ := hnodup_mid_facts nd
  obtain ⟨h0A, he0, h0B⟩ := hzero_mid_facts h0m
  obtain ⟨hsA, hcE⟩ := (hchain_append_iff2 A (e :: B)).mp hc
  obtain ⟨r1, r2, hcB⟩ := hcE
  have henx : (st.nodes e).next = B.headD 0 := hchain_read_head hcB
  have hnxe : (st.nodes e).next ≠ e := by
    rw [henx]
    cases B with
    | nil => exact fun e' => he0 e'.symm
    | cons m ms =>
      exact fun e' => heB (by rw [← e']; exact List.mem_cons_self ..)
  refine ⟨?_, ?_, ?_, ?_, ?_, hlist_del_nodes_self e st⟩
  · intro x hxe hxs
    rw [hlist_del_nodes_ne hxe]
    rcases list_nil_or_append_single A with rfl | ⟨A', l, rfl⟩
    · rw [__hlist_del_first_next r2]
    · rw [endSlot_concat] at r2 hxs
      have hxl : x ≠ l := fun e' => hxs (by rw [e'])
      rw [__hlist_del_next_next r2, if_neg hxl]
  · intro x hxe hxn
    rw [hlist_del_nodes_ne hxe]
    rcases list_nil_or_append_single A with rfl | ⟨A', l, rfl⟩
    · rw [__hlist_del_first_pprev r2, if_neg (by rintro ⟨e1, -⟩; exact hxn e1)]
    · rw [endSlot_concat] at r2
      rw [__hlist_del_next_pprev r2, if_neg (by rintro ⟨e1, -⟩; exact hxn e1)]
  · intro y hy
    rw [hlist_del_heads]
    rcases list_nil_or_append_single A with rfl | ⟨A', l, rfl⟩
    · have hyh : y ≠ h := fun e' => hy (by rw [e']; rfl)
      rw [__hlist_del_first_heads r2, if_neg hyh]
    · rw [endSlot_concat] at r2
      rw [__hlist_del_next_heads r2]
  · rcases list_nil_or_append_single A with rfl | ⟨A', l, rfl⟩
    · show (hlist_del e st).heads h = (st.nodes e).next
      rw [hlist_del_heads, __hlist_del_first_heads r2, if_pos rfl]
    · rw [endSlot_concat] at r2 ⊢
      have hle : l ≠ e := fun e' => heA (by rw [← e']; simp)
      show ((hlist_del e st).nodes l).next = (st.nodes e).next
      rw [hlist_del_nodes_ne hle, __hlist_del_next_next r2, if_pos rfl]
  · intro hne
    rw [hlist_del_nodes_ne hnxe]
    rcases list_nil_or_append_single A with rfl | ⟨A', l, rfl⟩
    · rw [__hlist_del_first_pprev r2, if_pos ⟨rfl, hne⟩]
      rfl
    · rw [endSlot_concat] at r2 ⊢
      rw [__hlist_del_next_pprev r2, if_pos ⟨rfl, hne⟩]

/-- `hlist_del_init` on an unhashed node is a no-op on the whole state. -/
theorem hlist_del_init_unhashed_noop {st : HState} {n : Nat}
    (hu : hlist_unhashed n st = true) : hlist_del_init n st = st := by
  simp [hlist_del_init, hu]

theorem hlist_del_init_leaves_unhashed (n : Nat) (st : HState) :
    hlist_unhashed n (hlist_del_init n st) = true := by
  by_cases hu : hlist_unhashed n st = true
  · rw [hlist_del_init_unhashed_noop hu]
    exact hu
  · have hform : hlist_del_init n st
        = INIT_HLIST_NODE n (__hlist_del n st) := by
      simp [hlist_del_init, hu]
    rw [hform]
    simp [hlist_unhashed, INIT_HLIST_NODE, setPprev_nodes, setHNext_nodes]

/-- `hlist_del_init` is idempotent on every state. -/
theorem hlist_del_init_idem (n : Nat) (st : HState) :
    hlist_del_init n (hlist_del_init n st) = hlist_del_init n st :=
  hlist_del_init_unhashed_noop (hlist_del_init_leaves_unhashed n st)

/-- The doubly-linked `list_del_init` is idempotent as well: after the
first call the entry is self-linked, so the second unlink relinks it to
itself and the reinitialization writes the same values again. -/
theorem list_del_init_idem (e : Nat) (s : State) :
    list_del_init e (list_del_init e s) = list_del_init e s := by
  funext x
  by_cases hx : x = e
  · subst hx
    rw [list_del_init_at, list_del_init_at]
  · rw [list_del_init_agree hx]
    unfold __list_del_entry
    rw [list_del_init_at, __list_del_spec]
    simp only [if_neg hx]

/-! ## Integer hashing (`hash.h`)

32-bit (resp. 64-bit) arithmetic is modelled on `Nat` with explicit
reduction modulo `2^32` (resp. `2^64`) at each multiplication. -/

def GOLDEN_RATIO_32 : Nat := 0x61C88647

def GOLDEN_RATIO_64 : Nat := 0x61C8864680B583EB

/-- `__hash_32(val)`: `val * GOLDEN_RATIO_32` in `uint32_t`. -/
def __hash_32 (val : Nat) : Nat := val * GOLDEN_RATIO_32 % 2 ^ 32

/-- `hash_32(val, bits)`: `__hash_32(val) >> (32 - bits)`. -/
def hash_32 (val bits : Nat) : Nat := __hash_32 val >>> (32 - bits)

/-- `hash_64(val, bits)`, `BITS_PER_LONG == 64` branch:
`val * GOLDEN_RATIO_64 >> (64 - bits)` in `uint64_t`. -/
def hash_64 (val bits : Nat) : Nat :=
  (val * GOLDEN_RATIO_64 % 2 ^ 64) >>> (64 - bits)

/-- `hash_64(val, bits)`, `BITS_PER_LONG == 32` branch:
`hash_32((uint32_t)val ^ __hash_32(val >> 32), bits)`. -/
def hash_64_32bit (val bits : Nat) : Nat :=
  hash_32 ((val % 2 ^ 32) ^^^ __hash_32 (val >>> 32)) bits

theorem hash_32_lt (val : Nat) {bits : Nat} (h2 : bits ≤ 32) :
    hash_32 val bits < 2 ^ bits := by
  unfold hash_32 __hash_32
  rw [Nat.shiftRight_eq_div_pow]
  have hpos : 0 < 2 ^ (32 - bits) := Nat.pos_pow_of_pos _ (by norm_num)
  rw [Nat.div_lt_iff_lt_mul hpos]
  have hsplit : (2 : Nat) ^ bits * 2 ^ (32 - bits) = 2 ^ 32 := by
    rw [← pow_add]
    congr 1
    omega
  rw [hsplit]
  exact Nat.mod_lt _ (by norm_num)

theorem hash_64_lt (val : Nat) {bits : Nat} (h2 : bits ≤ 64) :
    hash_64 val bits < 2 ^ bits := by
  unfold hash_64
  rw [Nat.shiftRight_eq_div_pow]
  have hpos : 0 < 2 ^ (64 - bits) := Nat.pos_pow_of_pos _ (by norm_num)
  rw [Nat.div_lt_iff_lt_mul hpos]
  have hsplit : (2 : Nat) ^ bits * 2 ^ (64 - bits) = 2 ^ 64 := by
    rw [← pow_add]
    congr 1
    omega
  rw [hsplit]
  exact Nat.mod_lt _ (by norm_num)

theorem hash_64_32bit_lt (val : Nat) {bits : Nat} (h2 : bits ≤ 32) :
    hash_64_32bit val bits < 2 ^ bits :=
  hash_32_lt _ h2

/-! ## Concrete states used to exercise the main theorems -/

/-- A heap holding the circular list `1 → 2 → 3 → 1`. -/
def cs3 : State := fun x =>
  if x = 1 then ⟨2, 3⟩ else if x = 2 then ⟨3, 1⟩ else if x = 3 then ⟨1, 2⟩
  else ⟨0, 0⟩

/-- A heap holding two disjoint circular lists `1 ↔ 2` and `4 ↔ 5`. -/
def cs2 : State := fun x =>
  if x = 1 then ⟨2, 2⟩ else if x = 2 then ⟨1, 1⟩
  else if x = 4 then ⟨5, 5⟩ else if x = 5 then ⟨4, 4⟩
  else ⟨0, 0⟩

/-- A heap with an empty list at `1` and the non-empty list `2 ↔ 3`. -/
def c5s : State := fun x =>
  if x = 1 then ⟨1, 1⟩ else if x = 2 then ⟨3, 3⟩ else if x = 3 then ⟨2, 2⟩
  else ⟨0, 0⟩

/-- A hash-list heap: head `1` roots the chain `2 → 3 → 4`. -/
def hst3 : HState :=
  { heads := fun x => if x = 1 then 2 else 0,
    nodes := fun x =>
      if x = 2 then ⟨3, .firstOf 1⟩ else if x = 3 then ⟨4, .nextOf 2⟩
      else if x = 4 then ⟨0, .nextOf 3⟩ else ⟨0, .hnull⟩ }

/-! ## The claims -/

/-- C1: for every well-formed circular doubly-linked list with head `h`,
every node reachable from `h` satisfies the reciprocal-linkage invariant
`n.next.prev = n` and `n.prev.next = n` and lies on the single circular
chain through `h`; and every list operation (`INIT_LIST_HEAD`, `list_add`,
`list_add_tail`, `list_del`, `list_del_init`, `list_replace`, `list_move`,
`list_move_tail`, `list_bulk_move_tail`, `list_rotate_left`, the four
splice variants, `list_cut_position`, `list_cut_before`, `list_swap`)
applied under its documented preconditions yields a state in which the
affected heads again represent well-formed circular lists (`lrepr`), so the
invariant holds afterwards as well. -/
theorem C1_dlist_invariants (s : State) (h : Nat) (xs : List Nat)
    (hr : lrepr s h xs) :
    (∀ n, reach s h n →
      n ∈ h :: xs ∧ (s ((s n).next)).prev = n ∧ (s ((s n).prev)).next = n) ∧
    lrepr (INIT_LIST_HEAD h s) h [] ∧
    (∀ n, n ∉ h :: xs → lrepr (list_add n h s) h (n :: xs)) ∧
    (∀ n, n ∉ h :: xs → lrepr (list_add_tail n h s) h (xs ++ [n])) ∧
    (∀ A e B, xs = A ++ e :: B → lrepr (list_del e s) h (A ++ B)) ∧
    (∀ A e B, xs = A ++ e :: B →
      lrepr (list_del_init e s) h (A ++ B) ∧ lrepr (list_del_init e s) e []) ∧
    (∀ A old B n, xs = A ++ old :: B → n ∉ h :: xs →
      lrepr (list_replace old n s) h (A ++ n :: B)) ∧
    (∀ A x B, xs = A ++ x :: B → lrepr (list_move x h s) h (x :: (A ++ B))) ∧
    (∀ A x B, xs = A ++ x :: B →
      lrepr (list_move_tail x h s) h ((A ++ B) ++ [x])) ∧
    (∀ A f R B, xs = A ++ (f :: R) ++ B →
      lrepr (list_bulk_move_tail h f ((f :: R).getLastD f) s) h
        ((A ++ B) ++ (f :: R))) ∧
    lrepr (list_rotate_left h s) h (xs.tail ++ xs.take 1) ∧
    (∀ b bs, lrepr s b bs → xs ≠ [] → (∀ y ∈ h :: xs, y ∉ b :: bs) →
      lrepr (list_splice h b s) b (xs ++ bs) ∧
      lrepr (list_splice_tail h b s) b (bs ++ xs) ∧
      lrepr (list_splice_init h b s) b (xs ++ bs) ∧
      lrepr (list_splice_init h b s) h [] ∧
      lrepr (list_splice_tail_init h b s) b (bs ++ xs) ∧
      lrepr (list_splice_tail_init h b s) h []) ∧
    (∀ dest A e B, xs = A ++ e :: B → dest ∉ h :: xs →
      lrepr (list_cut_position dest h e s) dest (A ++ [e]) ∧
      lrepr (list_cut_position dest h e s) h B) ∧
    (∀ dest A e B, xs = A ++ e :: B → A ≠ [] → dest ∉ h :: xs →
      lrepr (list_cut_before dest h e s) dest A ∧
      lrepr (list_cut_before dest h e s) h (e :: B)) ∧
    (∀ a b, a ∈ xs → b ∈ xs → a ≠ b →
      lrepr (list_swap a b s) h (xs.map (transp a b))) := by
  refine ⟨?_, lrepr_INIT s h, ?_, ?_, ?_, ?_, ?_, ?_, ?_, ?_,
    lrepr_rotate_left hr, ?_, ?_, ?_, ?_⟩
  · intro n hn
    have hmem := lrepr_reach_mem hr n hn
    refine ⟨hmem, chainNP_recip_next hr.1 n hmem, ?_⟩
    have hmem2 : n ∈ xs ++ [h] := by
      rcases List.mem_cons.mp hmem with e' | e'
      · simp [e']
      · exact List.mem_append.mpr (Or.inl e')
    exact chainNP_recip_prev hr.1 n hmem2
  · intro n hn; exact lrepr_list_add hr hn
  · intro n hn; exact lrepr_list_add_tail hr hn
  · rintro A e B rfl; exact lrepr_list_del hr
  · rintro A e B rfl; exact lrepr_list_del_init hr
  · rintro A old B n rfl hn; exact (lrepr_replace hr hn).1
  · rintro A x B rfl; exact lrepr_move_same hr
  · rintro A x B rfl; exact lrepr_move_tail_same hr
  · rintro A f R B rfl; exact lrepr_bulk_move_tail hr
  · intro b bs hrb hne hdisj
    exact ⟨(lrepr_list_splice hr hrb hne hdisj).1,
      (lrepr_list_splice_tail hr hrb hne hdisj).1,
      (lrepr_list_splice_init hr hrb hne hdisj).1,
      (lrepr_list_splice_init hr hrb hne hdisj).2,
      (lrepr_list_splice_tail_init hr hrb hne hdisj).1,
      (lrepr_list_splice_tail_init hr hrb hne hdisj).2⟩
  · rintro dest A e B rfl hd; exact lrepr_cut_position_mid hr hd
  · rintro dest A e B rfl hAne hd; exact lrepr_cut_before_mid hr hAne hd
  · intro a b ha hb hab; exact lrepr_swap_same hr ha hb hab

theorem C1_dlist_invariants_witness :
    lrepr cs3 1 [2, 3] ∧ lrepr (INIT_LIST_HEAD 1 cs3) 1 [] :=
  ⟨by decide, (C1_dlist_invariants cs3 1 [2, 3] (by decide)).2.1⟩

/-- C2: for every well-formed hash list rooted at head `h`, every member
`n` satisfies `*(n.pprev) = n` and, when `n.next` is non-null,
`n.next.pprev = &n.next`; and every hlist operation (`INIT_HLIST_HEAD`,
`INIT_HLIST_NODE`, `hlist_add_head`, `hlist_add_before`,
`hlist_add_behind`, `hlist_del`, `hlist_del_init`, `hlist_move_list`)
applied under its documented preconditions again yields well-formed lists
(`hrepr`), so the invariant holds afterwards as well. -/
theorem C2_hlist_invariants (st : HState) (h : Nat) (ns : List Nat)
    (hr : hrepr st h ns) :
    (∀ st' h' ns', hrepr st' h' ns' → ∀ n ∈ ns',
      readSlot st' ((st'.nodes n).pprev) = n ∧
      ((st'.nodes n).next ≠ 0 →
        (st'.nodes ((st'.nodes n).next)).pprev = .nextOf n)) ∧
    hrepr (INIT_HLIST_HEAD h st) h [] ∧
    (∀ n, n ∉ ns → hrepr (INIT_HLIST_NODE n st) h ns) ∧
    (∀ n, n ∉ ns → n ≠ 0 → hrepr (hlist_add_head n h st) h (n :: ns)) ∧
    (∀ n A nxt B, ns = A ++ nxt :: B → n ∉ ns → n ≠ 0 →
      hrepr (hlist_add_before n nxt st) h (A ++ n :: nxt :: B)) ∧
    (∀ n A prv B, ns = A ++ prv :: B → n ∉ ns → n ≠ 0 →
      hrepr (hlist_add_behind n prv st) h (A ++ prv :: n :: B)) ∧
    (∀ A e B, ns = A ++ e :: B → hrepr (hlist_del e st) h (A ++ B)) ∧
    (∀ A e B, ns = A ++ e :: B →
      hrepr (hlist_del_init e st) h (A ++ B) ∧
      hlist_unhashed e (hlist_del_init e st) = true) ∧
    (∀ k, h ≠ k →
      hrepr (hlist_move_list h k st) k ns ∧
      hrepr (hlist_move_list h k st) h []) := by
  refine ⟨?_, hrepr_INIT_HEAD st h, ?_, ?_, ?_, ?_, ?_, ?_, ?_⟩
  · intro st' h' ns' hr' n hn
    exact hchain_invariant hr'.1 n hn
  · intro n hn; exact hrepr_INIT_NODE hr hn
  · intro n hn hn0; exact hrepr_add_head hr hn hn0
  · rintro n A nxt B rfl hn hn0; exact hrepr_add_before hr hn hn0
  · rintro n A prv B rfl hn hn0; exact hrepr_add_behind hr hn hn0
  · rintro A e B rfl; exact hrepr_hlist_del hr
  · rintro A e B rfl; exact hrepr_hlist_del_init hr
  · intro k hk; exact hrepr_move_list hr hk

theorem C2_hlist_invariants_witness :
    hrepr hst3 1 [2, 3, 4] ∧ hrepr (INIT_HLIST_HEAD 1 hst3) 1 [] :=
  ⟨by decide, (C2_hlist_invariants hst3 1 [2, 3, 4] (by decide)).2.1⟩

/-- C3: on a well-formed non-empty list with head `h` and a detached node
`n`, `list_add(n, h)` followed by `list_del(n)` restores every node of the
original cycle (the head included) to its exact pre-insert state, so
membership and all neighbor linkage are restored. -/
theorem C3_add_del_roundtrip (s : State) (h n : Nat) (xs : List Nat)
    (hr : lrepr s h xs) (hne : xs ≠ []) (hn : n ∉ h :: xs) :
    (∀ x ∈ h :: xs, list_del n (list_add n h s) x = s x) ∧
      lrepr (list_del n (list_add n h s)) h xs :=
  list_add_del_roundtrip hr hne hn

theorem C3_add_del_roundtrip_witness :
    lrepr cs3 1 [2, 3] ∧ list_del 9 (list_add 9 1 cs3) 1 = cs3 1 :=
  ⟨by decide, (C3_add_del_roundtrip cs3 1 9 [2, 3] (by decide) (by decide)
    (by decide)).1 1 (List.mem_cons_self ..)⟩

/-- C4: splicing a non-empty list `a` holding `as` to the front of a
disjoint list `b` holding `bs` yields iteration order `as ++ bs`; the
source is reinitialized to empty iff the `_init` variant was used (plain
`list_splice` leaves `a` non-empty, `list_splice_init` leaves it empty);
and with an empty source every splice variant leaves the whole heap
unchanged. -/
theorem C4_splice_correctness (s : State) (a b : Nat) (as bs : List Nat)
    (hra : lrepr s a as) (hrb : lrepr s b bs)
    (hdisj : ∀ y ∈ a :: as, y ∉ b :: bs) :
    (as ≠ [] →
      lrepr (list_splice a b s) b (as ++ bs) ∧
      lrepr (list_splice_init a b s) b (as ++ bs) ∧
      list_empty a (list_splice a b s) = false ∧
      list_empty a (list_splice_init a b s) = true) ∧
    (as = [] →
      list_splice a b s = s ∧ list_splice_tail a b s = s ∧
      list_splice_init a b s = s ∧ list_splice_tail_init a b s = s) := by
  constructor
  · intro hne
    have h1 := lrepr_list_splice hra hrb hne hdisj
    have h2 := lrepr_list_splice_init hra hrb hne hdisj
    refine ⟨h1.1, h2.1, ?_, ?_⟩
    · have he : list_empty a (list_splice a b s) = list_empty a s := by
        simp [list_empty, h1.2]
      rw [he]
      exact lrepr_not_empty hra hne
    · exact lrepr_empty h2.2
  · rintro rfl
    exact splice_noop (lrepr_empty hra)

theorem C4_splice_correctness_witness :
    lrepr cs2 1 [2] ∧ lrepr cs2 4 [5] ∧
      lrepr (list_splice 1 4 cs2) 4 [2, 5] :=
  ⟨by decide, by decide, by
    have k := (C4_splice_correctness cs2 1 4 [2] [5] (by decide) (by decide)
      (by decide)).1 (by decide)
    simpa using k.1⟩

/-- C5 counterexample to the original claim: with a well-formed *empty*
list at head `1` and `entry = head`, `list_cut_position` returns before
reaching the `entry == head` branch, so the destination `2` is left
exactly as it was — here a non-empty list — not reinitialized to an empty
list as the claim states. -/
theorem C5_cut_position_counterexample :
    lrepr c5s 1 [] ∧ list_cut_position 2 1 1 c5s = c5s ∧
      list_empty 2 (list_cut_position 2 1 1 c5s) = false := by
  have hnoop : list_cut_position 2 1 1 c5s = c5s :=
    cut_position_empty_noop (by decide)
  refine ⟨by decide, hnoop, ?_⟩
  rw [hnoop]
  decide

/-- C5 (amended): on a well-formed list, `list_cut_position(dest, h, e)`
with `e` a member moves the initial segment up to and including `e` into
`dest` and keeps the rest in `h`; with `e = h` on a *non-empty* list
nothing is moved and `dest` is reinitialized to an empty list; on an
*empty* list the call returns immediately and the whole heap — `dest`
included — is left untouched. -/
theorem C5_cut_position_amended (s : State) (dest h : Nat) (xs : List Nat)
    (hr : lrepr s h xs) (hd : dest ∉ h :: xs) :
    (∀ A e B, xs = A ++ e :: B →
      lrepr (list_cut_position dest h e s) dest (A ++ [e]) ∧
      lrepr (list_cut_position dest h e s) h B) ∧
    (xs ≠ [] →
      lrepr (list_cut_position dest h h s) dest [] ∧
      lrepr (list_cut_position dest h h s) h xs) ∧
    (xs = [] → ∀ e, list_cut_position dest h e s = s) := by
  refine ⟨?_, ?_, ?_⟩
  · rintro A e B rfl; exact lrepr_cut_position_mid hr hd
  · intro hne; exact lrepr_cut_position_self hr hne hd
  · rintro rfl e
    exact cut_position_empty_noop (lrepr_empty hr)

theorem C5_cut_position_witness :
    lrepr cs3 1 [2, 3] ∧ lrepr (list_cut_position 4 1 2 cs3) 4 [2] ∧
      lrepr (list_cut_position 4 1 2 cs3) 1 [3] := by
  have k := (C5_cut_position_amended cs3 4 1 [2, 3] (by decide) (by decide)).1
    [] 2 [3] rfl
  exact ⟨by decide, by simpa using k.1, k.2⟩

/-- C6: on a well-formed list `[n1, ..., nk]`, the safe iteration that
deletes each node during its own step visits exactly `n1, ..., nk` in list
order (each once) and leaves the head empty. -/
theorem C6_safe_iteration (s : State) (h : Nat) (xs : List Nat)
    (hr : lrepr s h xs) :
    (list_for_each_safe_del h s (xs.length + 1)).1 = xs ∧
      lrepr (list_for_each_safe_del h s (xs.length + 1)).2 h [] :=
  list_for_each_safe_del_spec hr

theorem C6_safe_iteration_witness :
    lrepr cs3 1 [2, 3] ∧ (list_for_each_safe_del 1 cs3 3).1 = [2, 3] :=
  ⟨by decide, (C6_safe_iteration cs3 1 [2, 3] (by decide)).1⟩

/-- C7: on a well-formed hash list, `hlist_del(e)` mutates only the fields
of `e` itself (poisoned), the slot that pointed at `e` (the predecessor's
`next` field, or the head's `first` field when `e` is the first node), and
the `pprev` field of `e`'s successor when it exists; every other node's
`next` and `pprev` fields and every other head are unchanged. -/
theorem C7_hlist_del_frame (st : HState) (h e : Nat) (A B : List Nat)
    (hr : hrepr st h (A ++ e :: B)) :
    (∀ x : Nat, x ≠ e → HSlot.nextOf x ≠ endSlot (.firstOf h) A →
        ((hlist_del e st).nodes x).next = (st.nodes x).next) ∧
    (∀ x : Nat, x ≠ e → x ≠ (st.nodes e).next →
        ((hlist_del e st).nodes x).pprev = (st.nodes x).pprev) ∧
    (∀ y : Nat, HSlot.firstOf y ≠ endSlot (.firstOf h) A →
        (hlist_del e st).heads y = st.heads y) ∧
    readSlot (hlist_del e st) (endSlot (.firstOf h) A) = (st.nodes e).next ∧
    ((st.nodes e).next ≠ 0 →
      ((hlist_del e st).nodes ((st.nodes e).next)).pprev
        = endSlot (.firstOf h) A) ∧
    (hlist_del e st).nodes e = ⟨LIST_POISON1, HSlot.hpoison⟩ :=
  hlist_del_frame_effect hr

theorem C7_hlist_del_frame_witness :
    hrepr hst3 1 [2, 3, 4] ∧
      ((hlist_del 3 hst3).nodes 2).pprev = (hst3.nodes 2).pprev :=
  ⟨by decide,
    (C7_hlist_del_frame hst3 1 3 [2] [4] (by decide)).2.1 2 (by decide)
      (by decide)⟩

/-- C8: `list_swap(a, b)` on distinct linked nodes exchanges their
positions: within one list the membership sequence is transformed by the
transposition of `a` and `b` (covering the adjacency edge case where `b`
immediately follows `a`), and across two disjoint lists `b` takes `a`'s
former position and `a` takes `b`'s. -/
theorem C8_list_swap (s : State) (h : Nat) (xs : List Nat) (a b : Nat)
    (hr : lrepr s h xs) :
    (a ∈ xs → b ∈ xs → a ≠ b →
      lrepr (list_swap a b s) h (xs.map (transp a b))) ∧
    (∀ k A B C D, xs = A ++ a :: B →
      lrepr s k (C ++ b :: D) →
      (∀ x ∈ h :: xs, x ∉ k :: (C ++ b :: D)) →
      lrepr (list_swap a b s) h (A ++ b :: B) ∧
        lrepr (list_swap a b s) k (C ++ a :: D)) := by
  constructor
  · intro ha hb hab; exact lrepr_swap_same hr ha hb hab
  · rintro k A B C D rfl hr2 hdisj
    exact lrepr_swap_cross hr hr2 hdisj

theorem C8_list_swap_witness :
    lrepr cs3 1 [2, 3] ∧
      lrepr (list_swap 2 3 cs3) 1 ([2, 3].map (transp 2 3)) :=
  ⟨by decide, (C8_list_swap cs3 1 [2, 3] 2 3 (by decide)).1 (by decide)
    (by decide) (by decide)⟩

/-- C9 counterexample to the original claim's contrast clause: double
removal with the doubly-linked `list_del_init` is not undefined in this
code — on a concrete well-formed list a second `list_del_init` of the same
entry is well-defined and leaves the heap exactly as after the first. -/
theorem C9_del_init_counterexample :
    list_del_init 2 (list_del_init 2 cs3) = list_del_init 2 cs3 ∧
      lrepr cs3 1 [2, 3] :=
  ⟨list_del_init_idem 2 cs3, by decide⟩

/-- C9 (amended): `hlist_del_init` on an unhashed node is a no-op on the
entire state, and `hlist_del_init` is idempotent; the doubly-linked
`list_del_init` is likewise idempotent (after the first call the entry is
self-linked, so the second call is well-defined and changes nothing),
rather than double removal being undefined. -/
theorem C9_del_init_amended (st : HState) (n : Nat) (s : State) (e : Nat) :
    (hlist_unhashed n st = true → hlist_del_init n st = st) ∧
    hlist_del_init n (hlist_del_init n st) = hlist_del_init n st ∧
    list_del_init e (list_del_init e s) = list_del_init e s :=
  ⟨fun hu => hlist_del_init_unhashed_noop hu,
    hlist_del_init_idem n st, list_del_init_idem e s⟩

/-- C10: `hash_32(val, bits)` equals `((val * 0x61C88647) mod 2^32) >>
(32 - bits)` and is strictly below `2^bits`; `hash_64(val, bits)` (either
word-size branch) is strictly below `2^bits` as well, for `1 ≤ bits ≤ 32`. -/
theorem C10_hash_bounds (val bits : Nat) (h1 : 1 ≤ bits) (h2 : bits ≤ 32) :
    hash_32 val bits = (val * 0x61C88647 % 2 ^ 32) >>> (32 - bits) ∧
    hash_32 val bits < 2 ^ bits ∧
    hash_64 val bits < 2 ^ bits ∧
    hash_64_32bit val bits < 2 ^ bits :=
  ⟨rfl, hash_32_lt val h2, hash_64_lt val (Nat.le_trans h2 (by norm_num)),
    hash_64_32bit_lt val h2⟩

theorem C10_hash_bounds_witness :
    1 ≤ 16 ∧ 16 ≤ 32 ∧ hash_32 123456789 16 < 2 ^ 16 :=
  ⟨by decide, by decide,
    (C10_hash_bounds 123456789 16 (by decide) (by decide)).2.1⟩
